import Mathlib

/-!
Verification development for the convocation-PDF record extractor
(`scripts/extract.py`, `scripts/aggregate_results.py`, `scripts/agent.py`).

The Python source is shallowly embedded:
* strings are `String`/`List Char`; Python's `str.upper`/`lower`/`strip`/
  `split`/`capitalize`/`title` are modelled for the ASCII range the
  documents use;
* each compiled regular expression of the source is hand-compiled to an
  executable matcher over `List Char` whose language (and, for the
  capturing patterns, whose leftmost/greedy capture behaviour) is that of
  the Python pattern; backtracking is expressed either by exhaustive
  continuation-passing disjunction or, where the pattern is deterministic,
  by maximal-munch consumption (noted at each definition);
* IEEE floats of the numeric code (numpy k-means etc.) are modelled by
  exact rational arithmetic over an executable fraction type `Frac`
  (integer numerator/denominator, denominator kept positive by
  construction); `np.allclose` tolerances are the exact rationals 1e-8
  and 1e-5;
* the PDF/OCR backends are modelled as deterministic per-page oracles
  (`Nat → Option` page data), which is exactly the interface
  `hybrid_extract_words` consumes.
-/

/-! ### Python string primitives (ASCII model) -/

/-- Python `\s` on the ASCII range: space, tab, newline, vertical tab,
form feed, carriage return. -/
def isWsA (c : Char) : Bool :=
  c == ' ' || c == '\t' || c == '\n' || c == '\x0b' || c == '\x0c' || c == '\r'

def isLowerA (c : Char) : Bool := 97 ≤ c.toNat && c.toNat ≤ 122

def isUpperA (c : Char) : Bool := 65 ≤ c.toNat && c.toNat ≤ 90

def isDigitA (c : Char) : Bool := 48 ≤ c.toNat && c.toNat ≤ 57

def isAlphaA (c : Char) : Bool := isLowerA c || isUpperA c

/-- Python `str.upper` on one ASCII char. -/
def upChar (c : Char) : Char :=
  if isLowerA c then Char.ofNat (c.toNat - 32) else c

/-- Python `str.lower` on one ASCII char. -/
def lowChar (c : Char) : Char :=
  if isUpperA c then Char.ofNat (c.toNat + 32) else c

/-- Case-insensitive character comparison (re.I). -/
def eqCI (a b : Char) : Bool := upChar a == upChar b

def upStr (s : String) : String := String.mk (s.data.map upChar)

def lowStr (s : String) : String := String.mk (s.data.map lowChar)

/-- Python `str.split()` (split on whitespace runs, dropping empties);
`acc` is the reversed current token. -/
def splitWsAux : List Char → List Char → List (List Char)
  | acc, [] => if acc.isEmpty then [] else [acc.reverse]
  | acc, c :: t =>
    if isWsA c then
      if acc.isEmpty then splitWsAux [] t else acc.reverse :: splitWsAux [] t
    else splitWsAux (c :: acc) t

def splitWs (l : List Char) : List (List Char) := splitWsAux [] l

/-- Python `" ".join(...)` on char lists. -/
def joinSpace : List (List Char) → List Char
  | [] => []
  | [t] => t
  | t :: u :: rest => t ++ ' ' :: joinSpace (u :: rest)

/-- `norm_space` of `extract.py`: `re.sub(r"\s+", " ", s or "").strip()`,
equivalently the single-space join of the whitespace-split tokens. -/
def norm_space (s : String) : String :=
  String.mk (joinSpace (splitWs s.data))

/-- Python `str.strip()` on a char list. -/
def stripL (l : List Char) : List Char :=
  ((l.dropWhile isWsA).reverse.dropWhile isWsA).reverse

/-- Python `str.capitalize()`: first char uppercased, rest lowercased. -/
def pyCapitalize : List Char → List Char
  | [] => []
  | c :: t => upChar c :: t.map lowChar

/-- `re.split(r"([\-'])", s)`: split at each hyphen/apostrophe, keeping the
delimiters as their own (singleton) parts; `acc` is the reversed current
segment. -/
def splitDelimsAux : List Char → List Char → List (List Char)
  | acc, [] => [acc.reverse]
  | acc, c :: t =>
    if c == '-' || c == '\'' then acc.reverse :: [c] :: splitDelimsAux [] t
    else splitDelimsAux (c :: acc) t

def splitDelims (l : List Char) : List (List Char) := splitDelimsAux [] l

/-- `titlecase_name` of `extract.py`: lowercase, split keeping `-`/`'`
delimiters, capitalize each part, rejoin. -/
def titlecase_name (s : String) : String :=
  String.mk (((splitDelims (s.data.map lowChar)).map pyCapitalize).flatten)

/-- Python `str.title()` (ASCII): a letter is uppercased when the previous
char is not a letter, lowercased otherwise. -/
def pyTitleAux : Bool → List Char → List Char
  | _, [] => []
  | prev, c :: t =>
    (if isAlphaA c then (if prev then lowChar c else upChar c) else c) :: pyTitleAux (isAlphaA c) t

def pyTitle (s : String) : String := String.mk (pyTitleAux false s.data)

/-! ### Regex matcher combinators

Boolean matchers in continuation-passing style; alternation and
quantifiers are exhaustive disjunctions, so the recognized language is
exactly that of the corresponding Python pattern. -/

abbrev Kont := List Char → Bool

/-- Single character class. -/
def charThen (p : Char → Bool) (k : Kont) : Kont := fun l =>
  match l with
  | [] => false
  | c :: t => p c && k t

/-- Case-sensitive literal. -/
def litThen : List Char → Kont → Kont
  | [], k => k
  | c :: w, k => fun l =>
    match l with
    | [] => false
    | d :: t => d == c && litThen w k t

/-- Case-insensitive literal (re.I). -/
def litCIThen : List Char → Kont → Kont
  | [], k => k
  | c :: w, k => fun l =>
    match l with
    | [] => false
    | d :: t => eqCI d c && litCIThen w k t

/-- `p*` over a single-char class (all split points tried). -/
def starThen (p : Char → Bool) (k : Kont) : Kont
  | [] => k []
  | c :: t => k (c :: t) || (p c && starThen p k t)

/-- `p+` over a single-char class. -/
def plusThen (p : Char → Bool) (k : Kont) : Kont := fun l =>
  match l with
  | [] => false
  | c :: t => p c && starThen p k t

/-- `X?` (greedy or lazy: the boolean language is the same). -/
def optThen (r : Kont → Kont) (k : Kont) : Kont := fun l => r k l || k l

/-- `\s+`. -/
def wsPlusThen (k : Kont) : Kont := plusThen isWsA k

/-- End of input (for `fullmatch`). -/
def endK : Kont := fun l => l.isEmpty

/-- Trailing context ignored (for prefix `match`/`search`). -/
def anyK : Kont := fun _ => true

/-! ### The compiled patterns of `extract.py` -/

/-- `FACULTY_PAT = ^FACULTY\s+OF\s+.+` (re.I), used via `.match`
(prefix match), so `.+` only requires one non-newline character. -/
def facultyMatch (l : List Char) : Bool :=
  litCIThen ['F', 'A', 'C', 'U', 'L', 'T', 'Y']
    (wsPlusThen (litCIThen ['O', 'F']
      (wsPlusThen (charThen (fun c => c != '\n') anyK)))) l

/-- Case-insensitive literal consumption, returning the rest. -/
def consumeCI : List Char → List Char → Option (List Char)
  | [], l => some l
  | _ :: _, [] => none
  | c :: w, d :: t => if eqCI d c then consumeCI w t else none

/-- First alternative of `QUALI_PAT`'s group 1:
`B\.?\s?[A-Z][A-Za-z\.]*` (re.I).  The greedy optionals are forced
(consuming `.`/one whitespace when present is the only path on which the
following `[A-Z]` can match, since `.`/whitespace are not letters), so
maximal munch implements Python's backtracking exactly.  Returns the rest
of the input after the group. -/
def qualiAlt1Rest (l : List Char) : Option (List Char) :=
  match l with
  | [] => none
  | c :: t =>
    if eqCI c 'B' then
      let t1 := match t with
        | '.' :: r => r
        | _ => t
      let t2 := match t1 with
        | d :: r => if isWsA d then r else t1
        | [] => t1
      match t2 with
      | d :: r =>
        if isAlphaA d then some (r.dropWhile (fun e => isAlphaA e || e == '.')) else none
      | [] => none
    else none

/-- Group 1 of `QUALI_PAT`
`^(B\.?\s?[A-Z][A-Za-z\.]*|BSc|B\.Eng\.|BEng|HND|ND|PGD|MSc|MBA|PhD)`
(re.I), alternatives tried in order; returns the rest after the group. -/
def qualiRest (l : List Char) : Option (List Char) :=
  (qualiAlt1Rest l).orElse fun _ =>
  (consumeCI ['B', 'S', 'c'] l).orElse fun _ =>
  (consumeCI ['B', '.', 'E', 'n', 'g', '.'] l).orElse fun _ =>
  (consumeCI ['B', 'E', 'n', 'g'] l).orElse fun _ =>
  (consumeCI ['H', 'N', 'D'] l).orElse fun _ =>
  (consumeCI ['N', 'D'] l).orElse fun _ =>
  (consumeCI ['P', 'G', 'D'] l).orElse fun _ =>
  (consumeCI ['M', 'S', 'c'] l).orElse fun _ =>
  (consumeCI ['M', 'B', 'A'] l).orElse fun _ =>
  consumeCI ['P', 'h', 'D'] l

/-- The tail `[^\n]*?(?:\(([^)]+)\))?` of `QUALI_PAT`: the lazy run plus
optional group always succeed at width zero, so Python captures group 2
exactly when `\(([^)]+)\)` matches immediately after group 1. -/
def parenGroup (rest : List Char) : Option (List Char) :=
  match rest with
  | '(' :: t =>
    let inner := t.takeWhile (fun c => !(c == ')'))
    if inner.isEmpty then none
    else match t.drop inner.length with
      | ')' :: _ => some inner
      | _ => none
  | _ => none

/-- `QUALI_PAT.match(line)`: `some (group1, group2?)` or `none`. -/
def qualiMatch (l : List Char) : Option (List Char × Option (List Char)) :=
  match qualiRest l with
  | some rest => some (l.take (l.length - rest.length), parenGroup rest)
  | none => none

/-- Tail `ACADEMIC\s+SESSION` (re.I) of `SESSION_PAT`, prefix match. -/
def sessionTailK : Kont :=
  litCIThen ['A', 'C', 'A', 'D', 'E', 'M', 'I', 'C'] (wsPlusThen (litCIThen ['S', 'E', 'S', 'S', 'I', 'O', 'N'] anyK))

/-- The lazy bounded gap `.{0,20}?` before the session tail. -/
def gapScan : Nat → List Char → Bool
  | 0, l => sessionTailK l
  | n + 1, l =>
    sessionTailK l ||
      (match l with
       | c :: t => c != '\n' && gapScan n t
       | [] => false)

/-- Consume one char of a class. -/
def take1 (p : Char → Bool) : List Char → Option (List Char)
  | c :: t => if p c then some t else none
  | [] => none

/-- One anchored attempt of
`SESSION_PAT = (\d{4}/\d{4}).{0,20}?ACADEMIC\s+SESSION` (re.I);
returns the captured `dddd/dddd` (the first nine characters). -/
def sessionAt (l : List Char) : Option (List Char) :=
  match take1 isDigitA l >>= take1 isDigitA >>= take1 isDigitA >>= take1 isDigitA >>=
      take1 (fun c => c == '/') >>= take1 isDigitA >>= take1 isDigitA >>=
      take1 isDigitA >>= take1 isDigitA with
  | some rest => if gapScan 20 rest then some (l.take 9) else none
  | none => none

/-- `SESSION_PAT.search(line)`: leftmost match's group 1. -/
def sessionSearch : List Char → Option (List Char)
  | [] => none
  | c :: t => (sessionAt (c :: t)).orElse fun _ => sessionSearch t

/-- `UPPER_TOKEN = ^[A-Z][A-Z\-']+$` (case-sensitive).  Applied only to
whitespace-split tokens, which contain no newline, so `$` is end of
string. -/
def upperTokenB (t : List Char) : Bool :=
  match t with
  | [] => false
  | c :: rest =>
    isUpperA c && !rest.isEmpty && rest.all (fun d => isUpperA d || d == '-' || d == '\'')

/-- `NAME_SPLIT_COMMA = ^\s*([A-Z\-']+),\s*(.+)$`.  The leading `\s*` and
the surname class are character-disjoint, and the surname class is
comma-disjoint, so maximal munch is exact.  After the comma, `\s*` is
greedy but backtracks one whitespace char when nothing would remain for
`(.+)`.  Inputs are whitespace-normalized (no newline), so `$` is end of
string. -/
def nameSplitComma (l : List Char) : Option (List Char × List Char) :=
  let l1 := l.dropWhile isWsA
  let sur := l1.takeWhile (fun c => isUpperA c || c == '-' || c == '\'')
  if sur.isEmpty then none
  else
    match l1.drop sur.length with
    | ',' :: t =>
      match t.dropWhile isWsA with
      | [] =>
        match t.getLast? with
        | some c => some (sur, [c])
        | none => none
      | d :: t2 => some (sur, d :: t2)
    | _ => none

/-- A pattern piece consumes only characters satisfying `P` before
handing the rest to its continuation. -/
def PatSplits (P : Char → Prop) (pat : Kont → Kont) : Prop :=
  ∀ k l, pat k l = true → ∃ pre post, l = pre ++ post ∧ (∀ c ∈ pre, P c) ∧ k post = true

/-- Character set of the grade phrasings: uppercase letters and
whitespace. -/
def UWchar (c : Char) : Prop := isUpperA c = true ∨ isWsA c = true

/-! ### `GRADE_MAP` and `is_grade`

`is_grade` applies `re.fullmatch(pat, line.upper())` to the nine
(case-sensitive) patterns in dict order.  `(X|X\s+Y)` is written as
`X(\s+Y)?` — same language. -/

def patFirstClass : Kont :=
  litThen ['F', 'I', 'R', 'S', 'T'] (wsPlusThen (litThen ['C', 'L', 'A', 'S', 'S']
    (optThen (fun k => wsPlusThen (litThen ['H', 'O', 'N', 'O', 'U', 'R', 'S'] k)) endK)))

def patSecondUpper : Kont :=
  litThen ['S', 'E', 'C', 'O', 'N', 'D'] (wsPlusThen (litThen ['C', 'L', 'A', 'S', 'S'] (wsPlusThen
    (optThen (fun k => litThen ['H', 'O', 'N', 'O', 'U', 'R', 'S'] (wsPlusThen k))
      (litThen ['U', 'P', 'P', 'E', 'R']
        (optThen (fun k => wsPlusThen (litThen ['D', 'I', 'V', 'I', 'S', 'I', 'O', 'N'] k)) endK))))))

def patSecondLower : Kont :=
  litThen ['S', 'E', 'C', 'O', 'N', 'D'] (wsPlusThen (litThen ['C', 'L', 'A', 'S', 'S'] (wsPlusThen
    (optThen (fun k => litThen ['H', 'O', 'N', 'O', 'U', 'R', 'S'] (wsPlusThen k))
      (litThen ['L', 'O', 'W', 'E', 'R']
        (optThen (fun k => wsPlusThen (litThen ['D', 'I', 'V', 'I', 'S', 'I', 'O', 'N'] k)) endK))))))

def patThirdClass : Kont :=
  litThen ['T', 'H', 'I', 'R', 'D'] (wsPlusThen (litThen ['C', 'L', 'A', 'S', 'S']
    (optThen (fun k => wsPlusThen (litThen ['H', 'O', 'N', 'O', 'U', 'R', 'S'] k)) endK)))

def patDistinction : Kont := litThen ['D', 'I', 'S', 'T', 'I', 'N', 'C', 'T', 'I', 'O', 'N'] endK

def patMerit : Kont := litThen ['M', 'E', 'R', 'I', 'T'] endK

def patUpperCredit : Kont :=
  litThen ['U', 'P', 'P', 'E', 'R'] (wsPlusThen (litThen ['C', 'R', 'E', 'D', 'I', 'T'] endK))

def patLowerCredit : Kont :=
  litThen ['L', 'O', 'W', 'E', 'R'] (wsPlusThen (litThen ['C', 'R', 'E', 'D', 'I', 'T'] endK))

def patPass : Kont := litThen ['P', 'A', 'S', 'S'] endK

/-- `is_grade` of `extract.py`. -/
def is_grade (line : String) : Option String :=
  let u := line.data.map upChar
  if patFirstClass u then some "FIRST CLASS"
  else if patSecondUpper u then some "SECOND CLASS UPPER"
  else if patSecondLower u then some "SECOND CLASS LOWER"
  else if patThirdClass u then some "THIRD CLASS"
  else if patDistinction u then some "DISTINCTION"
  else if patMerit u then some "MERIT"
  else if patUpperCredit u then some "UPPER CREDIT"
  else if patLowerCredit u then some "LOWER CREDIT"
  else if patPass u then some "PASS"
  else none

/-! ### `parse_headings`, `parse_name` -/

/-- Substring test (`needle in haystack`). -/
def startsWithL : List Char → List Char → Bool
  | [], _ => true
  | _ :: _, [] => false
  | c :: w, d :: t => d == c && startsWithL w t

def hasSub (needle : List Char) : List Char → Bool
  | [] => startsWithL needle []
  | c :: t => startsWithL needle (c :: t) || hasSub needle t

/-- Result dict of `parse_headings` (`None` field = key absent). -/
structure HeadingOut where
  faculty : Option String
  qualification : Option String
  course : Option String
  session : Option String
deriving DecidableEq, Repr

def HeadingOut.isEmptyH (h : HeadingOut) : Bool :=
  h.faculty.isNone && h.qualification.isNone && h.course.isNone && h.session.isNone

def noHeading : HeadingOut := ⟨none, none, none, none⟩

/-- `parse_headings` of `extract.py`.  The `course` key is set only when
`QUALI_PAT` matched with a parenthesized group 2 (which is necessarily
nonempty, making the source's `if m.group(2):` test equivalent to
presence). -/
def parse_headings (line : String) : HeadingOut :=
  let l := line.data
  let fac := if facultyMatch l then some (norm_space (upStr line)) else none
  let qc : Option String × Option String :=
    match qualiMatch l with
    | some (g1, g2) =>
      (some (norm_space (String.mk g1)), g2.map (fun g => norm_space (upStr (String.mk g))))
    | none => (none, none)
  let ses := (sessionSearch l).map String.mk
  ⟨fac, qc.1, qc.2, ses⟩

/-- `NOISE_STOPWORDS` of `extract.py`. -/
def NOISE_STOPWORDS : List String :=
  ["AN", "A", "ON", "OF", "IN", "THE", "AND", "WITH", "FOR", "TO",
   "UNIVERSITY", "UYO", "UNIVERSITY OF UYO",
   "CONVOCATION", "CEREMONY", "PROGRAMME", "PROGRAM", "VOLUME", "VOL", "NO",
   "INSTITUTION", "MISSION", "AN INSTITUTION ON A MISSION"]

/-- `parse_name` of `extract.py`.  The stop-word ratio test
`sw_hits/len(toks_u) >= 0.6` is modelled as `10*hits ≥ 6*len`, which
agrees with the float comparison for every list length the parser can
meet. -/
def parse_name (line0 : String) : Option (String × String × String) :=
  let line := norm_space line0
  let l := line.data
  if facultyMatch l || (qualiMatch l).isSome || (is_grade line).isSome then none
  else
    let u := (upStr line).data
    let hasComma := l.contains ','
    if (hasSub "UNIVERSITY".data u || hasSub "CONVOCATION".data u ||
        hasSub "CEREMONY".data u || hasSub "INSTITUTION".data u ||
        hasSub "MISSION".data u) && !hasComma then none
    else
      match nameSplitComma l with
      | some (sur, rest) =>
        match splitWs rest with
        | [] => none
        | fn :: others =>
          some (String.mk (stripL sur), String.mk fn,
                String.mk (joinSpace others))
      | none =>
        match splitWs l with
        | [] => none
        | t0 :: trest =>
          let tokens := t0 :: trest
          let toksU := tokens.map (fun t => t.map upChar)
          let swHits := (toksU.filter (fun t => NOISE_STOPWORDS.contains (String.mk t))).length
          if !hasComma && 10 * swHits ≥ 6 * tokens.length then none
          else
            let idx := (tokens.takeWhile upperTokenB).length
            if idx = 0 then none
            else if idx = tokens.length && tokens.length ≥ 2 then
              match trest with
              | [] => none
              | t1 :: t2s =>
                some (upStr (String.mk t0), String.mk t1,
                      String.mk (joinSpace t2s))
            else
              match tokens.drop idx with
              | [] => none
              | fn :: others =>
                let surname := upStr (String.mk (joinSpace (tokens.take idx)))
                let fnS := String.mk fn
                let other := String.mk (joinSpace others)
                if !hasComma && fnS.length ≤ 1 && other = "" then none
                else some (surname, fnS, other)

/-- The decorative-line pattern of `parse_document`:
`re.fullmatch(r"\d+|Vol\.?\s*\d+|Convocation|Ceremony|UNIVERSITY OF UYO|An?\s+Institution\s+on\s+a\s+Mission", line, re.I)`. -/
def decorativeMatch (l : List Char) : Bool :=
  plusThen isDigitA endK l ||
  litCIThen ['V', 'o', 'l']
    (optThen (fun k => charThen (fun c => c == '.') k)
      (starThen isWsA (plusThen isDigitA endK))) l ||
  litCIThen ['C', 'o', 'n', 'v', 'o', 'c', 'a', 't', 'i', 'o', 'n'] endK l ||
  litCIThen ['C', 'e', 'r', 'e', 'm', 'o', 'n', 'y'] endK l ||
  litCIThen ['U', 'N', 'I', 'V', 'E', 'R', 'S', 'I', 'T', 'Y', ' ', 'O', 'F', ' ', 'U', 'Y', 'O'] endK l ||
  litCIThen ['A']
    (optThen (fun k => charThen (fun c => eqCI c 'n') k)
      (wsPlusThen (litCIThen ['I', 'n', 's', 't', 'i', 't', 'u', 't', 'i', 'o', 'n']
        (wsPlusThen (litCIThen ['o', 'n']
          (wsPlusThen (litCIThen ['a']
            (wsPlusThen (litCIThen ['M', 'i', 's', 's', 'i', 'o', 'n'] endK))))))))) l

/-! ### Exact fractions

Executable stand-in for the source's IEEE floats: integer numerator and
denominator, denominator kept positive by construction (inputs use
positive denominators and every operation below preserves that;
`Frac.div` normalizes the sign).  Comparisons are the cross-multiplied
integer comparisons, valid for positive denominators. -/

structure Frac where
  num : Int
  den : Int
deriving DecidableEq, Repr

def Frac.ofInt (n : Int) : Frac := ⟨n, 1⟩

def Frac.add (a b : Frac) : Frac := ⟨a.num * b.den + b.num * a.den, a.den * b.den⟩

def Frac.sub (a b : Frac) : Frac := ⟨a.num * b.den - b.num * a.den, a.den * b.den⟩

def Frac.mul (a b : Frac) : Frac := ⟨a.num * b.num, a.den * b.den⟩

def Frac.div (a b : Frac) : Frac :=
  let n := a.num * b.den
  let d := a.den * b.num
  if d < 0 then ⟨-n, -d⟩ else ⟨n, d⟩

def Frac.absF (a : Frac) : Frac := ⟨(a.num.natAbs : Int), a.den⟩

def Frac.ble (a b : Frac) : Bool := decide (a.num * b.den ≤ b.num * a.den)

def Frac.blt (a b : Frac) : Bool := decide (a.num * b.den < b.num * a.den)

/-- Floor (for positive denominator). -/
def Frac.floorI (a : Frac) : Int := a.num.fdiv a.den

/-- The rational value of a fraction. -/
noncomputable def Frac.val (a : Frac) : ℚ := (a.num : ℚ) / (a.den : ℚ)

/-- `np.allclose` default tolerances. -/
def atolF : Frac := ⟨1, 100000000⟩

def rtolF : Frac := ⟨1, 100000⟩

/-- The `1e9` sort key used for empty columns in `detect_columns`. -/
def bigKeyF : Frac := ⟨1000000000, 1⟩

def sumF (l : List Frac) : Frac := l.foldl Frac.add (Frac.ofInt 0)

/-- `np.mean` of a nonempty list. -/
def meanF (l : List Frac) : Frac := (sumF l).div (Frac.ofInt l.length)

/-! ### Positioned fragments and `kmeans_1d` / `detect_columns` -/

/-- One positioned word (`{text, x0, y0, x1, y1}` of the page dicts). -/
structure Frag where
  text : String
  x0 : Frac
  y0 : Frac
  x1 : Frac
  y1 : Frac
deriving DecidableEq, Repr

/-- Horizontal center `(x0+x1)/2`. -/
def centerF (w : Frag) : Frac := (w.x0.add w.x1).div (Frac.ofInt 2)

/-- `np.quantile` (linear interpolation) of an already sorted nonempty
list: position `q*(n-1)`, value interpolated between the two
neighbouring order statistics. -/
def quantileAt (sorted : List Frac) (q : Frac) : Frac :=
  let pos := q.mul (Frac.ofInt (sorted.length - 1))
  let i := pos.floorI.toNat
  let fr := pos.sub (Frac.ofInt i)
  let xi := sorted.getD i (Frac.ofInt 0)
  if i + 1 < sorted.length then
    xi.add (fr.mul ((sorted.getD (i + 1) (Frac.ofInt 0)).sub xi))
  else xi

/-- `np.argmin` (first minimum). -/
def argminAux (bestV : Frac) (bestI i : Nat) : List Frac → Nat
  | [] => bestI
  | d :: rest =>
    if Frac.blt d bestV then argminAux d i (i + 1) rest else argminAux bestV bestI (i + 1) rest

def argminIdx (l : List Frac) : Nat :=
  match l with
  | [] => 0
  | d :: rest => argminAux d 0 1 rest

/-- Label of one point: index of the nearest center (`d.argmin(axis=1)`). -/
def labelOf (cs : List Frac) (x : Frac) : Nat := argminIdx (cs.map (fun c => (x.sub c).absF))

def labelsOf (X : List Frac) (cs : List Frac) : List Nat := X.map (labelOf cs)

/-- `X[labels==i]`. -/
def clusterVals (X : List Frac) (labels : List Nat) (i : Nat) : List Frac :=
  ((X.zip labels).filter (fun p => p.2 == i)).map (·.1)

/-- `np.array([X[labels==i].mean() if np.any(labels==i) else centers[i]
for i in range(k)])`.  A nonempty cluster contributes a 0-d scalar
(`.mean()`), an empty one the shape-`(1,)` row `centers[i]`; mixing the
two makes the list ragged, so `np.array` raises `ValueError` on
numpy >= 1.24, and on older numpy the object array it builds makes
`np.isfinite` inside the subsequent `np.allclose` raise `TypeError`.
Either way the exception escapes `kmeans_1d` in that same iteration,
modelled here as `none`.  (All-scalar and all-row lists are
homogeneous and succeed; the all-row case needs an empty `X`, which
`detect_columns` never passes.) -/
def newCentersF (k : Nat) (X cs : List Frac) (labels : List Nat) : Option (List Frac) :=
  if ((List.range k).any (fun i => (clusterVals X labels i).isEmpty)) &&
      ((List.range k).any (fun i => !(clusterVals X labels i).isEmpty)) then none
  else some ((List.range k).map (fun i =>
    let cl := clusterVals X labels i
    if cl.isEmpty then cs.getD i (Frac.ofInt 0) else meanF cl))

/-- `np.allclose(new_centers, centers)` with default `rtol=1e-5`,
`atol=1e-8`: elementwise `|a-b| <= atol + rtol*|b|`. -/
def allcloseF (news old : List Frac) : Bool :=
  (news.zip old).all (fun p => Frac.ble (p.1.sub p.2).absF (atolF.add (rtolF.mul p.2.absF)))

/-- The iteration loop of `kmeans_1d` (fuel = remaining iterations; the
caller passes `iters = 50`, so the `0, cs` base case is never reached).
Labels are recomputed from the current centers each round; a round
whose clusters mix empty and nonempty raises while building
`new_centers` (see `newCentersF`), aborting the whole call; on
convergence the loop breaks returning the labels of the current round,
otherwise the centers are replaced. -/
def kmLoop (X : List Frac) (k : Nat) : Nat → List Frac → Option (List Frac × List Nat)
  | 0, cs => some (cs, [])
  | fuel + 1, cs =>
    let labels := labelsOf X cs
    match newCentersF k X cs labels with
    | none => none
    | some news =>
      if allcloseF news cs then some (cs, labels)
      else
        match fuel with
        | 0 => some (news, labels)
        | _ + 1 => kmLoop X k fuel news

/-- Quantile-seeded initial centers:
`np.quantile(X, np.linspace(0,1,k+2)[1:-1])`, i.e. quantiles
`(i+1)/(k+1)` for `i < k` (numpy sorts internally). -/
def initCenters (X : List Frac) (k : Nat) : List Frac :=
  let xs := List.insertionSort (fun a b => Frac.ble a b = true) X
  (List.range k).map (fun i => quantileAt xs ⟨(i : Int) + 1, (k : Int) + 1⟩)

/-- `kmeans_1d` of `extract.py` (`iters = 50`); `none` models the
exception raised when some iteration leaves a cluster empty. -/
def kmeans_1d (X : List Frac) (k : Nat) : Option (List Frac × List Nat) :=
  kmLoop X k 50 (initCenters X k)

/-- `(w['y0'], w['x0'])` tuple order used by the per-column sort. -/
def yxLe (a b : Frag) : Prop :=
  Frac.blt a.y0 b.y0 = true ∨
    (a.y0.num * b.y0.den = b.y0.num * a.y0.den ∧ Frac.ble a.x0 b.x0 = true)

instance : DecidableRel yxLe := fun a b => by unfold yxLe; infer_instance

/-- Sort key of the column-ordering step:
`np.mean([...]) if cols[i] else 1e9`. -/
def colKey (cols : List (List Frag)) (i : Nat) : Frac :=
  let c := cols.getD i []
  if c.isEmpty then bigKeyF else meanF (c.map centerF)

/-- One clustering attempt of the `detect_columns` loop body.  For
`k = 0` numpy raises (argmin over an empty axis); for `k ≥ 1` the
attempt raises — and the `except` falls through to the next `k` —
whenever some `kmeans_1d` iteration leaves a cluster empty.  Only a
raising-free run returns a value. -/
def attemptK (words : List Frag) (centers : List Frac) (k : Nat) :
    Option (List (List Frag)) :=
  if k = 0 then none
  else
    match kmeans_1d centers k with
    | none => none
    | some km =>
      let labels := km.2
      let cols := (List.range k).map (fun i =>
        ((words.zip labels).filter (fun p => p.2 == i)).map (·.1))
      let cols2 := cols.map (List.insertionSort yxLe)
      let order := List.insertionSort
        (fun i j => Frac.ble (colKey cols2 i) (colKey cols2 j) = true) (List.range k)
      some (order.map (fun i => cols2.getD i []))

def firstAttempt (words : List Frag) (centers : List Frac) :
    List Nat → Option (List (List Frag))
  | [] => none
  | k :: rest =>
    match attemptK words centers k with
    | some r => some r
    | none => firstAttempt words centers rest

/-- The equal-thirds fallback bucket of a word (Python indexes the
3-element list with `min(2, int(cx//w1))`, so a negative index selects
from the end; indices below `-3` would raise and are modelled as
falling outside every bucket). -/
def thirdsBucket (pw : Frac) (w : Frag) : Int :=
  let j := min 2 (((centerF w).div (pw.div (Frac.ofInt 3))).floorI)
  if j < 0 then j + 3 else j

def thirdsSplit (words : List Frag) (pw : Frac) : List (List Frag) :=
  [0, 1, 2].map (fun i =>
    List.insertionSort yxLe (words.filter (fun w => thirdsBucket pw w == i)))

/-- `detect_columns` of `extract.py`: try `expected_cols` (when truthy),
then 3, 2, 1; fall back to equal thirds if every attempt raised. -/
def detect_columns (words : List Frag) (pw : Frac) (expected : Option Nat) :
    List (List Frag) :=
  if words.isEmpty then [[], [], []]
  else
    let centers := words.map centerF
    let ks := (match expected with
      | some e => if e = 0 then [] else [e]
      | none => []) ++ [3, 2, 1]
    match firstAttempt words centers ks with
    | some r => r
    | none => thirdsSplit words pw

/-! ### `group_lines` -/

/-- The line-building loop (`current` is the reversed current line;
`last_y` is updated at every word). -/
def glAux (ygap : Frac) : List Frag → Option Frac → List Frag → List (List Frag)
  | current, _, [] => if current.isEmpty then [] else [current.reverse]
  | current, lastY, w :: rest =>
    match lastY with
    | none => glAux ygap (w :: current) (some w.y0) rest
    | some ly =>
      if Frac.ble ((w.y0.sub ly).absF) ygap then glAux ygap (w :: current) (some w.y0) rest
      else current.reverse :: glAux ygap [w] (some w.y0) rest

/-- `group_lines` of `extract.py` (join texts with spaces, keep the
nonempty whitespace-normalized lines). -/
def group_lines (colWords : List Frag) (ygap : Frac) : List String :=
  ((glAux ygap [] none colWords).map (fun ws => String.mk (joinSpace (ws.map (·.text.data))))).filterMap
    (fun s => let n := norm_space s; if n = "" then none else some n)

/-! ### `parse_document` -/

/-- Output row of the extractor (field order as in the source). -/
structure Row where
  surname : String
  first_name : String
  other_name : String
  course_studied : String
  faculty : String
  grade : String
  qualification_obtained : String
  session : String
deriving DecidableEq, Repr

structure AuditEntry where
  page : Nat
  line : String
deriving DecidableEq, Repr

/-- The `current` dict of `parse_document`. -/
structure Ctx where
  faculty : String
  qualification : String
  course : String
  grade : String
  session : String
deriving DecidableEq, Repr

/-- Heading branch: `current[f] = h.get(f, current[f])` for the four
heading-fed fields. -/
def applyHeading (h : HeadingOut) (ctx : Ctx) : Ctx :=
  { faculty := h.faculty.getD ctx.faculty
    qualification := h.qualification.getD ctx.qualification
    course := h.course.getD ctx.course
    grade := ctx.grade
    session := h.session.getD ctx.session }

/-- The body of the line loop of `parse_document` (page index `pi` is
0-based; audit entries record `pi+1`). -/
def processLine (pi : Nat) (ctx : Ctx) (line : String) :
    Ctx × Option Row × Option AuditEntry :=
  let h := parse_headings line
  if !h.isEmptyH then (applyHeading h ctx, none, none)
  else
    match is_grade line with
    | some g => ({ ctx with grade := g }, none, none)
    | none =>
      match parse_name line with
      | some (sur, fn, oth) =>
        (ctx,
         some ⟨sur, titlecase_name fn, titlecase_name oth, ctx.course, ctx.faculty,
               ctx.grade, ctx.qualification, ctx.session⟩,
         none)
      | none =>
        if decorativeMatch line.data then (ctx, none, none)
        else (ctx, none, some ⟨pi + 1, line⟩)

def scanLine (pi : Nat) (st : Ctx × List Row × List AuditEntry) (line : String) :
    Ctx × List Row × List AuditEntry :=
  let r := processLine pi st.1 line
  (r.1, st.2.1 ++ r.2.1.toList, st.2.2 ++ r.2.2.toList)

/-- Only the context evolution of one line. -/
def stepCtx (ctx : Ctx) (line : String) : Ctx := (processLine 0 ctx line).1

/-- One page as consumed by `hybrid_extract_words`/`parse_document`. -/
structure PageW where
  page_num : Nat
  page_width : Frac
  page_height : Frac
  words : List Frag
deriving DecidableEq, Repr

/-- The line stream of one page: columns detected with the default
(`expected_cols=None`) clustering, lines built per column with the
default `y_gap = 6.0`, columns concatenated left to right. -/
def pageLines (p : PageW) : List String :=
  ((detect_columns p.words p.page_width none).map
    (fun c => group_lines c (Frac.ofInt 6))).flatten

def scanPages (st : Ctx × List Row × List AuditEntry) (pages : List (Nat × PageW)) :
    Ctx × List Row × List AuditEntry :=
  pages.foldl (fun st pp => (pageLines pp.2).foldl (scanLine pp.1) st) st

/-- `parse_document` of `extract.py`: returns the rows and the audit dict
`{'unparsed': …, 'pages': …}`. -/
def parse_document (pages : List PageW) (default_session : String) :
    List Row × List AuditEntry × Nat :=
  let fin := scanPages (⟨"", "", "", "", default_session⟩, [], []) pages.enum
  (fin.2.1, fin.2.2, pages.length)

/-! ### `extract_words_from_pdf`, `_group_ranges`, `extract_words_via_ocr`,
`hybrid_extract_words`

The PDF text layer and the OCR backend are modelled as deterministic
per-page oracles: `docT p` is the text layer of 1-based page `p`
(`none` when the page cannot be opened, which the source skips), and
`ocrD p` is the OCR result of page `p`. -/

def mkPageOf (p : Nat) (d : Frac × Frac × List Frag) : PageW :=
  ⟨p, d.1, d.2.1, d.2.2⟩

/-- `extract_words_from_pdf` on an explicit page selection: pages are
visited in the requested order, unreadable pages are skipped. -/
def extract_words_from_pdf (docT : Nat → Option (Frac × Frac × List Frag))
    (pages : List Nat) : List PageW :=
  pages.filterMap (fun p => (docT p).map (mkPageOf p))

def rangesAux (start prev : Nat) : List Nat → List (Nat × Nat)
  | [] => [(start, prev)]
  | p :: rest =>
    if p == prev + 1 then rangesAux start p rest
    else (start, prev) :: rangesAux p p rest

/-- `_group_ranges` of `extract.py`: `sorted(set(pages))` folded into
maximal contiguous `(start, end)` ranges. -/
def group_ranges (pages : List Nat) : List (Nat × Nat) :=
  match List.insertionSort (· ≤ ·) pages.dedup with
  | [] => []
  | p :: rest => rangesAux p p rest

/-- `extract_words_via_ocr`: rasterize each grouped range and OCR its
pages; the page number attributed to the `idx`-th image of a range is
`start + idx`. -/
def extract_words_via_ocr (ocrD : Nat → Frac × Frac × List Frag)
    (pages : List Nat) : List PageW :=
  (group_ranges pages).flatMap
    (fun r => (List.range' r.1 (r.2 + 1 - r.1)).map (fun p => mkPageOf p (ocrD p)))

/-- `by_num[pnum]` (dict comprehension: the last page dict with a given
`page_num` wins). -/
def byNumT (tps : List PageW) (n : Nat) : Option PageW :=
  (tps.filter (fun p => p.page_num == n)).getLast?

/-- The pages routed to the OCR fallback. -/
def toOcrOf (tps : List PageW) (minw : Nat) : List Nat :=
  (tps.map (·.page_num)).filterMap (fun n =>
    match byNumT tps n with
    | some pg => if pg.words.length < minw then some n else none
    | none => none)

/-- The pages kept directly from the text layer. -/
def keptNative (tps : List PageW) (minw : Nat) : List PageW :=
  (tps.map (·.page_num)).filterMap (fun n =>
    match byNumT tps n with
    | some pg => if pg.words.length < minw then none else some pg
    | none => none)

/-- `hybrid_extract_words` of `extract.py`: text extraction first; pages
below `min_text_words` words are OCRed and the per-page winner (more
words; ties to OCR) is kept; the result is re-sorted by page number
(`results.sort(key=...)`, a stable sort). -/
def hybrid_extract_words (docT : Nat → Option (Frac × Frac × List Frag))
    (ocrD : Nat → Frac × Frac × List Frag) (pages : List Nat) (minw : Nat) :
    List PageW :=
  let tps := extract_words_from_pdf docT pages
  let toOcr := toOcrOf tps minw
  let ocrPages := if toOcr.isEmpty then [] else extract_words_via_ocr ocrD toOcr
  let results2 := toOcr.filterMap (fun n =>
    match (ocrPages.filter (fun p => p.page_num == n)).getLast?, byNumT tps n with
    | some o, some t => some (if t.words.length ≤ o.words.length then o else t)
    | some o, none => some o
    | none, some t => some t
    | none, none => none)
  List.insertionSort (fun p q : PageW => p.page_num ≤ q.page_num)
    (keptNative tps minw ++ results2)

/-! ### `aggregate_results.py`: normalize + deduplicate -/

/-- Column-wise `norm_space` over one row (`df_all[c].map(norm_space)`
for the eight fixed columns). -/
def normRowAgg (r : Row) : Row :=
  ⟨norm_space r.surname, norm_space r.first_name, norm_space r.other_name,
   norm_space r.course_studied, norm_space r.faculty, norm_space r.grade,
   norm_space r.qualification_obtained, norm_space r.session⟩

/-- `DataFrame.drop_duplicates()` (keep the first occurrence of each
exact full row). -/
def dedupFirstAux (seen : List Row) : List Row → List Row
  | [] => []
  | r :: rest =>
    if seen.contains r then dedupFirstAux seen rest
    else r :: dedupFirstAux (r :: seen) rest

def dedupFirst (rows : List Row) : List Row := dedupFirstAux [] rows

/-- The aggregation core of `aggregate_results.main`: concatenate the
chunk frames, normalize every field, drop exact duplicate rows.  (CSV
round-tripping is abstracted: chunks are given as row lists.) -/
def aggregateRecords (chunks : List (List Row)) : List Row :=
  dedupFirst (chunks.flatten.map normRowAgg)

/-! ### `agent.post_process_records` -/

/-- A raw model-produced record (`record.get(field)`; `none` = key
absent). -/
structure RawRecord where
  surname : Option String
  first_name : Option String
  other_name : Option String
  course_studied : Option String
  faculty : Option String
  grade : Option String
  qualification_obtained : Option String
deriving DecidableEq, Repr

def pyStrip (s : String) : String := String.mk (stripL s.data)

/-- `_clean(value)`: `"" if None`, `str`, `strip`, optional case fold. -/
def cleanVal (v : Option String) : String := pyStrip (v.getD "")

def cleanUpper (v : Option String) : String := upStr (cleanVal v)

def cleanTitle (v : Option String) : String := pyTitle (cleanVal v)

/-- `StudentRecord.validate`: hard-fails only on blank surname or blank
first name. -/
def validateOK (surname first_name : String) : Bool :=
  !(pyStrip surname).isEmpty && !(pyStrip first_name).isEmpty

/-- `f"{surname}_{first_name}_{course_studied}"`. -/
def studentKey (r : Row) : String :=
  r.surname ++ "_" ++ r.first_name ++ "_" ++ r.course_studied

def cleanRecord (session : String) (r : RawRecord) : Row :=
  ⟨cleanUpper r.surname, cleanTitle r.first_name, cleanTitle r.other_name,
   cleanVal r.course_studied, cleanVal r.faculty, cleanVal r.grade,
   cleanVal r.qualification_obtained, session⟩

def ppAux (session : String) (seen : List String) : List RawRecord → List Row
  | [] => []
  | r :: rest =>
    let st := cleanRecord session r
    if !validateOK st.surname st.first_name then ppAux session seen rest
    else if seen.contains (studentKey st) then ppAux session seen rest
    else st :: ppAux session (studentKey st :: seen) rest

/-- `post_process_records` of `agent.py`: clean fields, drop invalid
records, deduplicate on the underscore-joined
`(surname, first_name, course_studied)` key. -/
def post_process_records (session : String) (rs : List RawRecord) : List Row :=
  ppAux session [] rs

/-! ## Lemmas

### Whitespace splitting and joining -/

theorem splitWsAux_eq_nil (l : List Char) :
    ∀ acc, splitWsAux acc l = [] ↔ acc = [] ∧ ∀ c ∈ l, isWsA c = true := by
  induction l with
  | nil =>
    intro acc
    cases acc <;> simp [splitWsAux]
  | cons c t ih =>
    intro acc
    by_cases hc : isWsA c = true
    · cases acc with
      | nil =>
        simp only [splitWsAux, hc, if_pos, List.isEmpty_nil, if_true]
        rw [ih]
        simp [hc]
      | cons a as =>
        simp [splitWsAux, hc]
    · cases acc <;> simp [splitWsAux, hc, ih] <;> intro h <;> simp at h

theorem splitWsAux_tokens (l : List Char) :
    ∀ acc, (∀ c ∈ acc, isWsA c = false) →
      ∀ t ∈ splitWsAux acc l, t ≠ [] ∧ ∀ c ∈ t, isWsA c = false := by
  induction l with
  | nil =>
    intro acc hacc t ht
    cases acc with
    | nil => simp [splitWsAux] at ht
    | cons a as =>
      simp [splitWsAux] at ht
      subst ht
      refine ⟨by simp, ?_⟩
      intro c hc
      exact hacc c (by simp at hc ⊢; tauto)
  | cons c t ih =>
    intro acc hacc tok htok
    by_cases hc : isWsA c = true
    · cases acc with
      | nil =>
        simp only [splitWsAux, hc, if_pos, List.isEmpty_nil, if_true] at htok
        exact ih [] (by simp) tok htok
      | cons a as =>
        simp only [splitWsAux, hc, if_pos, List.isEmpty_cons, if_false] at htok
        rcases List.mem_cons.mp htok with h | h
        · subst h
          refine ⟨by simp, ?_⟩
          intro d hd
          exact hacc d (by simp at hd ⊢; tauto)
        · exact ih [] (by simp) tok h
    · simp only [splitWsAux, hc, if_neg, Bool.false_eq_true, if_false] at htok
      refine ih (c :: acc) ?_ tok htok
      intro d hd
      rcases List.mem_cons.mp hd with h | h
      · subst h; simpa using hc
      · exact hacc d h

theorem splitWs_tokens (l : List Char) :
    ∀ t ∈ splitWs l, t ≠ [] ∧ ∀ c ∈ t, isWsA c = false :=
  splitWsAux_tokens l [] (by simp)

theorem joinSpace_chars (ts : List (List Char)) :
    ∀ c ∈ joinSpace ts, c = ' ' ∨ ∃ t ∈ ts, c ∈ t := by
  induction ts with
  | nil => simp [joinSpace]
  | cons t rest ih =>
    cases rest with
    | nil =>
      intro c hc
      right
      exact ⟨t, by simp, by simpa [joinSpace] using hc⟩
    | cons u rest2 =>
      intro c hc
      simp only [joinSpace, List.mem_append, List.mem_cons] at hc
      rcases hc with h | h | h
      · right; exact ⟨t, by simp, h⟩
      · left; exact h
      · rcases ih c h with h' | ⟨t', ht', hc'⟩
        · left; exact h'
        · right; exact ⟨t', by simp [ht'], hc'⟩

theorem joinSpace_ne_nil (ts : List (List Char)) (hne : ts ≠ [])
    (htoks : ∀ t ∈ ts, t ≠ []) : joinSpace ts ≠ [] := by
  cases ts with
  | nil => exact absurd rfl hne
  | cons t rest =>
    cases rest with
    | nil =>
      simpa [joinSpace] using htoks t (by simp)
    | cons u rest2 =>
      have := htoks t (by simp)
      cases t with
      | nil => exact absurd rfl this
      | cons c cs => simp [joinSpace]

theorem norm_space_eq_empty_iff (s : String) :
    norm_space s = "" ↔ ∀ c ∈ s.data, isWsA c = true := by
  constructor
  · intro h c hc
    by_contra hx
    have hjoin : joinSpace (splitWs s.data) = [] := by
      have := congrArg String.data h
      simpa [norm_space] using this
    have hsw : splitWs s.data ≠ [] := by
      rw [splitWs]
      intro hnil
      rw [splitWsAux_eq_nil] at hnil
      exact hx (hnil.2 c hc)
    exact joinSpace_ne_nil _ hsw (fun t ht => (splitWs_tokens _ t ht).1) hjoin
  · intro h
    have : splitWs s.data = [] := by
      rw [splitWs, splitWsAux_eq_nil]
      exact ⟨rfl, h⟩
    simp [norm_space, this, joinSpace]


theorem splitWsAux_append_tok (tok : List Char) :
    ∀ l acc, (∀ c ∈ tok, isWsA c = false) →
      splitWsAux acc (tok ++ l) = splitWsAux (tok.reverse ++ acc) l := by
  induction tok with
  | nil => intro l acc _; simp
  | cons c rest ih =>
    intro l acc htok
    have hc : isWsA c = false := htok c (by simp)
    rw [List.cons_append]
    have step : splitWsAux acc (c :: (rest ++ l)) = splitWsAux (c :: acc) (rest ++ l) := by
      rw [splitWsAux]
      simp [hc]
    rw [step, ih l (c :: acc) (fun d hd => htok d (by simp [hd]))]
    simp

theorem splitWsAux_tok_only (tok : List Char) (h : ∀ c ∈ tok, isWsA c = false)
    (hne : tok ≠ []) : splitWsAux [] tok = [tok] := by
  have := splitWsAux_append_tok tok [] [] h
  simp only [List.append_nil] at this
  rw [this, splitWsAux]
  have : tok.reverse.isEmpty = false := by
    simp [List.isEmpty_iff, hne]
  simp [this]

theorem splitWs_joinSpace (ts : List (List Char))
    (h : ∀ t ∈ ts, t ≠ [] ∧ ∀ c ∈ t, isWsA c = false) :
    splitWs (joinSpace ts) = ts := by
  induction ts with
  | nil => simp [joinSpace, splitWs, splitWsAux]
  | cons t rest ih =>
    cases rest with
    | nil =>
      have ht := h t (by simp)
      rw [joinSpace, splitWs]
      exact splitWsAux_tok_only t ht.2 ht.1
    | cons u rest2 =>
      have ht := h t (by simp)
      rw [joinSpace, splitWs]
      rw [splitWsAux_append_tok t _ [] ht.2]
      have hrev : t.reverse.isEmpty = false := by
        simp [List.isEmpty_iff]
        exact ht.1
      rw [splitWsAux]
      have hws : isWsA ' ' = true := by decide
      simp only [List.append_nil, hws, if_pos, hrev, Bool.false_eq_true, if_false,
        List.reverse_reverse]
      have := ih (fun x hx => h x (by simp [List.mem_cons] at hx ⊢; tauto))
      rw [splitWs] at this
      rw [this]

theorem norm_space_idem (s : String) : norm_space (norm_space s) = norm_space s := by
  have h := splitWs_tokens s.data
  show norm_space (String.mk (joinSpace (splitWs s.data))) = _
  rw [norm_space]
  simp only []
  rw [splitWs_joinSpace (splitWs s.data) h]
  rfl

/-! ### Character lemmas -/

theorem toNat_ofNat_valid (n : Nat) (h : n < 55296) : (Char.ofNat n).toNat = n := by
  unfold Char.ofNat
  rw [dif_pos (Or.inl h)]
  rfl

theorem upChar_toNat_of_lower (c : Char) (h : isLowerA c = true) :
    (upChar c).toNat = c.toNat - 32 := by
  simp only [isLowerA, Bool.and_eq_true, decide_eq_true_eq] at h
  rw [upChar, if_pos]
  · exact toNat_ofNat_valid _ (by omega)
  · simp [isLowerA]; omega

theorem upChar_eq_self (c : Char) (h : isLowerA c = false) : upChar c = c := by
  rw [upChar, if_neg]
  simp [h]

theorem isWsA_toNat (c : Char) :
    isWsA c = true ↔ c.toNat ∈ ([32, 9, 10, 11, 12, 13] : List Nat) := by
  constructor
  · intro h
    simp only [isWsA, Bool.or_eq_true, beq_iff_eq] at h
    rcases h with ((((h | h) | h) | h) | h) | h <;> subst h <;> simp
  · intro h
    have hext : ∀ n : Nat, c.toNat = n → n < 55296 → c = Char.ofNat n := by
      intro n hn hlt
      have := congrArg Char.ofNat hn
      rwa [Char.ofNat_toNat] at this
    simp only [List.mem_cons, List.mem_singleton] at h
    rcases h with h | h | h | h | h | h | h
    case _ => rw [hext _ h (by omega)]; decide
    case _ => rw [hext _ h (by omega)]; decide
    case _ => rw [hext _ h (by omega)]; decide
    case _ => rw [hext _ h (by omega)]; decide
    case _ => rw [hext _ h (by omega)]; decide
    case _ => rw [hext _ h (by omega)]; decide
    case _ => exact absurd h (List.not_mem_nil _)

theorem isWsA_upChar (c : Char) : isWsA (upChar c) = isWsA c := by
  by_cases h : isLowerA c = true
  · have h1 := upChar_toNat_of_lower c h
    simp only [isLowerA, Bool.and_eq_true, decide_eq_true_eq] at h
    have hws : isWsA c = false := by
      by_contra hx
      simp only [Bool.not_eq_false] at hx
      rw [isWsA_toNat] at hx
      simp at hx
      omega
    rw [hws]
    by_contra hx
    simp only [Bool.not_eq_false] at hx
    rw [isWsA_toNat] at hx
    simp at hx
    omega
  · rw [upChar_eq_self c (by simpa using h)]

theorem isDigitA_upChar (c : Char) : isDigitA (upChar c) = isDigitA c := by
  by_cases h : isLowerA c = true
  · have h1 := upChar_toNat_of_lower c h
    simp only [isLowerA, Bool.and_eq_true, decide_eq_true_eq] at h
    have hdc : isDigitA c = false := by simp [isDigitA]; omega
    rw [hdc]
    by_contra hx
    simp only [Bool.not_eq_false, isDigitA, Bool.and_eq_true, decide_eq_true_eq] at hx
    rw [h1] at hx
    omega
  · rw [upChar_eq_self c (by simpa using h)]

theorem not_digit_of_upper (c : Char) (h : isUpperA c = true) : isDigitA c = false := by
  simp only [isUpperA, Bool.and_eq_true, decide_eq_true_eq] at h
  by_contra hx
  simp only [Bool.not_eq_false, isDigitA, Bool.and_eq_true, decide_eq_true_eq] at hx
  omega

theorem not_digit_of_ws (c : Char) (h : isWsA c = true) : isDigitA c = false := by
  rw [isWsA_toNat] at h
  simp only [List.mem_cons, List.not_mem_nil, or_false] at h
  by_contra hx
  simp only [Bool.not_eq_false, isDigitA, Bool.and_eq_true, decide_eq_true_eq] at hx
  omega

/-! ### Pattern structure lemmas -/

theorem litThen_true_iff (w : List Char) (k : Kont) (l : List Char) :
    litThen w k l = true ↔ ∃ r, l = w ++ r ∧ k r = true := by
  induction w generalizing l with
  | nil =>
    simp [litThen]
  | cons c ws ih =>
    cases l with
    | nil => simp [litThen]
    | cons d t =>
      simp only [litThen, Bool.and_eq_true, beq_iff_eq, ih]
      constructor
      · rintro ⟨rfl, r, rfl, hk⟩
        exact ⟨r, rfl, hk⟩
      · rintro ⟨r, heq, hk⟩
        simp only [List.cons_append, List.cons.injEq] at heq
        exact ⟨heq.1, r, heq.2, hk⟩

theorem starThen_true (p : Char → Bool) (k : Kont) (l : List Char)
    (h : starThen p k l = true) :
    ∃ pre post, l = pre ++ post ∧ (∀ c ∈ pre, p c = true) ∧ k post = true := by
  induction l with
  | nil => exact ⟨[], [], rfl, by simp, by simpa [starThen] using h⟩
  | cons c t ih =>
    simp only [starThen, Bool.or_eq_true, Bool.and_eq_true] at h
    rcases h with h | ⟨hp, hs⟩
    · exact ⟨[], c :: t, rfl, by simp, h⟩
    · rcases ih hs with ⟨pre, post, heq, hpre, hk⟩
      exact ⟨c :: pre, post, by simp [heq], by
        intro d hd
        rcases List.mem_cons.mp hd with h | h
        · subst h; exact hp
        · exact hpre d h, hk⟩

theorem plusThen_true (p : Char → Bool) (k : Kont) (l : List Char)
    (h : plusThen p k l = true) :
    ∃ pre post, l = pre ++ post ∧ pre ≠ [] ∧ (∀ c ∈ pre, p c = true) ∧ k post = true := by
  cases l with
  | nil => simp [plusThen] at h
  | cons c t =>
    simp only [plusThen, Bool.and_eq_true] at h
    rcases starThen_true p k t h.2 with ⟨pre, post, heq, hpre, hk⟩
    refine ⟨c :: pre, post, by simp [heq], by simp, ?_, hk⟩
    intro d hd
    rcases List.mem_cons.mp hd with h' | h'
    · subst h'; exact h.1
    · exact hpre d h'

theorem patSplits_lit (w : List Char) (P : Char → Prop) (hw : ∀ c ∈ w, P c) :
    PatSplits P (litThen w) := by
  intro k l h
  rcases (litThen_true_iff w k l).mp h with ⟨r, rfl, hk⟩
  exact ⟨w, r, rfl, hw, hk⟩

theorem patSplits_ws (P : Char → Prop) (hws : ∀ c, isWsA c = true → P c) :
    PatSplits P wsPlusThen := by
  intro k l h
  rcases plusThen_true isWsA k l h with ⟨pre, post, heq, _, hpre, hk⟩
  exact ⟨pre, post, heq, fun c hc => hws c (hpre c hc), hk⟩

theorem patSplits_opt (P : Char → Prop) (r : Kont → Kont) (hr : PatSplits P r) :
    PatSplits P (optThen r) := by
  intro k l h
  simp only [optThen, Bool.or_eq_true] at h
  rcases h with h | h
  · exact hr k l h
  · exact ⟨[], l, rfl, by simp, h⟩

theorem patSplits_comp (P : Char → Prop) (f g : Kont → Kont)
    (hf : PatSplits P f) (hg : PatSplits P g) : PatSplits P (fun k => f (g k)) := by
  intro k l h
  rcases hf (g k) l h with ⟨pre, post, rfl, hpre, hgk⟩
  rcases hg k post hgk with ⟨pre2, post2, rfl, hpre2, hk⟩
  refine ⟨pre ++ pre2, post2, by simp, ?_, hk⟩
  intro c hc
  rcases List.mem_append.mp hc with h' | h'
  · exact hpre c h'
  · exact hpre2 c h'

theorem kontChars_of_splits (P : Char → Prop) (pat : Kont → Kont)
    (hpat : PatSplits P pat) (l : List Char) (h : pat endK l = true) :
    ∀ c ∈ l, P c := by
  rcases hpat endK l h with ⟨pre, post, rfl, hpre, hk⟩
  have : post = [] := by simpa [endK, List.isEmpty_iff] using hk
  subst this
  intro c hc
  exact hpre c (by simpa using hc)

theorem patSplits_litUW (w : List Char) (hw : ∀ c ∈ w, UWchar c) :
    PatSplits UWchar (litThen w) := patSplits_lit w UWchar hw

theorem patSplits_wsUW : PatSplits UWchar wsPlusThen :=
  patSplits_ws UWchar (fun _ h => Or.inr h)

theorem patFirstClass_chars (u : List Char) (h : patFirstClass u = true) :
    ∀ c ∈ u, UWchar c := by
  unfold patFirstClass at h
  exact kontChars_of_splits UWchar
    (fun k => litThen "FIRST".data (wsPlusThen (litThen "CLASS".data
      (optThen (fun k2 => wsPlusThen (litThen "HONOURS".data k2)) k))))
    (patSplits_comp _ _ _ (patSplits_litUW _ (by simp only [UWchar]; decide))
      (patSplits_comp _ _ _ patSplits_wsUW
        (patSplits_comp _ _ _ (patSplits_litUW _ (by simp only [UWchar]; decide))
          (patSplits_opt _ _ (patSplits_comp _ _ _ patSplits_wsUW
            (patSplits_litUW _ (by simp only [UWchar]; decide))))))) u h

theorem patSecondUpper_chars (u : List Char) (h : patSecondUpper u = true) :
    ∀ c ∈ u, UWchar c := by
  unfold patSecondUpper at h
  exact kontChars_of_splits UWchar
    (fun k => litThen "SECOND".data (wsPlusThen (litThen "CLASS".data (wsPlusThen
      (optThen (fun k2 => litThen "HONOURS".data (wsPlusThen k2))
        (litThen "UPPER".data
          (optThen (fun k2 => wsPlusThen (litThen "DIVISION".data k2)) k)))))))
    (patSplits_comp _ _ _ (patSplits_litUW _ (by simp only [UWchar]; decide))
      (patSplits_comp _ _ _ patSplits_wsUW
        (patSplits_comp _ _ _ (patSplits_litUW _ (by simp only [UWchar]; decide))
          (patSplits_comp _ _ _ patSplits_wsUW
            (patSplits_comp _ _ _
              (patSplits_opt _ _ (patSplits_comp _ _ _
                (patSplits_litUW _ (by simp only [UWchar]; decide)) patSplits_wsUW))
              (patSplits_comp _ _ _ (patSplits_litUW _ (by simp only [UWchar]; decide))
                (patSplits_opt _ _ (patSplits_comp _ _ _ patSplits_wsUW
                  (patSplits_litUW _ (by simp only [UWchar]; decide)))))))))) u h

theorem patSecondLower_chars (u : List Char) (h : patSecondLower u = true) :
    ∀ c ∈ u, UWchar c := by
  unfold patSecondLower at h
  exact kontChars_of_splits UWchar
    (fun k => litThen "SECOND".data (wsPlusThen (litThen "CLASS".data (wsPlusThen
      (optThen (fun k2 => litThen "HONOURS".data (wsPlusThen k2))
        (litThen "LOWER".data
          (optThen (fun k2 => wsPlusThen (litThen "DIVISION".data k2)) k)))))))
    (patSplits_comp _ _ _ (patSplits_litUW _ (by simp only [UWchar]; decide))
      (patSplits_comp _ _ _ patSplits_wsUW
        (patSplits_comp _ _ _ (patSplits_litUW _ (by simp only [UWchar]; decide))
          (patSplits_comp _ _ _ patSplits_wsUW
            (patSplits_comp _ _ _
              (patSplits_opt _ _ (patSplits_comp _ _ _
                (patSplits_litUW _ (by simp only [UWchar]; decide)) patSplits_wsUW))
              (patSplits_comp _ _ _ (patSplits_litUW _ (by simp only [UWchar]; decide))
                (patSplits_opt _ _ (patSplits_comp _ _ _ patSplits_wsUW
                  (patSplits_litUW _ (by simp only [UWchar]; decide)))))))))) u h

theorem patThirdClass_chars (u : List Char) (h : patThirdClass u = true) :
    ∀ c ∈ u, UWchar c := by
  unfold patThirdClass at h
  exact kontChars_of_splits UWchar
    (fun k => litThen "THIRD".data (wsPlusThen (litThen "CLASS".data
      (optThen (fun k2 => wsPlusThen (litThen "HONOURS".data k2)) k))))
    (patSplits_comp _ _ _ (patSplits_litUW _ (by simp only [UWchar]; decide))
      (patSplits_comp _ _ _ patSplits_wsUW
        (patSplits_comp _ _ _ (patSplits_litUW _ (by simp only [UWchar]; decide))
          (patSplits_opt _ _ (patSplits_comp _ _ _ patSplits_wsUW
            (patSplits_litUW _ (by simp only [UWchar]; decide))))))) u h

theorem patDistinction_chars (u : List Char) (h : patDistinction u = true) :
    ∀ c ∈ u, UWchar c := by
  unfold patDistinction at h
  exact kontChars_of_splits UWchar (litThen "DISTINCTION".data)
    (patSplits_litUW _ (by simp only [UWchar]; decide)) u h

theorem patMerit_chars (u : List Char) (h : patMerit u = true) :
    ∀ c ∈ u, UWchar c := by
  unfold patMerit at h
  exact kontChars_of_splits UWchar (litThen "MERIT".data)
    (patSplits_litUW _ (by simp only [UWchar]; decide)) u h

theorem patUpperCredit_chars (u : List Char) (h : patUpperCredit u = true) :
    ∀ c ∈ u, UWchar c := by
  unfold patUpperCredit at h
  exact kontChars_of_splits UWchar
    (fun k => litThen "UPPER".data (wsPlusThen (litThen "CREDIT".data k)))
    (patSplits_comp _ _ _ (patSplits_litUW _ (by simp only [UWchar]; decide))
      (patSplits_comp _ _ _ patSplits_wsUW
        (patSplits_litUW _ (by simp only [UWchar]; decide)))) u h

theorem patLowerCredit_chars (u : List Char) (h : patLowerCredit u = true) :
    ∀ c ∈ u, UWchar c := by
  unfold patLowerCredit at h
  exact kontChars_of_splits UWchar
    (fun k => litThen "LOWER".data (wsPlusThen (litThen "CREDIT".data k)))
    (patSplits_comp _ _ _ (patSplits_litUW _ (by simp only [UWchar]; decide))
      (patSplits_comp _ _ _ patSplits_wsUW
        (patSplits_litUW _ (by simp only [UWchar]; decide)))) u h

theorem patPass_chars (u : List Char) (h : patPass u = true) :
    ∀ c ∈ u, UWchar c := by
  unfold patPass at h
  exact kontChars_of_splits UWchar (litThen "PASS".data)
    (patSplits_litUW _ (by simp only [UWchar]; decide)) u h

theorem no_digit_of_UW (l : List Char) (h : ∀ c ∈ l.map upChar, UWchar c) :
    ∀ c ∈ l, isDigitA c = false := by
  intro c hc
  have h1 : UWchar (upChar c) := h (upChar c) (List.mem_map_of_mem upChar hc)
  rw [← isDigitA_upChar]
  rcases h1 with h1 | h1
  · exact not_digit_of_upper _ h1
  · exact not_digit_of_ws _ h1

theorem sessionAt_none_of_head (c : Char) (t : List Char) (hc : isDigitA c = false) :
    sessionAt (c :: t) = none := by
  have h1 : take1 isDigitA (c :: t) = none := by simp [take1, hc]
  simp [sessionAt, h1]

theorem sessionSearch_none (l : List Char) (h : ∀ c ∈ l, isDigitA c = false) :
    sessionSearch l = none := by
  induction l with
  | nil => rfl
  | cons c t ih =>
    rw [sessionSearch, sessionAt_none_of_head c t (h c (by simp))]
    show sessionSearch t = none
    exact ih (fun d hd => h d (by simp [hd]))

theorem map_upChar_two (l : List Char) (a b : Char) (r : List Char)
    (h : l.map upChar = a :: b :: r) :
    ∃ c₀ c₁ t, l = c₀ :: c₁ :: t ∧ upChar c₀ = a ∧ upChar c₁ = b := by
  cases l with
  | nil => simp at h
  | cons c₀ l1 =>
    cases l1 with
    | nil => simp at h
    | cons c₁ t =>
      simp only [List.map_cons, List.cons.injEq] at h
      exact ⟨c₀, c₁, t, rfl, h.1, h.2.1⟩

theorem parse_headings_none_of (line : String)
    (hf : facultyMatch line.data = false)
    (hq : qualiMatch line.data = none)
    (hs : sessionSearch line.data = none) :
    parse_headings line = noHeading := by
  simp [parse_headings, hf, hq, hs, noHeading]

theorem facultyMatch_false_of_two (c₀ c₁ : Char) (t : List Char)
    (h : upChar c₀ ≠ 'F' ∨ upChar c₁ ≠ 'A') : facultyMatch (c₀ :: c₁ :: t) = false := by
  show litCIThen ['F', 'A', 'C', 'U', 'L', 'T', 'Y'] _ (c₀ :: c₁ :: t) = false
  simp only [litCIThen, eqCI]
  have hup : upChar 'F' = 'F' := by decide
  have hup2 : upChar 'A' = 'A' := by decide
  rcases h with h | h
  · simp [hup, beq_eq_false_iff_ne, h]
  · simp [hup2, beq_eq_false_iff_ne, h]

theorem qualiMatch_none_two (c₀ c₁ : Char) (t : List Char) (x y : Char)
    (h₀ : upChar c₀ = x) (h₁ : upChar c₁ = y)
    (hx : x ≠ 'B' ∧ x ≠ 'H' ∧ x ≠ 'N')
    (hP : x = 'P' → y ≠ 'G' ∧ y ≠ 'H')
    (hM : x = 'M' → y ≠ 'S' ∧ y ≠ 'B') :
    qualiMatch (c₀ :: c₁ :: t) = none := by
  have eB : eqCI c₀ 'B' = false := by
    unfold eqCI
    rw [h₀, show upChar 'B' = 'B' from by decide]
    exact beq_eq_false_iff_ne.mpr hx.1
  have eH : eqCI c₀ 'H' = false := by
    unfold eqCI
    rw [h₀, show upChar 'H' = 'H' from by decide]
    exact beq_eq_false_iff_ne.mpr hx.2.1
  have eN : eqCI c₀ 'N' = false := by
    unfold eqCI
    rw [h₀, show upChar 'N' = 'N' from by decide]
    exact beq_eq_false_iff_ne.mpr hx.2.2
  have e1 : qualiAlt1Rest (c₀ :: c₁ :: t) = none := by
    simp [qualiAlt1Rest, eB]
  have cBSc : consumeCI ['B', 'S', 'c'] (c₀ :: c₁ :: t) = none := by
    simp [consumeCI, eB]
  have cBEngDot : consumeCI ['B', '.', 'E', 'n', 'g', '.'] (c₀ :: c₁ :: t) = none := by
    simp [consumeCI, eB]
  have cBEng : consumeCI ['B', 'E', 'n', 'g'] (c₀ :: c₁ :: t) = none := by
    simp [consumeCI, eB]
  have cHND : consumeCI ['H', 'N', 'D'] (c₀ :: c₁ :: t) = none := by
    simp [consumeCI, eH]
  have cND : consumeCI ['N', 'D'] (c₀ :: c₁ :: t) = none := by
    simp [consumeCI, eN]
  have cPGD : consumeCI ['P', 'G', 'D'] (c₀ :: c₁ :: t) = none := by
    by_cases hxP : x = 'P'
    · have eG : eqCI c₁ 'G' = false := by
        unfold eqCI
        rw [h₁, show upChar 'G' = 'G' from by decide]
        exact beq_eq_false_iff_ne.mpr (hP hxP).1
      simp [consumeCI, eG]
    · have eP : eqCI c₀ 'P' = false := by
        unfold eqCI
        rw [h₀, show upChar 'P' = 'P' from by decide]
        exact beq_eq_false_iff_ne.mpr hxP
      simp [consumeCI, eP]
  have cPhD : consumeCI ['P', 'h', 'D'] (c₀ :: c₁ :: t) = none := by
    by_cases hxP : x = 'P'
    · have eh2 : eqCI c₁ 'h' = false := by
        unfold eqCI
        rw [h₁, show upChar 'h' = 'H' from by decide]
        exact beq_eq_false_iff_ne.mpr (hP hxP).2
      simp [consumeCI, eh2]
    · have eP : eqCI c₀ 'P' = false := by
        unfold eqCI
        rw [h₀, show upChar 'P' = 'P' from by decide]
        exact beq_eq_false_iff_ne.mpr hxP
      simp [consumeCI, eP]
  have cMSc : consumeCI ['M', 'S', 'c'] (c₀ :: c₁ :: t) = none := by
    by_cases hxM : x = 'M'
    · have eS : eqCI c₁ 'S' = false := by
        unfold eqCI
        rw [h₁, show upChar 'S' = 'S' from by decide]
        exact beq_eq_false_iff_ne.mpr (hM hxM).1
      simp [consumeCI, eS]
    · have eM2 : eqCI c₀ 'M' = false := by
        unfold eqCI
        rw [h₀, show upChar 'M' = 'M' from by decide]
        exact beq_eq_false_iff_ne.mpr hxM
      simp [consumeCI, eM2]
  have cMBA : consumeCI ['M', 'B', 'A'] (c₀ :: c₁ :: t) = none := by
    by_cases hxM : x = 'M'
    · have eB2 : eqCI c₁ 'B' = false := by
        unfold eqCI
        rw [h₁, show upChar 'B' = 'B' from by decide]
        exact beq_eq_false_iff_ne.mpr (hM hxM).2
      simp [consumeCI, eB2]
    · have eM2 : eqCI c₀ 'M' = false := by
        unfold eqCI
        rw [h₀, show upChar 'M' = 'M' from by decide]
        exact beq_eq_false_iff_ne.mpr hxM
      simp [consumeCI, eM2]
  have hrest : qualiRest (c₀ :: c₁ :: t) = none := by
    rw [qualiRest, e1, cBSc, cBEngDot, cBEng, cHND, cND, cPGD, cMSc, cMBA, cPhD]
    rfl
  rw [qualiMatch, hrest]

/-- A line that full-matches one of the `GRADE_MAP` patterns matches no
heading pattern: its uppercased form starts with a letter pair no
qualification or faculty alternative accepts, and it contains no digit,
so the session pattern cannot fire either. -/
theorem grade_heading_disjoint (line lab : String)
    (h : is_grade line = some lab) : parse_headings line = noHeading := by
  unfold is_grade at h
  simp only [] at h
  split_ifs at h with h1 h2 h3 h4 h5 h6 h7 h8 h9
  case _ =>
    have hch := patFirstClass_chars _ h1
    unfold patFirstClass at h1
    rcases (litThen_true_iff _ _ _).mp h1 with ⟨r, hu, _⟩
    simp only [List.cons_append, List.nil_append] at hu
    rcases map_upChar_two _ _ _ _ hu with ⟨c₀, c₁, tl, hl, h₀, h₁⟩
    have hnd := no_digit_of_UW line.data hch
    have hs := sessionSearch_none line.data hnd
    have hf : facultyMatch line.data = false := by
      rw [hl]
      exact facultyMatch_false_of_two _ _ _ (Or.inr (by rw [h₁]; decide))
    have hq : qualiMatch line.data = none := by
      rw [hl]
      exact qualiMatch_none_two _ _ _ 'F' 'I' h₀ h₁ (by decide)
        (fun hh => by first | exact absurd hh (by decide) | decide)
        (fun hh => by first | exact absurd hh (by decide) | decide)
    exact parse_headings_none_of line hf hq hs
  case _ =>
    have hch := patSecondUpper_chars _ h2
    unfold patSecondUpper at h2
    rcases (litThen_true_iff _ _ _).mp h2 with ⟨r, hu, _⟩
    simp only [List.cons_append, List.nil_append] at hu
    rcases map_upChar_two _ _ _ _ hu with ⟨c₀, c₁, tl, hl, h₀, h₁⟩
    have hnd := no_digit_of_UW line.data hch
    have hs := sessionSearch_none line.data hnd
    have hf : facultyMatch line.data = false := by
      rw [hl]
      exact facultyMatch_false_of_two _ _ _ (Or.inl (by rw [h₀]; decide))
    have hq : qualiMatch line.data = none := by
      rw [hl]
      exact qualiMatch_none_two _ _ _ 'S' 'E' h₀ h₁ (by decide)
        (fun hh => by first | exact absurd hh (by decide) | decide)
        (fun hh => by first | exact absurd hh (by decide) | decide)
    exact parse_headings_none_of line hf hq hs
  case _ =>
    have hch := patSecondLower_chars _ h3
    unfold patSecondLower at h3
    rcases (litThen_true_iff _ _ _).mp h3 with ⟨r, hu, _⟩
    simp only [List.cons_append, List.nil_append] at hu
    rcases map_upChar_two _ _ _ _ hu with ⟨c₀, c₁, tl, hl, h₀, h₁⟩
    have hnd := no_digit_of_UW line.data hch
    have hs := sessionSearch_none line.data hnd
    have hf : facultyMatch line.data = false := by
      rw [hl]
      exact facultyMatch_false_of_two _ _ _ (Or.inl (by rw [h₀]; decide))
    have hq : qualiMatch line.data = none := by
      rw [hl]
      exact qualiMatch_none_two _ _ _ 'S' 'E' h₀ h₁ (by decide)
        (fun hh => by first | exact absurd hh (by decide) | decide)
        (fun hh => by first | exact absurd hh (by decide) | decide)
    exact parse_headings_none_of line hf hq hs
  case _ =>
    have hch := patThirdClass_chars _ h4
    unfold patThirdClass at h4
    rcases (litThen_true_iff _ _ _).mp h4 with ⟨r, hu, _⟩
    simp only [List.cons_append, List.nil_append] at hu
    rcases map_upChar_two _ _ _ _ hu with ⟨c₀, c₁, tl, hl, h₀, h₁⟩
    have hnd := no_digit_of_UW line.data hch
    have hs := sessionSearch_none line.data hnd
    have hf : facultyMatch line.data = false := by
      rw [hl]
      exact facultyMatch_false_of_two _ _ _ (Or.inl (by rw [h₀]; decide))
    have hq : qualiMatch line.data = none := by
      rw [hl]
      exact qualiMatch_none_two _ _ _ 'T' 'H' h₀ h₁ (by decide)
        (fun hh => by first | exact absurd hh (by decide) | decide)
        (fun hh => by first | exact absurd hh (by decide) | decide)
    exact parse_headings_none_of line hf hq hs
  case _ =>
    have hch := patDistinction_chars _ h5
    unfold patDistinction at h5
    rcases (litThen_true_iff _ _ _).mp h5 with ⟨r, hu, _⟩
    simp only [List.cons_append, List.nil_append] at hu
    rcases map_upChar_two _ _ _ _ hu with ⟨c₀, c₁, tl, hl, h₀, h₁⟩
    have hnd := no_digit_of_UW line.data hch
    have hs := sessionSearch_none line.data hnd
    have hf : facultyMatch line.data = false := by
      rw [hl]
      exact facultyMatch_false_of_two _ _ _ (Or.inl (by rw [h₀]; decide))
    have hq : qualiMatch line.data = none := by
      rw [hl]
      exact qualiMatch_none_two _ _ _ 'D' 'I' h₀ h₁ (by decide)
        (fun hh => by first | exact absurd hh (by decide) | decide)
        (fun hh => by first | exact absurd hh (by decide) | decide)
    exact parse_headings_none_of line hf hq hs
  case _ =>
    have hch := patMerit_chars _ h6
    unfold patMerit at h6
    rcases (litThen_true_iff _ _ _).mp h6 with ⟨r, hu, _⟩
    simp only [List.cons_append, List.nil_append] at hu
    rcases map_upChar_two _ _ _ _ hu with ⟨c₀, c₁, tl, hl, h₀, h₁⟩
    have hnd := no_digit_of_UW line.data hch
    have hs := sessionSearch_none line.data hnd
    have hf : facultyMatch line.data = false := by
      rw [hl]
      exact facultyMatch_false_of_two _ _ _ (Or.inl (by rw [h₀]; decide))
    have hq : qualiMatch line.data = none := by
      rw [hl]
      exact qualiMatch_none_two _ _ _ 'M' 'E' h₀ h₁ (by decide)
        (fun hh => by first | exact absurd hh (by decide) | decide)
        (fun hh => by first | exact absurd hh (by decide) | decide)
    exact parse_headings_none_of line hf hq hs
  case _ =>
    have hch := patUpperCredit_chars _ h7
    unfold patUpperCredit at h7
    rcases (litThen_true_iff _ _ _).mp h7 with ⟨r, hu, _⟩
    simp only [List.cons_append, List.nil_append] at hu
    rcases map_upChar_two _ _ _ _ hu with ⟨c₀, c₁, tl, hl, h₀, h₁⟩
    have hnd := no_digit_of_UW line.data hch
    have hs := sessionSearch_none line.data hnd
    have hf : facultyMatch line.data = false := by
      rw [hl]
      exact facultyMatch_false_of_two _ _ _ (Or.inl (by rw [h₀]; decide))
    have hq : qualiMatch line.data = none := by
      rw [hl]
      exact qualiMatch_none_two _ _ _ 'U' 'P' h₀ h₁ (by decide)
        (fun hh => by first | exact absurd hh (by decide) | decide)
        (fun hh => by first | exact absurd hh (by decide) | decide)
    exact parse_headings_none_of line hf hq hs
  case _ =>
    have hch := patLowerCredit_chars _ h8
    unfold patLowerCredit at h8
    rcases (litThen_true_iff _ _ _).mp h8 with ⟨r, hu, _⟩
    simp only [List.cons_append, List.nil_append] at hu
    rcases map_upChar_two _ _ _ _ hu with ⟨c₀, c₁, tl, hl, h₀, h₁⟩
    have hnd := no_digit_of_UW line.data hch
    have hs := sessionSearch_none line.data hnd
    have hf : facultyMatch line.data = false := by
      rw [hl]
      exact facultyMatch_false_of_two _ _ _ (Or.inl (by rw [h₀]; decide))
    have hq : qualiMatch line.data = none := by
      rw [hl]
      exact qualiMatch_none_two _ _ _ 'L' 'O' h₀ h₁ (by decide)
        (fun hh => by first | exact absurd hh (by decide) | decide)
        (fun hh => by first | exact absurd hh (by decide) | decide)
    exact parse_headings_none_of line hf hq hs
  case _ =>
    have hch := patPass_chars _ h9
    unfold patPass at h9
    rcases (litThen_true_iff _ _ _).mp h9 with ⟨r, hu, _⟩
    simp only [List.cons_append, List.nil_append] at hu
    rcases map_upChar_two _ _ _ _ hu with ⟨c₀, c₁, tl, hl, h₀, h₁⟩
    have hnd := no_digit_of_UW line.data hch
    have hs := sessionSearch_none line.data hnd
    have hf : facultyMatch line.data = false := by
      rw [hl]
      exact facultyMatch_false_of_two _ _ _ (Or.inl (by rw [h₀]; decide))
    have hq : qualiMatch line.data = none := by
      rw [hl]
      exact qualiMatch_none_two _ _ _ 'P' 'A' h₀ h₁ (by decide)
        (fun hh => by first | exact absurd hh (by decide) | decide)
        (fun hh => by first | exact absurd hh (by decide) | decide)
    exact parse_headings_none_of line hf hq hs

/-! ### Step characterization of the line classifier -/

theorem noHeading_isEmpty : noHeading.isEmptyH = true := by decide

theorem processLine_heading (pi : Nat) (ctx : Ctx) (line : String)
    (h : (parse_headings line).isEmptyH = false) :
    processLine pi ctx line = (applyHeading (parse_headings line) ctx, none, none) := by
  simp [processLine, h]

theorem processLine_grade (pi : Nat) (ctx : Ctx) (line : String) (g : String)
    (hh : parse_headings line = noHeading) (hg : is_grade line = some g) :
    processLine pi ctx line = ({ ctx with grade := g }, none, none) := by
  simp [processLine, hh, noHeading_isEmpty, hg]

theorem processLine_name (pi : Nat) (ctx : Ctx) (line s f o : String)
    (hh : parse_headings line = noHeading) (hg : is_grade line = none)
    (hn : parse_name line = some (s, f, o)) :
    processLine pi ctx line =
      (ctx, some ⟨s, titlecase_name f, titlecase_name o, ctx.course, ctx.faculty,
                  ctx.grade, ctx.qualification, ctx.session⟩, none) := by
  simp [processLine, hh, noHeading_isEmpty, hg, hn]

theorem processLine_other (pi : Nat) (ctx : Ctx) (line : String)
    (hh : parse_headings line = noHeading) (hg : is_grade line = none)
    (hn : parse_name line = none) :
    processLine pi ctx line =
      (ctx, none, if decorativeMatch line.data then none else some ⟨pi + 1, line⟩) := by
  by_cases hd : decorativeMatch line.data
  · simp [processLine, hh, noHeading_isEmpty, hg, hn, hd]
  · simp [processLine, hh, noHeading_isEmpty, hg, hn, hd]

theorem stepCtx_grade_of_not_grade (ctx : Ctx) (line : String)
    (hg : is_grade line = none) : (stepCtx ctx line).grade = ctx.grade := by
  by_cases hh : (parse_headings line).isEmptyH = true
  · unfold stepCtx processLine
    rw [hg]
    simp only [hh, Bool.not_true, Bool.false_eq_true, if_false]
    cases hpn : parse_name line with
    | some v => simp
    | none => by_cases hd : decorativeMatch line.data <;> simp [hd]
  · have hpl := processLine_heading 0 ctx line (by simpa using hh)
    unfold stepCtx
    rw [hpl]
    simp [applyHeading]

theorem foldl_stepCtx_grade (mid : List String) :
    ∀ ctx : Ctx, (∀ l ∈ mid, is_grade l = none) →
      (mid.foldl stepCtx ctx).grade = ctx.grade := by
  induction mid with
  | nil => intro ctx _; rfl
  | cons l rest ih =>
    intro ctx h
    rw [List.foldl_cons]
    rw [ih _ (fun x hx => h x (by simp [hx]))]
    exact stepCtx_grade_of_not_grade ctx l (h l (by simp))

/-- C4: a line that, after uppercasing, full-matches one of the fixed
grade phrasings updates the context grade to its canonical label, emits
no record and no audit entry (and matches no heading, so the heading
branch cannot intercept it); `"FIRST CLASS HONOURS"` maps to
`"FIRST CLASS"`; a line that does not full-match leaves the grade
untouched; and the grade set by a grade line is inherited by every
record parsed until another grade line occurs. -/
theorem C4_grade_line_spec :
    (∀ line lab, is_grade line = some lab →
      parse_headings line = noHeading ∧
      ∀ pi ctx, processLine pi ctx line = ({ ctx with grade := lab }, none, none)) ∧
    is_grade "FIRST CLASS HONOURS" = some "FIRST CLASS" ∧
    (∀ ctx line, is_grade line = none → (stepCtx ctx line).grade = ctx.grade) ∧
    (∀ ctx g gl (mid : List String), is_grade gl = some g →
      (∀ l ∈ mid, is_grade l = none) → ((gl :: mid).foldl stepCtx ctx).grade = g) ∧
    (∀ pi ctx line s f o, parse_headings line = noHeading → is_grade line = none →
      parse_name line = some (s, f, o) →
      processLine pi ctx line =
        (ctx, some ⟨s, titlecase_name f, titlecase_name o, ctx.course, ctx.faculty,
                    ctx.grade, ctx.qualification, ctx.session⟩, none)) := by
  refine ⟨?_, by decide, ?_, ?_, ?_⟩
  · intro line lab h
    have hh := grade_heading_disjoint line lab h
    exact ⟨hh, fun pi ctx => processLine_grade pi ctx line lab hh h⟩
  · exact fun ctx line hg => stepCtx_grade_of_not_grade ctx line hg
  · intro ctx g gl mid hgl hmid
    rw [List.foldl_cons]
    rw [foldl_stepCtx_grade mid _ hmid]
    have hh := grade_heading_disjoint gl g hgl
    unfold stepCtx
    rw [processLine_grade 0 ctx gl g hh hgl]
  · intro pi ctx line s f o hh hg hn
    exact processLine_name pi ctx line s f o hh hg hn

/-- Witness for C4 at the concrete grade line of the claim. -/
theorem C4_grade_line_spec_witness :
    processLine 0 ⟨"", "", "", "", ""⟩ "FIRST CLASS HONOURS" =
      (⟨"", "", "", "FIRST CLASS", ""⟩, none, none) ∧
    ((["FIRST CLASS HONOURS", "FACULTY OF SCIENCE", "AKWAOWO, Sifon"].foldl
        stepCtx ⟨"", "", "", "", ""⟩).grade = "FIRST CLASS") := by
  constructor
  · exact (C4_grade_line_spec.1 "FIRST CLASS HONOURS" "FIRST CLASS" (by decide)).2 0 _
  · exact C4_grade_line_spec.2.2.2.1 ⟨"", "", "", "", ""⟩ "FIRST CLASS"
      "FIRST CLASS HONOURS" ["FACULTY OF SCIENCE", "AKWAOWO, Sifon"]
      (by decide) (by decide)

/-! ### Digit-only lines -/

theorem beq_false_of_digit_ge (c z : Char) (hc : isDigitA c = true)
    (hz : 58 ≤ z.toNat) : (c == z) = false := by
  simp only [isDigitA, Bool.and_eq_true, decide_eq_true_eq] at hc
  refine beq_eq_false_iff_ne.mpr ?_
  intro he
  subst he
  omega

theorem upChar_digit (c : Char) (hc : isDigitA c = true) : upChar c = c := by
  refine upChar_eq_self c ?_
  simp only [isDigitA, Bool.and_eq_true, decide_eq_true_eq] at hc
  simp only [isLowerA]
  by_contra hx
  simp only [Bool.not_eq_false, Bool.and_eq_true, decide_eq_true_eq] at hx
  omega

theorem eqCI_false_of_digit (c z : Char) (hc : isDigitA c = true)
    (hz : 58 ≤ (upChar z).toNat) : eqCI c z = false := by
  unfold eqCI
  rw [upChar_digit c hc]
  exact beq_false_of_digit_ge c (upChar z) hc hz

theorem sessionAt_none_no_slash (l : List Char)
    (h : ∀ c ∈ l, (c == '/') = false) : sessionAt l = none := by
  rcases l with _ | ⟨a, _ | ⟨b, _ | ⟨c, _ | ⟨d, _ | ⟨e, t⟩⟩⟩⟩⟩
  · rfl
  · by_cases ha : isDigitA a = true <;> simp [sessionAt, take1, ha]
  · by_cases ha : isDigitA a = true <;> by_cases hb : isDigitA b = true <;>
      simp [sessionAt, take1, ha, hb]
  · by_cases ha : isDigitA a = true <;> by_cases hb : isDigitA b = true <;>
      by_cases hc : isDigitA c = true <;> simp [sessionAt, take1, ha, hb, hc]
  · by_cases ha : isDigitA a = true <;> by_cases hb : isDigitA b = true <;>
      by_cases hc : isDigitA c = true <;> by_cases hd : isDigitA d = true <;>
      simp [sessionAt, take1, ha, hb, hc, hd]
  · have he : ¬(e = '/') := by simpa using h e (by simp)
    by_cases ha : isDigitA a = true <;> by_cases hb : isDigitA b = true <;>
      by_cases hc : isDigitA c = true <;> by_cases hd : isDigitA d = true <;>
      simp [sessionAt, take1, ha, hb, hc, hd, he]

theorem sessionSearch_none_no_slash (l : List Char)
    (h : ∀ c ∈ l, (c == '/') = false) : sessionSearch l = none := by
  induction l with
  | nil => rfl
  | cons c t ih =>
    rw [sessionSearch, sessionAt_none_no_slash (c :: t) h]
    show sessionSearch t = none
    exact ih (fun d hd => h d (by simp [hd]))

theorem beq_false_of_digit_out (c z : Char) (hc : isDigitA c = true)
    (hz : z.toNat < 48 ∨ 58 ≤ z.toNat) : (c == z) = false := by
  simp only [isDigitA, Bool.and_eq_true, decide_eq_true_eq] at hc
  refine beq_eq_false_iff_ne.mpr ?_
  intro he
  subst he
  omega

theorem facultyMatch_false_digit (c : Char) (t : List Char) (hc : isDigitA c = true) :
    facultyMatch (c :: t) = false := by
  have hF : eqCI c 'F' = false := eqCI_false_of_digit c 'F' hc (by decide)
  show litCIThen ['F', 'A', 'C', 'U', 'L', 'T', 'Y'] _ (c :: t) = false
  simp [litCIThen, hF]

theorem qualiMatch_none_digit (c : Char) (t : List Char) (hc : isDigitA c = true) :
    qualiMatch (c :: t) = none := by
  have eB : eqCI c 'B' = false := eqCI_false_of_digit c 'B' hc (by decide)
  have eH : eqCI c 'H' = false := eqCI_false_of_digit c 'H' hc (by decide)
  have eN : eqCI c 'N' = false := eqCI_false_of_digit c 'N' hc (by decide)
  have eP : eqCI c 'P' = false := eqCI_false_of_digit c 'P' hc (by decide)
  have eM : eqCI c 'M' = false := eqCI_false_of_digit c 'M' hc (by decide)
  have e1 : qualiAlt1Rest (c :: t) = none := by simp [qualiAlt1Rest, eB]
  have hrest : qualiRest (c :: t) = none := by
    rw [qualiRest, e1]
    rw [show consumeCI ['B', 'S', 'c'] (c :: t) = none by simp [consumeCI, eB]]
    rw [show consumeCI ['B', '.', 'E', 'n', 'g', '.'] (c :: t) = none by simp [consumeCI, eB]]
    rw [show consumeCI ['B', 'E', 'n', 'g'] (c :: t) = none by simp [consumeCI, eB]]
    rw [show consumeCI ['H', 'N', 'D'] (c :: t) = none by simp [consumeCI, eH]]
    rw [show consumeCI ['N', 'D'] (c :: t) = none by simp [consumeCI, eN]]
    rw [show consumeCI ['P', 'G', 'D'] (c :: t) = none by simp [consumeCI, eP]]
    rw [show consumeCI ['M', 'S', 'c'] (c :: t) = none by simp [consumeCI, eM]]
    rw [show consumeCI ['M', 'B', 'A'] (c :: t) = none by simp [consumeCI, eM]]
    rw [show consumeCI ['P', 'h', 'D'] (c :: t) = none by simp [consumeCI, eP]]
    rfl
  rw [qualiMatch, hrest]

theorem parse_headings_digits (line : String) (c : Char) (t : List Char)
    (hl : line.data = c :: t) (hc : isDigitA c = true)
    (hall : ∀ d ∈ line.data, isDigitA d = true) :
    parse_headings line = noHeading := by
  refine parse_headings_none_of line ?_ ?_ ?_
  · rw [hl]; exact facultyMatch_false_digit c t hc
  · rw [hl]; exact qualiMatch_none_digit c t hc
  · refine sessionSearch_none_no_slash line.data ?_
    intro d hd
    exact beq_false_of_digit_out d '/' (hall d hd) (by decide)

theorem litThen_cons_false (z : Char) (w : List Char) (k : Kont) (c : Char)
    (t : List Char) (h : (c == z) = false) : litThen (z :: w) k (c :: t) = false := by
  simp [litThen, h]

theorem is_grade_digits (line : String) (c : Char) (t : List Char)
    (hl : line.data = c :: t) (hc : isDigitA c = true) : is_grade line = none := by
  have hF := beq_false_of_digit_out c 'F' hc (by decide)
  have hS := beq_false_of_digit_out c 'S' hc (by decide)
  have hT := beq_false_of_digit_out c 'T' hc (by decide)
  have hD := beq_false_of_digit_out c 'D' hc (by decide)
  have hM := beq_false_of_digit_out c 'M' hc (by decide)
  have hU := beq_false_of_digit_out c 'U' hc (by decide)
  have hL := beq_false_of_digit_out c 'L' hc (by decide)
  have hP := beq_false_of_digit_out c 'P' hc (by decide)
  unfold is_grade
  simp only [hl, List.map_cons, upChar_digit c hc]
  simp [patFirstClass, patSecondUpper, patSecondLower, patThirdClass, patDistinction,
    patMerit, patUpperCredit, patLowerCredit, patPass, litThen, hF, hS, hT, hD, hM,
    hU, hL, hP]

theorem starThen_end_all (p : Char → Bool) (t : List Char)
    (h : ∀ c ∈ t, p c = true) : starThen p endK t = true := by
  induction t with
  | nil => rfl
  | cons c t ih =>
    simp only [starThen, Bool.or_eq_true, Bool.and_eq_true]
    right
    exact ⟨h c (by simp), ih (fun d hd => h d (by simp [hd]))⟩

theorem decorativeMatch_digits (c : Char) (t : List Char)
    (hall : ∀ d ∈ c :: t, isDigitA d = true) : decorativeMatch (c :: t) = true := by
  have h1 : plusThen isDigitA endK (c :: t) = true := by
    simp only [plusThen, Bool.and_eq_true]
    exact ⟨hall c (by simp), starThen_end_all isDigitA t (fun d hd => hall d (by simp [hd]))⟩
  unfold decorativeMatch
  rw [h1]
  rfl

theorem isWsA_of_digit_false (d : Char) (hd : isDigitA d = true) : isWsA d = false := by
  simp only [isDigitA, Bool.and_eq_true, decide_eq_true_eq] at hd
  by_contra hx
  simp only [Bool.not_eq_false] at hx
  rw [isWsA_toNat] at hx
  simp only [List.mem_cons, List.not_mem_nil, or_false] at hx
  omega

theorem contains_comma_false (l : List Char) (h : ∀ d ∈ l, isDigitA d = true) :
    l.contains ',' = false := by
  induction l with
  | nil => rfl
  | cons c t ih =>
    have hc : (c == ',') = false := beq_false_of_digit_out c ',' (h c (by simp)) (by decide)
    have hc2 : (',' == c) = false := by
      rcases beq_eq_false_iff_ne.mp hc with _
      exact beq_eq_false_iff_ne.mpr (fun he => (beq_eq_false_iff_ne.mp hc) he.symm)
    simp only [List.contains_cons, hc2, Bool.false_or]
    exact ih (fun d hd => h d (by simp [hd]))

theorem hasSub_false_digits (z : Char) (w : List Char) (hz : 58 ≤ z.toNat)
    (l : List Char) (h : ∀ d ∈ l, isDigitA d = true) : hasSub (z :: w) l = false := by
  induction l with
  | nil => rfl
  | cons c t ih =>
    have hc : (c == z) = false :=
      beq_false_of_digit_out c z (h c (by simp)) (Or.inr hz)
    simp only [hasSub, startsWithL, hc, Bool.false_and, Bool.false_or]
    exact ih (fun d hd => h d (by simp [hd]))

theorem parse_name_digits (line : String) (c : Char) (t : List Char)
    (hl : line.data = c :: t) (hall : ∀ d ∈ line.data, isDigitA d = true) :
    parse_name line = none := by
  have hc : isDigitA c = true := hall c (by rw [hl]; simp)
  have hwsfree : ∀ d ∈ line.data, isWsA d = false :=
    fun d hd => isWsA_of_digit_false d (hall d hd)
  have hsplit : splitWs line.data = [line.data] := by
    rw [hl]
    exact splitWsAux_tok_only (c :: t) (fun d hd => by rw [← hl] at hd; exact hwsfree d hd)
      (by simp)
  have hLdata : (norm_space line).data = line.data := by
    unfold norm_space
    rw [hsplit]
    rfl
  have hLl : (norm_space line).data = c :: t := hLdata.trans hl
  have hallL : ∀ d ∈ (norm_space line).data, isDigitA d = true := by
    rw [hLdata]; exact hall
  have hfac : facultyMatch (norm_space line).data = false := by
    rw [hLl]; exact facultyMatch_false_digit c t hc
  have hq : qualiMatch (norm_space line).data = none := by
    rw [hLl]; exact qualiMatch_none_digit c t hc
  have hg : is_grade (norm_space line) = none := is_grade_digits _ c t hLl hc
  have hcomma : (norm_space line).data.contains ',' = false :=
    contains_comma_false _ hallL
  have hdigU : ∀ d ∈ (upStr (norm_space line)).data, isDigitA d = true := by
    intro d hd
    simp only [upStr, List.mem_map] at hd
    rcases hd with ⟨e, he, rfl⟩
    rw [upChar_digit e (hallL e he)]
    exact hallL e he
  unfold parse_name
  simp only [hfac, hq, hg, Option.isSome_none, Bool.or_false, Bool.false_or,
    Bool.or_self, Bool.false_eq_true, if_false, hcomma]
  rw [hasSub_false_digits 'U' _ (by decide) _ hdigU]
  rw [hasSub_false_digits 'C' ['O', 'N', 'V', 'O', 'C', 'A', 'T', 'I', 'O', 'N'] (by decide) _ hdigU]
  rw [hasSub_false_digits 'C' ['E', 'R', 'E', 'M', 'O', 'N', 'Y'] (by decide) _ hdigU]
  rw [hasSub_false_digits 'I' _ (by decide) _ hdigU]
  rw [hasSub_false_digits 'M' _ (by decide) _ hdigU]
  have hupper : isUpperA c = false := by
    simp only [isDigitA, Bool.and_eq_true, decide_eq_true_eq] at hc
    simp only [isUpperA]
    by_contra hx
    simp only [Bool.not_eq_false, Bool.and_eq_true, decide_eq_true_eq] at hx
    omega
  have hnsc : nameSplitComma (norm_space line).data = none := by
    rw [hLl]
    have hnws : isWsA c = false := isWsA_of_digit_false c hc
    have hdash : (c == '-') = false := beq_false_of_digit_out c '-' hc (by decide)
    have hap : (c == '\'') = false := beq_false_of_digit_out c '\'' hc (by decide)
    simp [nameSplitComma, List.dropWhile_cons, List.takeWhile_cons, hnws, hupper,
      hdash, hap]
  rw [hnsc]
  have hsplitL : splitWs (norm_space line).data = [(norm_space line).data] := by
    rw [hLdata, hsplit, ← hLdata]
  rw [hsplitL]
  have hut : upperTokenB (norm_space line).data = false := by
    rw [hLl]
    simp [upperTokenB, hupper]
  simp only [List.takeWhile_cons, hut, Bool.false_eq_true, if_false,
    List.takeWhile_nil, List.length_nil]
  split
  · rfl
  · simp

/-- C5: a line that is neither heading, grade, nor parsed name is routed
to the audit list exactly when it does not full-match the decorative
pattern (bare integer, volume marker, 'Convocation', 'Ceremony',
institution boilerplate) — decorative lines are discarded with no audit
entry and nothing else is dropped silently — and a line consisting only
of digits never produces a record, never updates the context, and never
reaches the audit list. -/
theorem C5_audit_spec :
    (∀ pi ctx line, parse_headings line = noHeading → is_grade line = none →
      parse_name line = none →
      processLine pi ctx line =
        (ctx, none, if decorativeMatch line.data then none else some ⟨pi + 1, line⟩)) ∧
    (∀ line : String, line.data ≠ [] → (∀ d ∈ line.data, isDigitA d = true) →
      ∀ pi ctx, processLine pi ctx line = (ctx, none, none)) := by
  constructor
  · intro pi ctx line hh hg hn
    exact processLine_other pi ctx line hh hg hn
  · intro line hne hall pi ctx
    rcases he : line.data with _ | ⟨c, t⟩
    · exact absurd he hne
    · have hc : isDigitA c = true := hall c (by rw [he]; simp)
      have h1 := parse_headings_digits line c t he hc hall
      have h2 := is_grade_digits line c t he hc
      have h3 := parse_name_digits line c t he hall
      have h4 : decorativeMatch line.data = true := by
        rw [he]
        exact decorativeMatch_digits c t (by rw [← he]; exact hall)
      rw [processLine_other pi ctx line h1 h2 h3, h4]
      rfl

/-- Witness for C5: the bare integer `"12"` is silently skipped; the
non-decorative garbage line `")("` is audited. -/
theorem C5_audit_spec_witness :
    processLine 0 ⟨"", "", "", "", ""⟩ "12" = (⟨"", "", "", "", ""⟩, none, none) ∧
    processLine 0 ⟨"", "", "", "", ""⟩ ")(" =
      (⟨"", "", "", "", ""⟩, none, some ⟨1, ")("⟩) := by
  constructor
  · exact C5_audit_spec.2 "12" (by decide) (by decide) 0 _
  · exact (C5_audit_spec.1 0 _ ")(" (by decide) (by decide) (by decide)).trans (by decide)

/-! ### Heading values are nonempty (except a blank parenthesized course) -/

theorem upChar_ws_fixed (c : Char) (h : isWsA c = true) : upChar c = c := by
  refine upChar_eq_self c ?_
  rw [isWsA_toNat] at h
  simp only [List.mem_cons, List.not_mem_nil, or_false] at h
  simp only [isLowerA]
  by_contra hx
  simp only [Bool.not_eq_false, Bool.and_eq_true, decide_eq_true_eq] at hx
  omega

theorem not_ws_of_upChar_upper (c : Char) (h : isUpperA (upChar c) = true) :
    isWsA c = false := by
  by_contra hx
  simp only [Bool.not_eq_false] at hx
  rw [upChar_ws_fixed c hx] at h
  have := not_digit_of_ws c hx
  rw [isWsA_toNat] at hx
  simp only [List.mem_cons, List.not_mem_nil, or_false] at hx
  simp only [isUpperA, Bool.and_eq_true, decide_eq_true_eq] at h
  omega

theorem facultyMatch_shape (l : List Char) (h : facultyMatch l = true) :
    ∃ c₀ t, l = c₀ :: t ∧ upChar c₀ = 'F' := by
  cases l with
  | nil => simp [facultyMatch, litCIThen] at h
  | cons c t =>
    refine ⟨c, t, rfl, ?_⟩
    have : eqCI c 'F' = true := by
      by_contra hx
      simp only [Bool.not_eq_true] at hx
      rw [show facultyMatch (c :: t) =
          (eqCI c 'F' && litCIThen ['A', 'C', 'U', 'L', 'T', 'Y']
            (wsPlusThen (litCIThen ['O', 'F']
              (wsPlusThen (charThen (fun c => c != '\n') anyK)))) t) from rfl, hx] at h
      simp at h
    unfold eqCI at this
    rw [show upChar 'F' = 'F' from by decide] at this
    exact beq_iff_eq.mp this

theorem norm_space_upStr_ne_empty (line : String) (c₀ : Char) (t : List Char)
    (hl : line.data = c₀ :: t) (hup : isUpperA (upChar c₀) = true) :
    norm_space (upStr line) ≠ "" := by
  intro hx
  rw [norm_space_eq_empty_iff] at hx
  have hmem : upChar c₀ ∈ (upStr line).data := by
    simp [upStr, hl]
  have hws := hx _ hmem
  have := not_ws_of_upChar_upper (upChar c₀) (by
    have hfix : upChar (upChar c₀) = upChar c₀ := by
      refine upChar_eq_self _ ?_
      simp only [isUpperA, Bool.and_eq_true, decide_eq_true_eq] at hup
      simp only [isLowerA]
      by_contra hy
      simp only [Bool.not_eq_false, Bool.and_eq_true, decide_eq_true_eq] at hy
      omega
    rw [hfix]
    exact hup)
  rw [this] at hws
  exact absurd hws (by simp)

theorem dropWhile_length_le (p : Char → Bool) (l : List Char) :
    (l.dropWhile p).length ≤ l.length := by
  induction l with
  | nil => simp [List.dropWhile]
  | cons c t ih =>
    simp only [List.dropWhile]
    split
    · simp only [List.length_cons]
      exact Nat.le_succ_of_le ih
    · simp

theorem consumeCI_length (w : List Char) :
    ∀ l r, consumeCI w l = some r → r.length + w.length = l.length := by
  induction w with
  | nil =>
    intro l r h
    simp only [consumeCI, Option.some.injEq] at h
    subst h
    simp
  | cons c ws ih =>
    intro l r h
    cases l with
    | nil => simp [consumeCI] at h
    | cons d t =>
      by_cases he : eqCI d c = true
      · simp only [consumeCI, he, if_pos] at h
        have := ih t r h
        simp only [List.length_cons]
        omega
      · simp [consumeCI, he] at h

theorem consumeCI_head (c0 : Char) (w l : List Char) (r : List Char)
    (h : consumeCI (c0 :: w) l = some r) :
    ∃ d t, l = d :: t ∧ eqCI d c0 = true := by
  cases l with
  | nil => simp [consumeCI] at h
  | cons d t =>
    by_cases he : eqCI d c0 = true
    · exact ⟨d, t, rfl, he⟩
    · simp [consumeCI, he] at h

theorem not_ws_of_eqCI_upper (d z : Char) (hz : isUpperA (upChar z) = true)
    (h : eqCI d z = true) : isWsA d = false := by
  unfold eqCI at h
  have := beq_iff_eq.mp h
  exact not_ws_of_upChar_upper d (by rw [this]; exact hz)

theorem qualiAlt1Rest_shape (l r : List Char) (h : qualiAlt1Rest l = some r) :
    ∃ c₀ t, l = c₀ :: t ∧ eqCI c₀ 'B' = true ∧ r.length < l.length := by
  cases l with
  | nil => simp [qualiAlt1Rest] at h
  | cons c t =>
    by_cases he : eqCI c 'B' = true
    · refine ⟨c, t, rfl, he, ?_⟩
      simp only [qualiAlt1Rest, he, if_pos] at h
      have hb1 : ∀ u : List Char,
          (match u with
            | '.' :: r2 => r2
            | _ => u).length ≤ u.length := by
        intro u
        split
        · simp
        · exact le_refl _
      have hb2 : ∀ u : List Char,
          (match u with
            | d :: r2 => if isWsA d = true then r2 else u
            | [] => u).length ≤ u.length := by
        intro u
        split
        · split
          · simp
          · exact le_refl _
        · exact le_refl _
      revert h
      generalize hg1 : (match t with
        | '.' :: r2 => r2
        | _ => t) = t1
      generalize hg2 : (match t1 with
        | d :: r2 => if isWsA d = true then r2 else t1
        | [] => t1) = t2
      intro h
      have hle1 : t1.length ≤ t.length := by rw [← hg1]; exact hb1 t
      have hle2 : t2.length ≤ t1.length := by rw [← hg2]; exact hb2 t1
      cases t2 with
      | nil => simp at h
      | cons d r2 =>
        by_cases ha : isAlphaA d = true
        · simp only [ha, if_pos, Option.some.injEq] at h
          subst h
          have hd := dropWhile_length_le (fun e => isAlphaA e || e == '.') r2
          simp only [List.length_cons] at hle2
          simp only [List.length_cons]
          omega
        · simp [ha] at h
    · simp [qualiAlt1Rest, he] at h

theorem qualiRest_shape (l r : List Char) (h : qualiRest l = some r) :
    ∃ c₀ t, l = c₀ :: t ∧ isWsA c₀ = false ∧ r.length < l.length := by
  have hlit : ∀ (c0 : Char) (w : List Char), isUpperA (upChar c0) = true →
      consumeCI (c0 :: w) l = some r →
      ∃ c₀ t, l = c₀ :: t ∧ isWsA c₀ = false ∧ r.length < l.length := by
    intro c0 w hup hcc
    rcases consumeCI_head c0 w l r hcc with ⟨d, t, rfl, hd⟩
    refine ⟨d, t, rfl, not_ws_of_eqCI_upper d c0 hup hd, ?_⟩
    have := consumeCI_length (c0 :: w) _ _ hcc
    simp only [List.length_cons] at this ⊢
    omega
  rw [qualiRest] at h
  rcases ha : qualiAlt1Rest l with _ | r1
  · rw [ha] at h
    simp only [Option.orElse] at h
    rcases h1 : consumeCI ['B', 'S', 'c'] l with _ | rx
    all_goals rw [h1] at h
    case _ =>
      simp only [Option.orElse] at h
      rcases h2 : consumeCI ['B', '.', 'E', 'n', 'g', '.'] l with _ | rx
      all_goals rw [h2] at h
      case _ =>
        simp only [Option.orElse] at h
        rcases h3 : consumeCI ['B', 'E', 'n', 'g'] l with _ | rx
        all_goals rw [h3] at h
        case _ =>
          simp only [Option.orElse] at h
          rcases h4 : consumeCI ['H', 'N', 'D'] l with _ | rx
          all_goals rw [h4] at h
          case _ =>
            simp only [Option.orElse] at h
            rcases h5 : consumeCI ['N', 'D'] l with _ | rx
            all_goals rw [h5] at h
            case _ =>
              simp only [Option.orElse] at h
              rcases h6 : consumeCI ['P', 'G', 'D'] l with _ | rx
              all_goals rw [h6] at h
              case _ =>
                simp only [Option.orElse] at h
                rcases h7 : consumeCI ['M', 'S', 'c'] l with _ | rx
                all_goals rw [h7] at h
                case _ =>
                  simp only [Option.orElse] at h
                  rcases h8 : consumeCI ['M', 'B', 'A'] l with _ | rx
                  all_goals rw [h8] at h
                  case _ =>
                    simp only [Option.orElse] at h
                    exact hlit 'P' _ (by decide) h
                  case _ =>
                    simp only [Option.some.injEq] at h
                    subst h
                    exact hlit 'M' _ (by decide) h8
                case _ =>
                  simp only [Option.some.injEq] at h
                  subst h
                  exact hlit 'M' _ (by decide) h7
              case _ =>
                simp only [Option.some.injEq] at h
                subst h
                exact hlit 'P' _ (by decide) h6
            case _ =>
              simp only [Option.some.injEq] at h
              subst h
              exact hlit 'N' _ (by decide) h5
          case _ =>
            simp only [Option.some.injEq] at h
            subst h
            exact hlit 'H' _ (by decide) h4
        case _ =>
          simp only [Option.some.injEq] at h
          subst h
          exact hlit 'B' _ (by decide) h3
      case _ =>
        simp only [Option.some.injEq] at h
        subst h
        exact hlit 'B' _ (by decide) h2
    case _ =>
      simp only [Option.some.injEq] at h
      subst h
      exact hlit 'B' _ (by decide) h1
  · rw [ha] at h
    simp only [Option.orElse, Option.some.injEq] at h
    subst h
    rcases qualiAlt1Rest_shape l r1 ha with ⟨c₀, t, rfl, hB, hlen⟩
    exact ⟨c₀, t, rfl, not_ws_of_eqCI_upper c₀ 'B' (by decide) hB, hlen⟩

theorem parse_headings_faculty_ne (line : String) (v : String)
    (h : (parse_headings line).faculty = some v) : v ≠ "" := by
  unfold parse_headings at h
  simp only [] at h
  by_cases hf : facultyMatch line.data = true
  · rw [if_pos hf] at h
    simp only [Option.some.injEq] at h
    subst h
    rcases facultyMatch_shape line.data hf with ⟨c₀, t, hl, hup⟩
    exact norm_space_upStr_ne_empty line c₀ t hl (by rw [hup]; decide)
  · rw [if_neg hf] at h
    simp at h

theorem parse_headings_qual_ne (line : String) (v : String)
    (h : (parse_headings line).qualification = some v) : v ≠ "" := by
  unfold parse_headings at h
  simp only [] at h
  rcases hq : qualiMatch line.data with _ | ⟨g1, g2⟩
  · rw [hq] at h; simp at h
  · rw [hq] at h
    simp only [Option.some.injEq] at h
    subst h
    rw [qualiMatch] at hq
    rcases hr : qualiRest line.data with _ | rest
    · rw [hr] at hq; simp at hq
    · rw [hr] at hq
      simp only [Option.some.injEq, Prod.mk.injEq] at hq
      rcases qualiRest_shape line.data rest hr with ⟨c₀, t, hl, hws, hlen⟩
      have hg1 : g1 = line.data.take (line.data.length - rest.length) := hq.1.symm
      have hn : 1 ≤ line.data.length - rest.length := by omega
      have hg1c : c₀ ∈ g1 := by
        rw [hg1, hl]
        rw [hl] at hn
        rcases hm : (c₀ :: t).length - rest.length with _ | n
        · rw [hm] at hn; omega
        · simp [List.take_cons]
      intro hx
      have : ∀ c ∈ (String.mk g1).data, isWsA c = true := by
        rw [← norm_space_eq_empty_iff]
        exact hx
      have := this c₀ (by simpa using hg1c)
      rw [this] at hws
      exact absurd hws (by simp)

theorem sessionAt_shape (l : List Char) (g : List Char) (h : sessionAt l = some g) :
    g ≠ [] := by
  cases l with
  | nil => simp [sessionAt, take1] at h
  | cons c t =>
    unfold sessionAt at h
    rcases hm : (take1 isDigitA (c :: t) >>= take1 isDigitA >>= take1 isDigitA >>=
        take1 isDigitA >>= take1 (fun c => c == '/') >>= take1 isDigitA >>=
        take1 isDigitA >>= take1 isDigitA >>= take1 isDigitA) with _ | rest
    · rw [hm] at h; simp at h
    · rw [hm] at h
      simp only [] at h
      by_cases hgap : gapScan 20 rest = true
      · rw [if_pos hgap] at h
        simp only [Option.some.injEq] at h
        subst h
        simp [List.take_cons]
      · rw [if_neg hgap] at h
        simp at h

theorem sessionSearch_shape (l : List Char) (g : List Char)
    (h : sessionSearch l = some g) : g ≠ [] := by
  induction l with
  | nil => simp [sessionSearch] at h
  | cons c t ih =>
    rw [sessionSearch] at h
    rcases ha : sessionAt (c :: t) with _ | g'
    · rw [ha] at h
      simp only [Option.orElse] at h
      exact ih h
    · rw [ha] at h
      simp only [Option.orElse, Option.some.injEq] at h
      subst h
      exact sessionAt_shape _ _ ha

theorem parse_headings_session_ne (line : String) (v : String)
    (h : (parse_headings line).session = some v) : v ≠ "" := by
  unfold parse_headings at h
  simp only [] at h
  rcases hs : sessionSearch line.data with _ | g
  · rw [hs] at h; simp at h
  · rw [hs] at h
    simp only [Option.map, Option.some.injEq] at h
    subst h
    have := sessionSearch_shape _ _ hs
    intro hx
    apply this
    have := congrArg String.data hx
    simpa using this

theorem is_grade_value_ne (line g : String) (h : is_grade line = some g) : g ≠ "" := by
  unfold is_grade at h
  simp only [] at h
  split_ifs at h <;> simp only [Option.some.injEq] at h <;> (subst h; decide)

theorem isEmptyH_iff (h : HeadingOut) : h.isEmptyH = true ↔ h = noHeading := by
  cases h with
  | mk f q c s =>
    simp only [HeadingOut.isEmptyH, noHeading, Bool.and_eq_true, Option.isNone_iff_eq_none,
      HeadingOut.mk.injEq]
    tauto

theorem stepCtx_of_other (ctx : Ctx) (line : String)
    (hh : parse_headings line = noHeading) (hg : is_grade line = none) :
    stepCtx ctx line = ctx := by
  unfold stepCtx
  cases hn : parse_name line with
  | some v =>
    rcases v with ⟨s, f, o⟩
    rw [processLine_name 0 ctx line s f o hh hg hn]
  | none =>
    rw [processLine_other 0 ctx line hh hg hn]

theorem stepCtx_cases (ctx : Ctx) (line : String) :
    (stepCtx ctx line = applyHeading (parse_headings line) ctx ∧
      (parse_headings line).isEmptyH = false) ∨
    (parse_headings line = noHeading ∧
      ((∃ g, is_grade line = some g ∧ stepCtx ctx line = { ctx with grade := g }) ∨
       (is_grade line = none ∧ stepCtx ctx line = ctx))) := by
  by_cases hh : (parse_headings line).isEmptyH = true
  · right
    have hnh := (isEmptyH_iff _).mp hh
    refine ⟨hnh, ?_⟩
    cases hg : is_grade line with
    | some g =>
      left
      refine ⟨g, rfl, ?_⟩
      unfold stepCtx
      rw [processLine_grade 0 ctx line g hnh hg]
    | none =>
      right
      exact ⟨rfl, stepCtx_of_other ctx line hnh hg⟩
  · left
    refine ⟨?_, by simpa using hh⟩
    unfold stepCtx
    rw [processLine_heading 0 ctx line (by simpa using hh)]

theorem scan_no_heading_lines (pi : Nat) (lines : List String)
    (h : ∀ l ∈ lines, parse_headings l = noHeading ∧ is_grade l = none) :
    ∀ ctx rows aud,
      (lines.foldl (scanLine pi) (ctx, rows, aud)).1 = ctx ∧
      (∀ r ∈ (lines.foldl (scanLine pi) (ctx, rows, aud)).2.1,
        r ∈ rows ∨ (r.course_studied = ctx.course ∧ r.faculty = ctx.faculty ∧
          r.grade = ctx.grade ∧ r.qualification_obtained = ctx.qualification ∧
          r.session = ctx.session)) := by
  induction lines with
  | nil => intro ctx rows aud; exact ⟨rfl, fun r hr => Or.inl hr⟩
  | cons l0 rest ih =>
    intro ctx rows aud
    have h0 := h l0 (by simp)
    have hrest : ∀ l ∈ rest, parse_headings l = noHeading ∧ is_grade l = none :=
      fun l hl => h l (by simp [hl])
    rw [List.foldl_cons]
    cases hn : parse_name l0 with
    | some v =>
      rcases v with ⟨s, f, o⟩
      have hstep : scanLine pi (ctx, rows, aud) l0 =
          (ctx, rows ++ [⟨s, titlecase_name f, titlecase_name o, ctx.course, ctx.faculty,
            ctx.grade, ctx.qualification, ctx.session⟩], aud) := by
        unfold scanLine
        rw [processLine_name pi ctx l0 s f o h0.1 h0.2 hn]
        simp
      rw [hstep]
      rcases ih hrest ctx (rows ++ [⟨s, titlecase_name f, titlecase_name o, ctx.course,
        ctx.faculty, ctx.grade, ctx.qualification, ctx.session⟩]) aud with ⟨hc, hr⟩
      refine ⟨hc, ?_⟩
      intro r hrr
      rcases hr r hrr with hmem | hsnap
      · rcases List.mem_append.mp hmem with hmem | hmem
        · exact Or.inl hmem
        · right
          simp only [List.mem_singleton] at hmem
          subst hmem
          exact ⟨rfl, rfl, rfl, rfl, rfl⟩
      · exact Or.inr hsnap
    | none =>
      have hstep : scanLine pi (ctx, rows, aud) l0 =
          (ctx, rows, aud ++ (if decorativeMatch l0.data then none else
            some (⟨pi + 1, l0⟩ : AuditEntry)).toList) := by
        unfold scanLine
        rw [processLine_other pi ctx l0 h0.1 h0.2 hn]
        simp
      rw [hstep]
      exact ih hrest ctx rows _

/-- C1 counterexample: the qualification heading `"BA( )"`, whose
parenthesized course text is a single space, resets a previously set
nonempty `course` back to the empty string, and the next name record
snapshots that emptied course — `parse_document` on a one-page word list
whose line stream is `["BSC(MATHEMATICS)", "BA( )", "AKWAOWO, Sifon"]`
emits the record with `course_studied = ""` even though an earlier line
had set course `"MATHEMATICS"`. -/
theorem C1_context_reset_counterexample :
    (stepCtx ⟨"", "", "", "", ""⟩ "BSC(MATHEMATICS)").course = "MATHEMATICS" ∧
    (stepCtx (stepCtx ⟨"", "", "", "", ""⟩ "BSC(MATHEMATICS)") "BA( )").course = "" ∧
    parse_document
      [⟨1, ⟨600, 1⟩, ⟨800, 1⟩,
        [⟨"BSC(MATHEMATICS)", ⟨0, 1⟩, ⟨0, 1⟩, ⟨10, 1⟩, ⟨1, 1⟩⟩,
         ⟨"BA(", ⟨0, 1⟩, ⟨100, 1⟩, ⟨10, 1⟩, ⟨101, 1⟩⟩,
         ⟨")", ⟨4, 1⟩, ⟨100, 1⟩, ⟨6, 1⟩, ⟨101, 1⟩⟩,
         ⟨"AKWAOWO,", ⟨0, 1⟩, ⟨200, 1⟩, ⟨10, 1⟩, ⟨201, 1⟩⟩,
         ⟨"Sifon", ⟨4, 1⟩, ⟨200, 1⟩, ⟨6, 1⟩, ⟨201, 1⟩⟩]⟩] "" =
      ([⟨"AKWAOWO", "Sifon", "", "", "", "", "BA", ""⟩], [], 1) := by
  refine ⟨by decide, by decide, by decide⟩

/-- C1 (amended): context persistence of the line classifier.  Name and
unclassified lines never change the context; grade lines change exactly
the grade; heading lines change exactly the fields their patterns
matched and never the grade; the faculty, qualification, grade and
session fields, once nonempty, are never reset to the empty string; the
course field can be emptied only by a qualification heading whose
parenthesized course text is whitespace-only (i.e. whose parsed course
value is the empty string); the context threads across page boundaries
unchanged, and on a page whose lines contain no heading and no grade
line every emitted record snapshots the carried-over context. -/
theorem C1_context_persistence_amended :
    (∀ ctx line, parse_headings line = noHeading → is_grade line = none →
      stepCtx ctx line = ctx) ∧
    (∀ ctx line g, parse_headings line = noHeading → is_grade line = some g →
      stepCtx ctx line = { ctx with grade := g }) ∧
    (∀ ctx line, (parse_headings line).isEmptyH = false →
      stepCtx ctx line = applyHeading (parse_headings line) ctx) ∧
    (∀ ctx line, (stepCtx ctx line).faculty ≠ ctx.faculty →
      (parse_headings line).faculty = some (stepCtx ctx line).faculty) ∧
    (∀ ctx line, (stepCtx ctx line).qualification ≠ ctx.qualification →
      (parse_headings line).qualification = some (stepCtx ctx line).qualification) ∧
    (∀ ctx line, (stepCtx ctx line).course ≠ ctx.course →
      (parse_headings line).course = some (stepCtx ctx line).course) ∧
    (∀ ctx line, (stepCtx ctx line).session ≠ ctx.session →
      (parse_headings line).session = some (stepCtx ctx line).session) ∧
    (∀ ctx line, (stepCtx ctx line).grade ≠ ctx.grade →
      is_grade line = some (stepCtx ctx line).grade) ∧
    (∀ ctx line, ctx.faculty ≠ "" → (stepCtx ctx line).faculty ≠ "") ∧
    (∀ ctx line, ctx.qualification ≠ "" → (stepCtx ctx line).qualification ≠ "") ∧
    (∀ ctx line, ctx.session ≠ "" → (stepCtx ctx line).session ≠ "") ∧
    (∀ ctx line, ctx.grade ≠ "" → (stepCtx ctx line).grade ≠ "") ∧
    (∀ ctx line, ctx.course ≠ "" → (stepCtx ctx line).course = "" →
      (parse_headings line).course = some "") ∧
    (∀ (st : Ctx × List Row × List AuditEntry) (l1 l2 : List (Nat × PageW)),
      scanPages st (l1 ++ l2) = scanPages (scanPages st l1) l2) ∧
    (∀ ctx rows aud pi p,
      (∀ l ∈ pageLines p, parse_headings l = noHeading ∧ is_grade l = none) →
      ((pageLines p).foldl (scanLine pi) (ctx, rows, aud)).1 = ctx ∧
      (∀ r ∈ ((pageLines p).foldl (scanLine pi) (ctx, rows, aud)).2.1,
        r ∈ rows ∨ (r.course_studied = ctx.course ∧ r.faculty = ctx.faculty ∧
          r.grade = ctx.grade ∧ r.qualification_obtained = ctx.qualification ∧
          r.session = ctx.session))) := by
  have hfac : ∀ ctx line, (stepCtx ctx line).faculty ≠ ctx.faculty →
      (parse_headings line).faculty = some (stepCtx ctx line).faculty := by
    intro ctx line hne
    rcases stepCtx_cases ctx line with ⟨hs, _⟩ | ⟨_, ⟨g, _, hs⟩ | ⟨_, hs⟩⟩
    · rw [hs] at hne ⊢
      rcases hf : (parse_headings line).faculty with _ | v
      · rw [applyHeading] at hne
        simp [hf] at hne
      · rw [applyHeading]
        simp [hf]
    · rw [hs] at hne
      simp at hne
    · rw [hs] at hne
      simp at hne
  have hqual : ∀ ctx line, (stepCtx ctx line).qualification ≠ ctx.qualification →
      (parse_headings line).qualification = some (stepCtx ctx line).qualification := by
    intro ctx line hne
    rcases stepCtx_cases ctx line with ⟨hs, _⟩ | ⟨_, ⟨g, _, hs⟩ | ⟨_, hs⟩⟩
    · rw [hs] at hne ⊢
      rcases hf : (parse_headings line).qualification with _ | v
      · rw [applyHeading] at hne
        simp [hf] at hne
      · rw [applyHeading]
        simp [hf]
    · rw [hs] at hne
      simp at hne
    · rw [hs] at hne
      simp at hne
  have hcrs : ∀ ctx line, (stepCtx ctx line).course ≠ ctx.course →
      (parse_headings line).course = some (stepCtx ctx line).course := by
    intro ctx line hne
    rcases stepCtx_cases ctx line with ⟨hs, _⟩ | ⟨_, ⟨g, _, hs⟩ | ⟨_, hs⟩⟩
    · rw [hs] at hne ⊢
      rcases hf : (parse_headings line).course with _ | v
      · rw [applyHeading] at hne
        simp [hf] at hne
      · rw [applyHeading]
        simp [hf]
    · rw [hs] at hne
      simp at hne
    · rw [hs] at hne
      simp at hne
  have hses : ∀ ctx line, (stepCtx ctx line).session ≠ ctx.session →
      (parse_headings line).session = some (stepCtx ctx line).session := by
    intro ctx line hne
    rcases stepCtx_cases ctx line with ⟨hs, _⟩ | ⟨_, ⟨g, _, hs⟩ | ⟨_, hs⟩⟩
    · rw [hs] at hne ⊢
      rcases hf : (parse_headings line).session with _ | v
      · rw [applyHeading] at hne
        simp [hf] at hne
      · rw [applyHeading]
        simp [hf]
    · rw [hs] at hne
      simp at hne
    · rw [hs] at hne
      simp at hne
  refine ⟨stepCtx_of_other, ?_, ?_, hfac, hqual, hcrs, hses, ?_, ?_, ?_, ?_, ?_, ?_, ?_, ?_⟩
  · intro ctx line g hh hg
    unfold stepCtx
    rw [processLine_grade 0 ctx line g hh hg]
  · intro ctx line hh
    unfold stepCtx
    rw [processLine_heading 0 ctx line hh]
  · intro ctx line hne
    rcases stepCtx_cases ctx line with ⟨hs, _⟩ | ⟨_, ⟨g, hg, hs⟩ | ⟨_, hs⟩⟩
    · rw [hs] at hne
      simp [applyHeading] at hne
    · rw [hs] at hne ⊢
      simpa using hg
    · rw [hs] at hne
      simp at hne
  · intro ctx line hcne
    rcases stepCtx_cases ctx line with ⟨hs, _⟩ | ⟨_, ⟨g, hg, hs⟩ | ⟨_, hs⟩⟩
    · rw [hs]
      rcases hf : (parse_headings line).faculty with _ | v
      · simpa [applyHeading, hf] using hcne
      · simp only [applyHeading, hf, Option.getD_some]
        exact parse_headings_faculty_ne line v hf
    · rw [hs]; exact hcne
    · rw [hs]; exact hcne
  · intro ctx line hcne
    rcases stepCtx_cases ctx line with ⟨hs, _⟩ | ⟨_, ⟨g, hg, hs⟩ | ⟨_, hs⟩⟩
    · rw [hs]
      rcases hf : (parse_headings line).qualification with _ | v
      · simpa [applyHeading, hf] using hcne
      · simp only [applyHeading, hf, Option.getD_some]
        exact parse_headings_qual_ne line v hf
    · rw [hs]; exact hcne
    · rw [hs]; exact hcne
  · intro ctx line hcne
    rcases stepCtx_cases ctx line with ⟨hs, _⟩ | ⟨_, ⟨g, hg, hs⟩ | ⟨_, hs⟩⟩
    · rw [hs]
      rcases hf : (parse_headings line).session with _ | v
      · simpa [applyHeading, hf] using hcne
      · simp only [applyHeading, hf, Option.getD_some]
        exact parse_headings_session_ne line v hf
    · rw [hs]; exact hcne
    · rw [hs]; exact hcne
  · intro ctx line hcne
    rcases stepCtx_cases ctx line with ⟨hs, _⟩ | ⟨_, ⟨g, hg, hs⟩ | ⟨_, hs⟩⟩
    · rw [hs]
      simpa [applyHeading] using hcne
    · rw [hs]
      simpa using is_grade_value_ne line g hg
    · rw [hs]; exact hcne
  · intro ctx line hcne hzero
    rcases stepCtx_cases ctx line with ⟨hs, _⟩ | ⟨_, ⟨g, hg, hs⟩ | ⟨_, hs⟩⟩
    · rw [hs] at hzero
      rcases hf : (parse_headings line).course with _ | v
      · rw [applyHeading] at hzero
        simp only [hf, Option.getD_none] at hzero
        exact absurd hzero hcne
      · rw [applyHeading] at hzero
        simp only [hf, Option.getD_some] at hzero
        rw [hzero]
    · rw [hs] at hzero
      exact absurd hzero hcne
    · rw [hs] at hzero
      exact absurd hzero hcne
  · intro st l1 l2
    unfold scanPages
    exact List.foldl_append _ _ l1 l2
  · intro ctx rows aud pi p hlines
    exact scan_no_heading_lines pi (pageLines p) hlines ctx rows aud

/-- Witness for the amended C1 at concrete lines and a concrete page. -/
theorem C1_context_persistence_amended_witness :
    stepCtx ⟨"F", "Q", "C", "G", "S"⟩ "AKWAOWO, Sifon" = ⟨"F", "Q", "C", "G", "S"⟩ ∧
    stepCtx ⟨"F", "Q", "C", "G", "S"⟩ "FIRST CLASS HONOURS" =
      ⟨"F", "Q", "C", "FIRST CLASS", "S"⟩ ∧
    ((pageLines ⟨2, ⟨600, 1⟩, ⟨800, 1⟩,
        [⟨"AKWAOWO,", ⟨0, 1⟩, ⟨0, 1⟩, ⟨10, 1⟩, ⟨1, 1⟩⟩,
         ⟨"Sifon", ⟨4, 1⟩, ⟨0, 1⟩, ⟨6, 1⟩, ⟨1, 1⟩⟩]⟩).foldl (scanLine 1)
      (⟨"F", "Q", "C", "G", "S"⟩, [], [])).1 = ⟨"F", "Q", "C", "G", "S"⟩ := by
  refine ⟨C1_context_persistence_amended.1 _ _ (by decide) (by decide),
    C1_context_persistence_amended.2.1 _ _ _ (by decide) (by decide), ?_⟩
  exact (C1_context_persistence_amended.2.2.2.2.2.2.2.2.2.2.2.2.2.2 ⟨"F", "Q", "C", "G", "S"⟩
    [] [] 1 _ (by decide)).1

theorem nameSplitComma_comma (l : List Char) (p : List Char × List Char)
    (h : nameSplitComma l = some p) : l.contains ',' = true := by
  have hmem : ',' ∈ l := by
    unfold nameSplitComma at h
    simp only [] at h
    by_cases he : (((l.dropWhile isWsA).takeWhile
        (fun c => isUpperA c || c == '-' || c == '\'')).isEmpty)
    · rw [if_pos he] at h; exact absurd h (by simp)
    · rw [if_neg he] at h
      rcases hd : ((l.dropWhile isWsA).drop (((l.dropWhile isWsA).takeWhile
          (fun c => isUpperA c || c == '-' || c == '\'')).length)) with _ | ⟨c, t⟩
      · rw [hd] at h; exact absurd h (by simp)
      · rw [hd] at h
        by_cases hcc : c = ','
        · subst hcc
          have h1 : ',' ∈ (l.dropWhile isWsA).drop (((l.dropWhile isWsA).takeWhile
              (fun c => isUpperA c || c == '-' || c == '\'')).length) := by
            rw [hd]; exact List.mem_cons_self _ _
          have h2 : ',' ∈ l.dropWhile isWsA :=
            (List.drop_sublist _ _).mem h1
          exact (List.dropWhile_sublist _).mem h2
        · exact absurd h (by simp [hcc])
  simpa [List.contains] using hmem

theorem parse_name_comma (line : String) (sur rest fn : List Char) (others : List (List Char))
    (h1 : facultyMatch (norm_space line).data = false)
    (h2 : qualiMatch (norm_space line).data = none)
    (h3 : is_grade (norm_space line) = none)
    (h4 : nameSplitComma (norm_space line).data = some (sur, rest))
    (h5 : splitWs rest = fn :: others) :
    parse_name line =
      some (String.mk (stripL sur), String.mk fn, String.mk (joinSpace others)) := by
  have hc : (norm_space line).data.contains ',' = true :=
    nameSplitComma_comma _ _ h4
  simp only [parse_name, h1, h2, h3, h4, h5, hc, Option.isSome_none, Option.isSome_some,
    Bool.or_false, Bool.false_or, Bool.not_true, Bool.and_false, Bool.false_eq_true,
    if_false, ite_false]

/-- C3 counterexample: "BASSEY, John" matches the comma form
`^\s*([A-Z\-']+),\s*(.+)$`, yet `parse_name` returns `None` on it,
because the qualification heading pattern `QUALI_PAT` (first alternative
`B\.?\s?[A-Z][A-Za-z\.]*`) matches the prefix "BASSEY" and `parse_name`
rejects any line matching a heading or grade pattern before trying the
comma form. -/
theorem C3_comma_name_counterexample :
    nameSplitComma "BASSEY, John".data = some ("BASSEY".data, "John".data) ∧
    (qualiMatch "BASSEY, John".data).isSome = true ∧
    parse_name "BASSEY, John" = none := by
  refine ⟨by decide, by decide, by decide⟩

/-- C3 (amended): for every line matching the comma form
`SURNAME, First Middle...` that does NOT also match the faculty,
qualification or grade patterns (which are checked first and shadow the
name parse), `parse_name` returns the stripped text before the comma as
surname, the first whitespace token after the comma as first name, and
the remaining tokens joined by single spaces as other name; in the
emitted record the first and other names are title-cased and the surname
is kept verbatim; and in particular "AKWAOWO, Sifongobong Udoudo"
parses to ("AKWAOWO", "Sifongobong", "Udoudo"). -/
theorem C3_comma_name_amended :
    (∀ line sur rest fn others,
      facultyMatch (norm_space line).data = false →
      qualiMatch (norm_space line).data = none →
      is_grade (norm_space line) = none →
      nameSplitComma (norm_space line).data = some (sur, rest) →
      splitWs rest = fn :: others →
      parse_name line =
        some (String.mk (stripL sur), String.mk fn, String.mk (joinSpace others))) ∧
    (∀ pi ctx line s f o, parse_headings line = noHeading → is_grade line = none →
      parse_name line = some (s, f, o) →
      processLine pi ctx line =
        (ctx, some ⟨s, titlecase_name f, titlecase_name o, ctx.course, ctx.faculty,
                    ctx.grade, ctx.qualification, ctx.session⟩, none)) ∧
    parse_name "AKWAOWO, Sifongobong Udoudo" =
      some ("AKWAOWO", "Sifongobong", "Udoudo") := by
  refine ⟨?_, ?_, by decide⟩
  · intro line sur rest fn others h1 h2 h3 h4 h5
    exact parse_name_comma line sur rest fn others h1 h2 h3 h4 h5
  · intro pi ctx line s f o hh hg hn
    exact processLine_name pi ctx line s f o hh hg hn

/-- Witness for the amended C3 at the concrete line of the claim. -/
theorem C3_comma_name_amended_witness :
    parse_name "AKWAOWO, Sifongobong Udoudo" =
      some (String.mk (stripL ("AKWAOWO".data)), String.mk ("Sifongobong".data),
            String.mk (joinSpace ["Udoudo".data])) ∧
    processLine 0 ⟨"F", "Q", "C", "G", "S"⟩ "AKWAOWO, Sifongobong Udoudo" =
      (⟨"F", "Q", "C", "G", "S"⟩,
       some ⟨"AKWAOWO", titlecase_name "Sifongobong", titlecase_name "Udoudo",
             "C", "F", "G", "Q", "S"⟩, none) :=
  ⟨C3_comma_name_amended.1 "AKWAOWO, Sifongobong Udoudo" ("AKWAOWO".data)
      ("Sifongobong Udoudo".data) ("Sifongobong".data) ["Udoudo".data]
      (by decide) (by decide) (by decide) (by decide) (by decide),
   C3_comma_name_amended.2.1 0 ⟨"F", "Q", "C", "G", "S"⟩ "AKWAOWO, Sifongobong Udoudo"
      "AKWAOWO" "Sifongobong" "Udoudo" (by decide) (by decide) (by decide)⟩

theorem dedupFirstAux_subset (l : List Row) :
    ∀ seen r, r ∈ dedupFirstAux seen l → r ∈ l := by
  induction l with
  | nil => intro seen r hr; simpa [dedupFirstAux] using hr
  | cons a t ih =>
    intro seen r hr
    unfold dedupFirstAux at hr
    by_cases hc : seen.contains a
    · rw [if_pos hc] at hr
      exact List.mem_cons_of_mem a (ih seen r hr)
    · rw [if_neg hc] at hr
      rcases List.mem_cons.1 hr with h | h
      · exact h ▸ List.mem_cons_self a t
      · exact List.mem_cons_of_mem a (ih (a :: seen) r h)

theorem dedupFirstAux_nodup (l : List Row) :
    ∀ seen, (dedupFirstAux seen l).Nodup ∧ ∀ r ∈ dedupFirstAux seen l, r ∉ seen := by
  induction l with
  | nil => intro seen; simp [dedupFirstAux]
  | cons a t ih =>
    intro seen
    unfold dedupFirstAux
    by_cases hc : seen.contains a
    · rw [if_pos hc]
      exact ih seen
    · rw [if_neg hc]
      have ha : a ∉ seen := by
        intro hmem
        exact hc (by simpa [List.contains, List.elem_iff] using hmem)
      refine ⟨List.nodup_cons.2 ⟨?_, (ih (a :: seen)).1⟩, ?_⟩
      · intro hmem
        exact ((ih (a :: seen)).2 a hmem) (List.mem_cons_self a seen)
      · intro r hr
        rcases List.mem_cons.1 hr with h | h
        · exact h ▸ ha
        · intro hseen
          exact ((ih (a :: seen)).2 r h) (List.mem_cons_of_mem a hseen)

theorem dedupFirstAux_of_nodup (l : List Row) :
    ∀ seen, l.Nodup → (∀ x ∈ l, x ∉ seen) → dedupFirstAux seen l = l := by
  induction l with
  | nil => intro seen _ _; rfl
  | cons a t ih =>
    intro seen hnd hdisj
    unfold dedupFirstAux
    have hc : seen.contains a = false := by
      by_contra h
      simp only [Bool.not_eq_false] at h
      exact hdisj a (List.mem_cons_self a t) (by simpa [List.contains, List.elem_iff] using h)
    rw [if_neg (by simp only [hc]; exact Bool.false_ne_true)]
    congr 1
    refine ih (a :: seen) (List.nodup_cons.1 hnd).2 ?_
    intro x hx hmem
    rcases List.mem_cons.1 hmem with h | h
    · exact (List.nodup_cons.1 hnd).1 (h ▸ hx)
    · exact hdisj x (List.mem_cons_of_mem a hx) h

theorem normRowAgg_idem (r : Row) : normRowAgg (normRowAgg r) = normRowAgg r := by
  simp [normRowAgg, norm_space_idem]

theorem aggStep_idem (rows : List Row) :
    dedupFirst ((dedupFirst (rows.map normRowAgg)).map normRowAgg) =
      dedupFirst (rows.map normRowAgg) := by
  have hmap : (dedupFirst (rows.map normRowAgg)).map normRowAgg =
      dedupFirst (rows.map normRowAgg) := by
    have : ∀ x ∈ dedupFirst (rows.map normRowAgg), normRowAgg x = x := by
      intro x hx
      have hx2 : x ∈ rows.map normRowAgg := dedupFirstAux_subset _ _ x hx
      rcases List.mem_map.1 hx2 with ⟨y, _, rfl⟩
      exact normRowAgg_idem y
    rw [List.map_congr_left this, List.map_id']
  rw [hmap]
  exact dedupFirstAux_of_nodup _ [] (dedupFirstAux_nodup _ []).1 (by simp)

/-- C7: the aggregator's normalize-then-deduplicate step is idempotent:
applying field-wise whitespace normalization followed by exact
full-row duplicate removal twice yields exactly the result of applying
it once, both for the core step on a row list and for
`aggregateRecords` re-run on its own output as a single chunk. -/
theorem C7_agg_idempotent :
    (∀ rows : List Row,
      dedupFirst ((dedupFirst (rows.map normRowAgg)).map normRowAgg) =
        dedupFirst (rows.map normRowAgg)) ∧
    (∀ chunks : List (List Row),
      aggregateRecords [aggregateRecords chunks] = aggregateRecords chunks) := by
  refine ⟨aggStep_idem, ?_⟩
  intro chunks
  show dedupFirst (([aggregateRecords chunks].flatten).map normRowAgg) = _
  rw [List.flatten_singleton]
  exact aggStep_idem chunks.flatten

theorem dedupFirstAux_mem_of_mem (l : List Row) :
    ∀ seen r, r ∈ l → r ∈ dedupFirstAux seen l ∨ r ∈ seen := by
  induction l with
  | nil => intro seen r hr; exact absurd hr (List.not_mem_nil r)
  | cons a t ih =>
    intro seen r hr
    unfold dedupFirstAux
    by_cases hc : seen.contains a
    · rw [if_pos hc]
      rcases List.mem_cons.1 hr with h | h
      · right
        subst h
        simpa [List.contains, List.elem_iff] using hc
      · exact ih seen r h
    · rw [if_neg hc]
      rcases List.mem_cons.1 hr with h | h
      · exact Or.inl (h ▸ List.mem_cons_self _ _)
      · rcases ih (a :: seen) r h with h2 | h2
        · exact Or.inl (List.mem_cons_of_mem a h2)
        · rcases List.mem_cons.1 h2 with h3 | h3
          · exact Or.inl (h3 ▸ List.mem_cons_self _ _)
          · exact Or.inr h3

theorem dedupFirst_mem (l : List Row) (r : Row) : r ∈ dedupFirst l ↔ r ∈ l := by
  constructor
  · exact dedupFirstAux_subset l [] r
  · intro h
    rcases dedupFirstAux_mem_of_mem l [] r h with h2 | h2
    · exact h2
    · exact absurd h2 (List.not_mem_nil r)

theorem ppAux_keys_nodup (rs : List RawRecord) :
    ∀ session seen, ((ppAux session seen rs).map studentKey).Nodup ∧
      ∀ r ∈ ppAux session seen rs, studentKey r ∉ seen := by
  induction rs with
  | nil => intro session seen; simp [ppAux]
  | cons a t ih =>
    intro session seen
    unfold ppAux
    by_cases hv : !validateOK (cleanRecord session a).surname (cleanRecord session a).first_name
    · rw [if_pos hv]
      exact ih session seen
    · rw [if_neg hv]
      by_cases hc : seen.contains (studentKey (cleanRecord session a))
      · rw [if_pos hc]
        exact ih session seen
      · rw [if_neg hc]
        have ha : studentKey (cleanRecord session a) ∉ seen := by
          intro hmem
          exact hc (by simpa [List.contains, List.elem_iff] using hmem)
        refine ⟨?_, ?_⟩
        · simp only [List.map_cons, List.nodup_cons]
          refine ⟨?_, (ih session (studentKey (cleanRecord session a) :: seen)).1⟩
          intro hmem
          rcases List.mem_map.1 hmem with ⟨r, hr, hk⟩
          exact ((ih session _).2 r hr) (hk ▸ List.mem_cons_self _ _)
        · intro r hr
          rcases List.mem_cons.1 hr with h | h
          · exact h ▸ ha
          · intro hseen
            exact ((ih session _).2 r h) (List.mem_cons_of_mem _ hseen)

/-- C6 counterexample: the aggregator deduplicates on the full
normalized 8-column row, not on the key (surname, first_name,
course_studied): two chunk rows agreeing exactly on that key but
differing in faculty are both kept. -/
theorem C6_dedup_key_counterexample :
    aggregateRecords
        [[⟨"DOE", "Jane", "", "B.Sc", "ARTS", "", "", ""⟩],
         [⟨"DOE", "Jane", "", "B.Sc", "SCIENCE", "", "", ""⟩]] =
      [⟨"DOE", "Jane", "", "B.Sc", "ARTS", "", "", ""⟩,
       ⟨"DOE", "Jane", "", "B.Sc", "SCIENCE", "", "", ""⟩] ∧
    (⟨"DOE", "Jane", "", "B.Sc", "ARTS", "", "", ""⟩ : Row).surname =
      (⟨"DOE", "Jane", "", "B.Sc", "SCIENCE", "", "", ""⟩ : Row).surname ∧
    (⟨"DOE", "Jane", "", "B.Sc", "ARTS", "", "", ""⟩ : Row).first_name =
      (⟨"DOE", "Jane", "", "B.Sc", "SCIENCE", "", "", ""⟩ : Row).first_name ∧
    (⟨"DOE", "Jane", "", "B.Sc", "ARTS", "", "", ""⟩ : Row).course_studied =
      (⟨"DOE", "Jane", "", "B.Sc", "SCIENCE", "", "", ""⟩ : Row).course_studied := by
  refine ⟨by decide, by decide, by decide, by decide⟩

/-- C6 (amended): deduplication is exact, with no fuzzy matching, but
the two code paths use different keys.  The aggregator drops exact
duplicates of the whole normalized 8-column row: its output has no
duplicate rows, contains a row exactly when some chunk contains a row
normalizing to it, and two chunks each holding the identical row
contribute exactly one output row.  The agent path deduplicates on the
underscore-joined (surname, first_name, course_studied) key: its output
keys are pairwise distinct. -/
theorem C6_dedup_amended :
    (∀ chunks : List (List Row), (aggregateRecords chunks).Nodup) ∧
    (∀ (chunks : List (List Row)) (r : Row),
      r ∈ aggregateRecords chunks ↔ ∃ c ∈ chunks, ∃ x ∈ c, normRowAgg x = r) ∧
    (∀ r : Row, aggregateRecords [[r], [r]] = [normRowAgg r]) ∧
    (∀ session rs, ((post_process_records session rs).map studentKey).Nodup) := by
  refine ⟨?_, ?_, ?_, ?_⟩
  · intro chunks
    exact (dedupFirstAux_nodup _ []).1
  · intro chunks r
    rw [aggregateRecords, dedupFirst_mem]
    constructor
    · intro h
      rcases List.mem_map.1 h with ⟨x, hx, rfl⟩
      rcases List.mem_flatten.1 hx with ⟨c, hc, hxc⟩
      exact ⟨c, hc, x, hxc, rfl⟩
    · rintro ⟨c, hc, x, hxc, rfl⟩
      exact List.mem_map_of_mem _ (List.mem_flatten.2 ⟨c, hc, hxc⟩)
  · intro r
    show dedupFirst ([[r], [r]].flatten.map normRowAgg) = _
    have h1 : [[r], [r]].flatten.map normRowAgg = [normRowAgg r, normRowAgg r] := by
      simp
    rw [h1]
    show dedupFirstAux [] [normRowAgg r, normRowAgg r] = [normRowAgg r]
    rw [dedupFirstAux]
    rw [if_neg (by simp)]
    rw [dedupFirstAux]
    rw [if_pos (by simp [List.contains, List.elem_iff])]
    rfl
  · intro session rs
    exact (ppAux_keys_nodup rs session []).1

theorem rangesAux_expand (rest : List Nat) : ∀ start prev, start ≤ prev →
    List.Chain (· < ·) prev rest →
    (rangesAux start prev rest).flatMap (fun r => List.range' r.1 (r.2 + 1 - r.1)) =
      List.range' start (prev + 1 - start) ++ rest := by
  induction rest with
  | nil => intro start prev _ _; simp [rangesAux]
  | cons p rest ih =>
    intro start prev hsp hch
    rcases hch with _ | ⟨hlt, hch2⟩
    unfold rangesAux
    by_cases he : p == prev + 1
    · rw [if_pos he]
      have hp : p = prev + 1 := by simpa using he
      rw [ih start p (by omega) hch2]
      subst hp
      have h1 : prev + 1 + 1 - start = (prev + 1 - start) + 1 := by omega
      rw [h1, List.range'_1_concat]
      have h2 : start + (prev + 1 - start) = prev + 1 := by omega
      rw [h2]
      simp
    · rw [if_neg he]
      rw [List.flatMap_cons, ih p p le_rfl hch2]
      have h1 : p + 1 - p = 1 := by omega
      rw [h1, List.range'_one]
      simp

theorem via_ocr_eq (ocrD : Nat → Frac × Frac × List Frag) (ps : List Nat) :
    extract_words_via_ocr ocrD ps =
      (List.insertionSort (· ≤ ·) ps.dedup).map (fun p => mkPageOf p (ocrD p)) := by
  unfold extract_words_via_ocr group_ranges
  rcases hs : List.insertionSort (· ≤ ·) ps.dedup with _ | ⟨p, rest⟩
  · simp
  · have hsorted : List.Pairwise (· ≤ ·) (p :: rest) := by
      rw [← hs]; exact List.sorted_insertionSort _ _
    have hnd : (p :: rest).Nodup := by
      rw [← hs]; exact ((List.perm_insertionSort _ _).nodup_iff).2 (List.nodup_dedup ps)
    have hpw : List.Pairwise (· < ·) (p :: rest) :=
      (hsorted.and hnd).imp (fun h => lt_of_le_of_ne h.1 h.2)
    have hch : List.Chain (· < ·) p rest := List.chain_iff_pairwise.2 hpw
    rw [← List.map_flatMap, rangesAux_expand rest p p le_rfl hch]
    have h1 : p + 1 - p = 1 := by omega
    rw [h1, List.range'_one]
    rfl

theorem mem_extract_words_from_pdf (docT : Nat → Option (Frac × Frac × List Frag))
    (pages : List Nat) (q : PageW) :
    q ∈ extract_words_from_pdf docT pages ↔
      ∃ p ∈ pages, ∃ d, docT p = some d ∧ q = mkPageOf p d := by
  unfold extract_words_from_pdf
  rw [List.mem_filterMap]
  constructor
  · rintro ⟨a, ha, hf⟩
    rcases Option.map_eq_some'.1 hf with ⟨d, hd, rfl⟩
    exact ⟨a, ha, d, hd, rfl⟩
  · rintro ⟨p, hp, d, hd, rfl⟩
    exact ⟨p, hp, by rw [hd]; rfl⟩

theorem tps_filter_eq (docT : Nat → Option (Frac × Frac × List Frag))
    (pages : List Nat) (p : Nat) (d : Frac × Frac × List Frag) :
    pages.Nodup → p ∈ pages → docT p = some d →
    (extract_words_from_pdf docT pages).filter (fun q => q.page_num == p) =
      [mkPageOf p d] := by
  induction pages with
  | nil => intro _ hp; cases hp
  | cons a t ih =>
    intro hnd hp hd
    rw [List.nodup_cons] at hnd
    show ((a :: t).filterMap (fun n => (docT n).map (mkPageOf n))).filter
        (fun q => q.page_num == p) = _
    rw [List.filterMap_cons]
    rcases List.mem_cons.1 hp with h | h
    · subst h
      rw [hd]
      show ((mkPageOf p d :: t.filterMap (fun n => (docT n).map (mkPageOf n))).filter
        (fun q => q.page_num == p)) = _
      rw [List.filter_cons, if_pos (by simp [mkPageOf])]
      have hnil : (t.filterMap (fun n => (docT n).map (mkPageOf n))).filter
          (fun q => q.page_num == p) = [] := by
        refine List.filter_eq_nil_iff.2 ?_
        intro q hq
        rcases List.mem_filterMap.1 hq with ⟨b, hb, hfb⟩
        rcases Option.map_eq_some'.1 hfb with ⟨d2, _, rfl⟩
        simp only [mkPageOf, beq_iff_eq]
        intro hc
        exact hnd.1 (hc ▸ hb)
      rw [hnil]
    · have hap : a ≠ p := fun hc => hnd.1 (hc ▸ h)
      rcases hda : docT a with _ | da
      · show ((Option.none.map (mkPageOf a)).toList ++ _).filter _ = _
        simpa using ih hnd.2 h hd
      · show ((Option.some da |>.map (mkPageOf a)).toList ++ _).filter _ = _
        show ((mkPageOf a da :: t.filterMap (fun n => (docT n).map (mkPageOf n))).filter
          (fun q => q.page_num == p)) = _
        rw [List.filter_cons, if_neg (by simp [mkPageOf, hap])]
        exact ih hnd.2 h hd

theorem byNumT_eq (docT : Nat → Option (Frac × Frac × List Frag))
    (pages : List Nat) (p : Nat) (d : Frac × Frac × List Frag)
    (hnd : pages.Nodup) (hp : p ∈ pages) (hd : docT p = some d) :
    byNumT (extract_words_from_pdf docT pages) p = some (mkPageOf p d) := by
  unfold byNumT
  rw [tps_filter_eq docT pages p d hnd hp hd]
  rfl

theorem byNumT_some (tps : List PageW) (n : Nat) (pg : PageW)
    (h : byNumT tps n = some pg) : pg ∈ tps ∧ pg.page_num = n := by
  unfold byNumT at h
  have hmem := List.mem_of_mem_getLast? h
  have := List.mem_filter.1 hmem
  exact ⟨this.1, by simpa using this.2⟩

theorem mem_toOcrOf (tps : List PageW) (minw n : Nat) :
    n ∈ toOcrOf tps minw ↔ ∃ pg, byNumT tps n = some pg ∧ pg.words.length < minw := by
  unfold toOcrOf
  rw [List.mem_filterMap]
  constructor
  · rintro ⟨m, _, hf⟩
    split at hf
    next pg hb =>
      by_cases hlt : pg.words.length < minw
      · rw [if_pos hlt] at hf
        have hmn : m = n := by simpa using hf
        exact ⟨pg, hmn ▸ hb, hlt⟩
      · rw [if_neg hlt] at hf
        exact absurd hf (by simp)
    next hb => exact absurd hf (by simp)
  · rintro ⟨pg, hb, hlt⟩
    refine ⟨n, ?_, ?_⟩
    · have h2 := byNumT_some tps n pg hb
      exact h2.2 ▸ List.mem_map_of_mem _ h2.1
    · rw [hb]
      show (if pg.words.length < minw then some n else none) = some n
      rw [if_pos hlt]

theorem mem_keptNative (tps : List PageW) (minw : Nat) (q : PageW) :
    q ∈ keptNative tps minw ↔
      byNumT tps q.page_num = some q ∧ ¬(q.words.length < minw) := by
  unfold keptNative
  rw [List.mem_filterMap]
  constructor
  · rintro ⟨m, _, hf⟩
    split at hf
    next pg hb =>
      by_cases hlt : pg.words.length < minw
      · rw [if_pos hlt] at hf
        exact absurd hf (by simp)
      · rw [if_neg hlt] at hf
        have hq : pg = q := by simpa using hf
        subst hq
        exact ⟨(byNumT_some tps m pg hb).2 ▸ hb, hlt⟩
    next hb => exact absurd hf (by simp)
  · rintro ⟨hb, hge⟩
    refine ⟨q.page_num, ?_, ?_⟩
    · have h2 := byNumT_some tps q.page_num q hb
      exact List.mem_map_of_mem _ h2.1
    · rw [hb]
      show (if q.words.length < minw then none else some q) = some q
      rw [if_neg hge]

theorem filter_map_mkPageOf (ocrD : Nat → Frac × Frac × List Frag) (l : List Nat) (p : Nat) :
    l.Nodup → p ∈ l →
    ((l.map (fun n => mkPageOf n (ocrD n))).filter (fun q => q.page_num == p)) =
      [mkPageOf p (ocrD p)] := by
  induction l with
  | nil => intro _ hp; cases hp
  | cons a t ih =>
    intro hnd hp
    rw [List.nodup_cons] at hnd
    rw [List.map_cons, List.filter_cons]
    rcases List.mem_cons.1 hp with h | h
    · subst h
      rw [if_pos (by simp [mkPageOf])]
      have hnil : ((t.map (fun n => mkPageOf n (ocrD n))).filter
          (fun q => q.page_num == p)) = [] := by
        refine List.filter_eq_nil_iff.2 ?_
        intro q hq
        rcases List.mem_map.1 hq with ⟨b, hb, rfl⟩
        simp only [mkPageOf, beq_iff_eq]
        intro hc
        exact hnd.1 (hc ▸ hb)
      rw [hnil]
    · have hap : a ≠ p := fun hc => hnd.1 (hc ▸ h)
      rw [if_neg (by simp [mkPageOf, hap])]
      exact ih hnd.2 h

theorem hybrid_sorted (docT : Nat → Option (Frac × Frac × List Frag))
    (ocrD : Nat → Frac × Frac × List Frag) (pages : List Nat) (minw : Nat) :
    List.Sorted (fun p q : PageW => p.page_num ≤ q.page_num)
      (hybrid_extract_words docT ocrD pages minw) := by
  haveI : IsTotal PageW (fun p q : PageW => p.page_num ≤ q.page_num) :=
    ⟨fun a b => Nat.le_total _ _⟩
  haveI : IsTrans PageW (fun p q : PageW => p.page_num ≤ q.page_num) :=
    ⟨fun a b c hab hbc => Nat.le_trans hab hbc⟩
  exact List.sorted_insertionSort _ _

theorem hybrid_keep_native (docT : Nat → Option (Frac × Frac × List Frag))
    (ocrD : Nat → Frac × Frac × List Frag) (pages : List Nat) (minw : Nat)
    (p : Nat) (d : Frac × Frac × List Frag) (hnd : pages.Nodup) (hp : p ∈ pages)
    (hd : docT p = some d) (hge : minw ≤ d.2.2.length) :
    p ∉ toOcrOf (extract_words_from_pdf docT pages) minw ∧
    mkPageOf p d ∈ hybrid_extract_words docT ocrD pages minw := by
  have hb := byNumT_eq docT pages p d hnd hp hd
  constructor
  · intro hmem
    rcases (mem_toOcrOf _ minw p).1 hmem with ⟨pg, hb2, hlt⟩
    rw [hb] at hb2
    have : pg = mkPageOf p d := by simpa using hb2.symm
    subst this
    exact absurd hlt (Nat.not_lt.2 hge)
  · have hkn : mkPageOf p d ∈ keptNative (extract_words_from_pdf docT pages) minw :=
      (mem_keptNative _ minw _).2 ⟨hb, Nat.not_lt.2 hge⟩
    have hperm := List.perm_insertionSort
      (fun p q : PageW => p.page_num ≤ q.page_num)
      (keptNative (extract_words_from_pdf docT pages) minw ++
        ((toOcrOf (extract_words_from_pdf docT pages) minw).filterMap (fun n =>
          match ((if (toOcrOf (extract_words_from_pdf docT pages) minw).isEmpty then []
              else extract_words_via_ocr ocrD
                (toOcrOf (extract_words_from_pdf docT pages) minw)).filter
              (fun q => q.page_num == n)).getLast?,
            byNumT (extract_words_from_pdf docT pages) n with
          | some o, some t => some (if t.words.length ≤ o.words.length then o else t)
          | some o, none => some o
          | none, some t => some t
          | none, none => none)))
    exact hperm.mem_iff.2 (List.mem_append_left _ hkn)

theorem ocr_lookup_eq (ocrD : Nat → Frac × Frac × List Frag) (toOcr : List Nat)
    (n : Nat) (hpto : n ∈ toOcr) :
    ((if toOcr.isEmpty then [] else extract_words_via_ocr ocrD toOcr).filter
      (fun q => q.page_num == n)).getLast? = some (mkPageOf n (ocrD n)) := by
  have hne : toOcr.isEmpty = false := by
    rcases h : toOcr with _ | ⟨a, t⟩
    · rw [h] at hpto; cases hpto
    · rfl
  rw [if_neg (by simp [hne]), via_ocr_eq]
  have hnd2 : (List.insertionSort (· ≤ ·) toOcr.dedup).Nodup :=
    ((List.perm_insertionSort _ _).nodup_iff).2 (List.nodup_dedup toOcr)
  have hpl : n ∈ List.insertionSort (· ≤ ·) toOcr.dedup :=
    ((List.perm_insertionSort _ _).mem_iff).2 (List.mem_dedup.2 hpto)
  rw [filter_map_mkPageOf ocrD _ n hnd2 hpl]
  rfl

theorem hybrid_ocr_fallback (docT : Nat → Option (Frac × Frac × List Frag))
    (ocrD : Nat → Frac × Frac × List Frag) (pages : List Nat) (minw : Nat)
    (p : Nat) (d : Frac × Frac × List Frag) (hnd : pages.Nodup) (hp : p ∈ pages)
    (hd : docT p = some d) (hlt : d.2.2.length < minw) :
    p ∈ toOcrOf (extract_words_from_pdf docT pages) minw ∧
    (if d.2.2.length ≤ (ocrD p).2.2.length then mkPageOf p (ocrD p) else mkPageOf p d)
      ∈ hybrid_extract_words docT ocrD pages minw := by
  have hb := byNumT_eq docT pages p d hnd hp hd
  have hpto : p ∈ toOcrOf (extract_words_from_pdf docT pages) minw :=
    (mem_toOcrOf _ minw p).2 ⟨mkPageOf p d, hb, hlt⟩
  refine ⟨hpto, ?_⟩
  have hgl := ocr_lookup_eq ocrD (toOcrOf (extract_words_from_pdf docT pages) minw) p hpto
  have hr2 : (if d.2.2.length ≤ (ocrD p).2.2.length then mkPageOf p (ocrD p) else mkPageOf p d)
      ∈ ((toOcrOf (extract_words_from_pdf docT pages) minw).filterMap (fun n =>
          match ((if (toOcrOf (extract_words_from_pdf docT pages) minw).isEmpty then []
              else extract_words_via_ocr ocrD
                (toOcrOf (extract_words_from_pdf docT pages) minw)).filter
              (fun q => q.page_num == n)).getLast?,
            byNumT (extract_words_from_pdf docT pages) n with
          | some o, some t => some (if t.words.length ≤ o.words.length then o else t)
          | some o, none => some o
          | none, some t => some t
          | none, none => none)) := by
    refine List.mem_filterMap.2 ⟨p, hpto, ?_⟩
    rw [hgl, hb]
    rfl
  have hperm := List.perm_insertionSort
    (fun p q : PageW => p.page_num ≤ q.page_num)
    (keptNative (extract_words_from_pdf docT pages) minw ++
      ((toOcrOf (extract_words_from_pdf docT pages) minw).filterMap (fun n =>
        match ((if (toOcrOf (extract_words_from_pdf docT pages) minw).isEmpty then []
            else extract_words_via_ocr ocrD
              (toOcrOf (extract_words_from_pdf docT pages) minw)).filter
            (fun q => q.page_num == n)).getLast?,
          byNumT (extract_words_from_pdf docT pages) n with
        | some o, some t => some (if t.words.length ≤ o.words.length then o else t)
        | some o, none => some o
        | none, some t => some t
        | none, none => none)))
  exact hperm.mem_iff.2 (List.mem_append_right _ hr2)

theorem hybrid_mem_inv (docT : Nat → Option (Frac × Frac × List Frag))
    (ocrD : Nat → Frac × Frac × List Frag) (pages : List Nat) (minw : Nat) (q : PageW)
    (hq : q ∈ hybrid_extract_words docT ocrD pages minw) :
    ∃ p d, p ∈ pages ∧ docT p = some d ∧
      ((minw ≤ d.2.2.length ∧ q = mkPageOf p d) ∨
       (d.2.2.length < minw ∧
        q = if d.2.2.length ≤ (ocrD p).2.2.length then mkPageOf p (ocrD p)
            else mkPageOf p d)) := by
  have hperm := List.perm_insertionSort
    (fun p q : PageW => p.page_num ≤ q.page_num)
    (keptNative (extract_words_from_pdf docT pages) minw ++
      ((toOcrOf (extract_words_from_pdf docT pages) minw).filterMap (fun n =>
        match ((if (toOcrOf (extract_words_from_pdf docT pages) minw).isEmpty then []
            else extract_words_via_ocr ocrD
              (toOcrOf (extract_words_from_pdf docT pages) minw)).filter
            (fun q => q.page_num == n)).getLast?,
          byNumT (extract_words_from_pdf docT pages) n with
        | some o, some t => some (if t.words.length ≤ o.words.length then o else t)
        | some o, none => some o
        | none, some t => some t
        | none, none => none)))
  have hq2 := hperm.mem_iff.1 hq
  rcases List.mem_append.1 hq2 with hk | hr
  · rcases (mem_keptNative _ _ _).1 hk with ⟨hb, hge⟩
    rcases (mem_extract_words_from_pdf docT pages q).1 (byNumT_some _ _ _ hb).1
      with ⟨p, hp, d, hd, rfl⟩
    exact ⟨p, d, hp, hd, Or.inl ⟨Nat.le_of_not_lt hge, rfl⟩⟩
  · rcases List.mem_filterMap.1 hr with ⟨n, hn, hf⟩
    rcases (mem_toOcrOf _ _ _).1 hn with ⟨pg, hbn, hlt⟩
    rcases (mem_extract_words_from_pdf docT pages pg).1 (byNumT_some _ _ _ hbn).1
      with ⟨p, hp, d, hd, rfl⟩
    have hpn : p = n := (byNumT_some _ _ _ hbn).2
    subst hpn
    have hgl := ocr_lookup_eq ocrD (toOcrOf (extract_words_from_pdf docT pages) minw) p hn
    rw [hgl, hbn] at hf
    have hf2 : (if d.2.2.length ≤ (ocrD p).2.2.length then mkPageOf p (ocrD p)
        else mkPageOf p d) = q := Option.some.inj hf
    exact ⟨p, d, hp, hd, Or.inr ⟨hlt, hf2.symm⟩⟩

/-- C2: for every requested page list without repeats: a page whose
text layer has at least `min_text_words` fragments is kept from the
native path and never routed to optical recognition; a page below the
threshold is routed to optical recognition and the result with more
fragments is kept, ties going to the optical result; every output page
arises in one of these two ways; a below-threshold page whose optical
run yields at least as many fragments (and a different page value)
never contributes its native fragments; and the output is sorted by
ascending page number. -/
theorem C2_hybrid_threshold_spec (docT : Nat → Option (Frac × Frac × List Frag))
    (ocrD : Nat → Frac × Frac × List Frag) (pages : List Nat) (minw : Nat)
    (hnd : pages.Nodup) :
    List.Sorted (fun p q : PageW => p.page_num ≤ q.page_num)
      (hybrid_extract_words docT ocrD pages minw) ∧
    (∀ p d, p ∈ pages → docT p = some d → minw ≤ d.2.2.length →
      p ∉ toOcrOf (extract_words_from_pdf docT pages) minw ∧
      mkPageOf p d ∈ hybrid_extract_words docT ocrD pages minw) ∧
    (∀ p d, p ∈ pages → docT p = some d → d.2.2.length < minw →
      p ∈ toOcrOf (extract_words_from_pdf docT pages) minw ∧
      (if d.2.2.length ≤ (ocrD p).2.2.length then mkPageOf p (ocrD p) else mkPageOf p d)
        ∈ hybrid_extract_words docT ocrD pages minw) ∧
    (∀ q, q ∈ hybrid_extract_words docT ocrD pages minw →
      ∃ p d, p ∈ pages ∧ docT p = some d ∧
        ((minw ≤ d.2.2.length ∧ q = mkPageOf p d) ∨
         (d.2.2.length < minw ∧
          q = if d.2.2.length ≤ (ocrD p).2.2.length then mkPageOf p (ocrD p)
              else mkPageOf p d))) ∧
    (∀ p d, p ∈ pages → docT p = some d → d.2.2.length < minw →
      d.2.2.length ≤ (ocrD p).2.2.length → mkPageOf p (ocrD p) ≠ mkPageOf p d →
      mkPageOf p d ∉ hybrid_extract_words docT ocrD pages minw) := by
  refine ⟨hybrid_sorted docT ocrD pages minw,
    fun p d hp hd hge => hybrid_keep_native docT ocrD pages minw p d hnd hp hd hge,
    fun p d hp hd hlt => hybrid_ocr_fallback docT ocrD pages minw p d hnd hp hd hlt,
    fun q hq => hybrid_mem_inv docT ocrD pages minw q hq, ?_⟩
  intro p d hp hd hlt hle hneq hmem
  rcases hybrid_mem_inv docT ocrD pages minw _ hmem with ⟨p2, d2, hp2, hd2, hcase⟩
  rcases hcase with ⟨hge2, heq⟩ | ⟨hlt2, heq⟩
  · have hpp : p = p2 := congrArg PageW.page_num heq
    subst hpp
    have hdd : d = d2 := Option.some.inj (hd.symm.trans hd2)
    subst hdd
    exact absurd hge2 (Nat.not_le.2 hlt)
  · by_cases hc : d2.2.2.length ≤ (ocrD p2).2.2.length
    · rw [if_pos hc] at heq
      have hpp : p = p2 := congrArg PageW.page_num heq
      subst hpp
      exact hneq heq.symm
    · rw [if_neg hc] at heq
      have hpp : p = p2 := congrArg PageW.page_num heq
      subst hpp
      have hdd : d = d2 := Option.some.inj (hd.symm.trans hd2)
      subst hdd
      exact hc hle

/-- Witness for C2 on a concrete two-page document: page 2 (two native
fragments, threshold 2) is kept native; page 1 (one native fragment) is
routed to optical recognition. -/
theorem C2_hybrid_threshold_spec_witness :
    (1 ∈ toOcrOf (extract_words_from_pdf
        (fun n => if n = 1
          then some (⟨600, 1⟩, ⟨800, 1⟩, [⟨"x", ⟨0, 1⟩, ⟨0, 1⟩, ⟨1, 1⟩, ⟨1, 1⟩⟩])
          else if n = 2 then some (⟨600, 1⟩, ⟨800, 1⟩,
            [⟨"a", ⟨0, 1⟩, ⟨0, 1⟩, ⟨1, 1⟩, ⟨1, 1⟩⟩, ⟨"b", ⟨2, 1⟩, ⟨0, 1⟩, ⟨3, 1⟩, ⟨1, 1⟩⟩])
          else none) [2, 1]) 2) ∧
    (2 ∉ toOcrOf (extract_words_from_pdf
        (fun n => if n = 1
          then some (⟨600, 1⟩, ⟨800, 1⟩, [⟨"x", ⟨0, 1⟩, ⟨0, 1⟩, ⟨1, 1⟩, ⟨1, 1⟩⟩])
          else if n = 2 then some (⟨600, 1⟩, ⟨800, 1⟩,
            [⟨"a", ⟨0, 1⟩, ⟨0, 1⟩, ⟨1, 1⟩, ⟨1, 1⟩⟩, ⟨"b", ⟨2, 1⟩, ⟨0, 1⟩, ⟨3, 1⟩, ⟨1, 1⟩⟩])
          else none) [2, 1]) 2) :=
  ⟨((C2_hybrid_threshold_spec
      (fun n => if n = 1
        then some (⟨600, 1⟩, ⟨800, 1⟩, [⟨"x", ⟨0, 1⟩, ⟨0, 1⟩, ⟨1, 1⟩, ⟨1, 1⟩⟩])
        else if n = 2 then some (⟨600, 1⟩, ⟨800, 1⟩,
          [⟨"a", ⟨0, 1⟩, ⟨0, 1⟩, ⟨1, 1⟩, ⟨1, 1⟩⟩, ⟨"b", ⟨2, 1⟩, ⟨0, 1⟩, ⟨3, 1⟩, ⟨1, 1⟩⟩])
        else none)
      (fun _ => (⟨600, 1⟩, ⟨800, 1⟩,
        [⟨"o1", ⟨0, 1⟩, ⟨0, 1⟩, ⟨1, 1⟩, ⟨1, 1⟩⟩, ⟨"o2", ⟨2, 1⟩, ⟨0, 1⟩, ⟨3, 1⟩, ⟨1, 1⟩⟩,
         ⟨"o3", ⟨4, 1⟩, ⟨0, 1⟩, ⟨5, 1⟩, ⟨1, 1⟩⟩]))
      [2, 1] 2 (by decide)).2.2.1 1
      (⟨600, 1⟩, ⟨800, 1⟩, [⟨"x", ⟨0, 1⟩, ⟨0, 1⟩, ⟨1, 1⟩, ⟨1, 1⟩⟩])
      (by decide) (by decide) (by decide)).1,
   ((C2_hybrid_threshold_spec
      (fun n => if n = 1
        then some (⟨600, 1⟩, ⟨800, 1⟩, [⟨"x", ⟨0, 1⟩, ⟨0, 1⟩, ⟨1, 1⟩, ⟨1, 1⟩⟩])
        else if n = 2 then some (⟨600, 1⟩, ⟨800, 1⟩,
          [⟨"a", ⟨0, 1⟩, ⟨0, 1⟩, ⟨1, 1⟩, ⟨1, 1⟩⟩, ⟨"b", ⟨2, 1⟩, ⟨0, 1⟩, ⟨3, 1⟩, ⟨1, 1⟩⟩])
        else none)
      (fun _ => (⟨600, 1⟩, ⟨800, 1⟩,
        [⟨"o1", ⟨0, 1⟩, ⟨0, 1⟩, ⟨1, 1⟩, ⟨1, 1⟩⟩, ⟨"o2", ⟨2, 1⟩, ⟨0, 1⟩, ⟨3, 1⟩, ⟨1, 1⟩⟩,
         ⟨"o3", ⟨4, 1⟩, ⟨0, 1⟩, ⟨5, 1⟩, ⟨1, 1⟩⟩]))
      [2, 1] 2 (by decide)).2.1 2
      (⟨600, 1⟩, ⟨800, 1⟩,
        [⟨"a", ⟨0, 1⟩, ⟨0, 1⟩, ⟨1, 1⟩, ⟨1, 1⟩⟩, ⟨"b", ⟨2, 1⟩, ⟨0, 1⟩, ⟨3, 1⟩, ⟨1, 1⟩⟩])
      (by decide) (by decide) (by decide)).1⟩

theorem byNumT_none (docT : Nat → Option (Frac × Frac × List Frag))
    (pages : List Nat) (n : Nat)
    (h : ∀ d, docT n = some d → n ∉ pages) :
    byNumT (extract_words_from_pdf docT pages) n = none := by
  unfold byNumT
  have hnil : (extract_words_from_pdf docT pages).filter (fun q => q.page_num == n) = [] := by
    refine List.filter_eq_nil_iff.2 ?_
    intro q hq
    rcases (mem_extract_words_from_pdf docT pages q).1 hq with ⟨p, hp, d, hd, rfl⟩
    simp only [mkPageOf, beq_iff_eq]
    intro hc
    subst hc
    exact h d hd hp
  rw [hnil]
  rfl

theorem byNumT_congr (docT : Nat → Option (Frac × Frac × List Frag))
    (pages pages2 : List Nat) (n : Nat)
    (hnd : pages.Nodup) (hperm : pages.Perm pages2) :
    byNumT (extract_words_from_pdf docT pages) n =
      byNumT (extract_words_from_pdf docT pages2) n := by
  by_cases hn : n ∈ pages
  · rcases hd : docT n with _ | d
    · rw [byNumT_none docT pages n (fun d h => by rw [hd] at h; exact absurd h (by simp)),
          byNumT_none docT pages2 n (fun d h => by rw [hd] at h; exact absurd h (by simp))]
    · rw [byNumT_eq docT pages n d hnd hn hd,
          byNumT_eq docT pages2 n d (hperm.nodup_iff.1 hnd) (hperm.mem_iff.1 hn) hd]
  · rw [byNumT_none docT pages n (fun _ _ => hn),
        byNumT_none docT pages2 n (fun _ _ hmem => hn (hperm.mem_iff.2 hmem))]

theorem eq_of_perm_sorted_ties (l1 : List PageW) : ∀ l2 : List PageW,
    l1.Perm l2 →
    List.Pairwise (fun p q : PageW => p.page_num ≤ q.page_num) l1 →
    List.Pairwise (fun p q : PageW => p.page_num ≤ q.page_num) l2 →
    (∀ p ∈ l1, ∀ q ∈ l1, p.page_num = q.page_num → p = q) →
    l1 = l2 := by
  induction l1 with
  | nil =>
    intro l2 hp _ _ _
    exact (hp.nil_eq).symm ▸ rfl
  | cons a t ih =>
    intro l2 hp h1 h2 hties
    rcases l2 with _ | ⟨b, t2⟩
    · exact absurd hp (by simp)
    · have ha2 : a ∈ b :: t2 := hp.mem_iff.1 (List.mem_cons_self a t)
      have hb1 : b ∈ a :: t := hp.mem_iff.2 (List.mem_cons_self b t2)
      have hab : a = b := by
        have hkab : a.page_num ≤ b.page_num := by
          rcases List.mem_cons.1 hb1 with h | h
          · exact h ▸ le_rfl
          · exact (List.pairwise_cons.1 h1).1 b h
        have hkba : b.page_num ≤ a.page_num := by
          rcases List.mem_cons.1 ha2 with h | h
          · exact h ▸ le_rfl
          · exact (List.pairwise_cons.1 h2).1 a h
        exact hties a (List.mem_cons_self a t) b hb1 (Nat.le_antisymm hkab hkba)
      subst hab
      have hpt : t.Perm t2 := hp.cons_inv
      have hrec := ih t2 hpt (List.pairwise_cons.1 h1).2 (List.pairwise_cons.1 h2).2
        (fun p hp2 q hq2 => hties p (List.mem_cons_of_mem a hp2) q (List.mem_cons_of_mem a hq2))
      rw [hrec]

theorem sortedDedup_congr (l1 l2 : List Nat) (hperm : l1.Perm l2) :
    List.insertionSort (· ≤ ·) l1.dedup = List.insertionSort (· ≤ ·) l2.dedup := by
  have hp2 : (List.insertionSort (· ≤ ·) l1.dedup).Perm (List.insertionSort (· ≤ ·) l2.dedup) :=
    ((List.perm_insertionSort _ _).trans (hperm.dedup)).trans (List.perm_insertionSort _ _).symm
  exact List.eq_of_perm_of_sorted hp2 (List.sorted_insertionSort _ _) (List.sorted_insertionSort _ _)

theorem via_ocr_perm (ocrD : Nat → Frac × Frac × List Frag) (l1 l2 : List Nat)
    (hperm : l1.Perm l2) :
    extract_words_via_ocr ocrD l1 = extract_words_via_ocr ocrD l2 := by
  rw [via_ocr_eq, via_ocr_eq, sortedDedup_congr l1 l2 hperm]

theorem toOcrOf_perm (docT : Nat → Option (Frac × Frac × List Frag))
    (pages pages2 : List Nat) (minw : Nat)
    (hnd : pages.Nodup) (hperm : pages.Perm pages2) :
    (toOcrOf (extract_words_from_pdf docT pages) minw).Perm
      (toOcrOf (extract_words_from_pdf docT pages2) minw) := by
  have htps : (extract_words_from_pdf docT pages).Perm (extract_words_from_pdf docT pages2) :=
    hperm.filterMap _
  unfold toOcrOf
  have hcongr : ((extract_words_from_pdf docT pages2).map (·.page_num)).filterMap (fun n =>
      match byNumT (extract_words_from_pdf docT pages2) n with
      | some pg => if pg.words.length < minw then some n else none
      | none => none) =
    ((extract_words_from_pdf docT pages2).map (·.page_num)).filterMap (fun n =>
      match byNumT (extract_words_from_pdf docT pages) n with
      | some pg => if pg.words.length < minw then some n else none
      | none => none) :=
    List.filterMap_congr (fun a _ => by rw [byNumT_congr docT pages pages2 a hnd hperm])
  rw [hcongr]
  exact (htps.map _).filterMap _

theorem keptNative_perm (docT : Nat → Option (Frac × Frac × List Frag))
    (pages pages2 : List Nat) (minw : Nat)
    (hnd : pages.Nodup) (hperm : pages.Perm pages2) :
    (keptNative (extract_words_from_pdf docT pages) minw).Perm
      (keptNative (extract_words_from_pdf docT pages2) minw) := by
  have htps : (extract_words_from_pdf docT pages).Perm (extract_words_from_pdf docT pages2) :=
    hperm.filterMap _
  unfold keptNative
  have hcongr : ((extract_words_from_pdf docT pages2).map (·.page_num)).filterMap (fun n =>
      match byNumT (extract_words_from_pdf docT pages2) n with
      | some pg => if pg.words.length < minw then none else some pg
      | none => none) =
    ((extract_words_from_pdf docT pages2).map (·.page_num)).filterMap (fun n =>
      match byNumT (extract_words_from_pdf docT pages) n with
      | some pg => if pg.words.length < minw then none else some pg
      | none => none) :=
    List.filterMap_congr (fun a _ => by rw [byNumT_congr docT pages pages2 a hnd hperm])
  rw [hcongr]
  exact (htps.map _).filterMap _

theorem hybrid_ties (docT : Nat → Option (Frac × Frac × List Frag))
    (ocrD : Nat → Frac × Frac × List Frag) (pages : List Nat) (minw : Nat) :
    ∀ p ∈ hybrid_extract_words docT ocrD pages minw,
    ∀ q ∈ hybrid_extract_words docT ocrD pages minw,
    p.page_num = q.page_num → p = q := by
  have key : ∀ (r : PageW) (n : Nat) (d : Frac × Frac × List Frag),
      ((minw ≤ d.2.2.length ∧ r = mkPageOf n d) ∨
       (d.2.2.length < minw ∧
        r = if d.2.2.length ≤ (ocrD n).2.2.length then mkPageOf n (ocrD n)
            else mkPageOf n d)) → r.page_num = n := by
    rintro r n d (⟨_, rfl⟩ | ⟨_, rfl⟩)
    · rfl
    · split <;> rfl
  intro p hp q hq hk
  rcases hybrid_mem_inv docT ocrD pages minw p hp with ⟨n1, d1, hn1, hd1, hc1⟩
  rcases hybrid_mem_inv docT ocrD pages minw q hq with ⟨n2, d2, hn2, hd2, hc2⟩
  have hpk := key p n1 d1 hc1
  have hqk := key q n2 d2 hc2
  have hnn : n1 = n2 := by rw [← hpk, hk, hqk]
  subst hnn
  have hdd : d1 = d2 := Option.some.inj (hd1.symm.trans hd2)
  subst hdd
  rcases hc1 with ⟨hA, hP⟩ | ⟨hA, hP⟩ <;> rcases hc2 with ⟨hB, hQ⟩ | ⟨hB, hQ⟩
  · rw [hP, hQ]
  · exact absurd hB (Nat.not_lt.2 hA)
  · exact absurd hA (Nat.not_lt.2 hB)
  · rw [hP, hQ]

theorem hybrid_perm (docT : Nat → Option (Frac × Frac × List Frag))
    (ocrD : Nat → Frac × Frac × List Frag) (pages pages2 : List Nat) (minw : Nat)
    (hnd : pages.Nodup) (hperm : pages.Perm pages2) :
    hybrid_extract_words docT ocrD pages minw =
      hybrid_extract_words docT ocrD pages2 minw := by
  have htoOcr := toOcrOf_perm docT pages pages2 minw hnd hperm
  have hkept := keptNative_perm docT pages pages2 minw hnd hperm
  have hisE := htoOcr.isEmpty_eq
  have hocrP : (if (toOcrOf (extract_words_from_pdf docT pages) minw).isEmpty then []
      else extract_words_via_ocr ocrD (toOcrOf (extract_words_from_pdf docT pages) minw)) =
    (if (toOcrOf (extract_words_from_pdf docT pages2) minw).isEmpty then []
      else extract_words_via_ocr ocrD (toOcrOf (extract_words_from_pdf docT pages2) minw)) := by
    rw [← hisE]
    by_cases he : (toOcrOf (extract_words_from_pdf docT pages) minw).isEmpty
    · rw [if_pos he, if_pos he]
    · rw [if_neg he, if_neg he]
      exact via_ocr_perm ocrD _ _ htoOcr
  have hcongr : ((toOcrOf (extract_words_from_pdf docT pages2) minw).filterMap (fun n =>
      match ((if (toOcrOf (extract_words_from_pdf docT pages2) minw).isEmpty then []
          else extract_words_via_ocr ocrD
            (toOcrOf (extract_words_from_pdf docT pages2) minw)).filter
          (fun q => q.page_num == n)).getLast?,
        byNumT (extract_words_from_pdf docT pages2) n with
      | some o, some t => some (if t.words.length ≤ o.words.length then o else t)
      | some o, none => some o
      | none, some t => some t
      | none, none => none)) =
    ((toOcrOf (extract_words_from_pdf docT pages2) minw).filterMap (fun n =>
      match ((if (toOcrOf (extract_words_from_pdf docT pages) minw).isEmpty then []
          else extract_words_via_ocr ocrD
            (toOcrOf (extract_words_from_pdf docT pages) minw)).filter
          (fun q => q.page_num == n)).getLast?,
        byNumT (extract_words_from_pdf docT pages) n with
      | some o, some t => some (if t.words.length ≤ o.words.length then o else t)
      | some o, none => some o
      | none, some t => some t
      | none, none => none)) :=
    List.filterMap_congr (fun a _ => by
      rw [byNumT_congr docT pages pages2 a hnd hperm, hocrP])
  have hres : ((toOcrOf (extract_words_from_pdf docT pages) minw).filterMap (fun n =>
      match ((if (toOcrOf (extract_words_from_pdf docT pages) minw).isEmpty then []
          else extract_words_via_ocr ocrD
            (toOcrOf (extract_words_from_pdf docT pages) minw)).filter
          (fun q => q.page_num == n)).getLast?,
        byNumT (extract_words_from_pdf docT pages) n with
      | some o, some t => some (if t.words.length ≤ o.words.length then o else t)
      | some o, none => some o
      | none, some t => some t
      | none, none => none)).Perm
    ((toOcrOf (extract_words_from_pdf docT pages2) minw).filterMap (fun n =>
      match ((if (toOcrOf (extract_words_from_pdf docT pages2) minw).isEmpty then []
          else extract_words_via_ocr ocrD
            (toOcrOf (extract_words_from_pdf docT pages2) minw)).filter
          (fun q => q.page_num == n)).getLast?,
        byNumT (extract_words_from_pdf docT pages2) n with
      | some o, some t => some (if t.words.length ≤ o.words.length then o else t)
      | some o, none => some o
      | none, some t => some t
      | none, none => none)) := by
    rw [hcongr]
    exact htoOcr.filterMap _
  refine eq_of_perm_sorted_ties _ _ ?_ (hybrid_sorted docT ocrD pages minw)
    (hybrid_sorted docT ocrD pages2 minw) (hybrid_ties docT ocrD pages minw)
  exact (List.perm_insertionSort _ _).trans
    ((hkept.append hres).trans (List.perm_insertionSort _ _).symm)

/-- C9: requesting the pages of a document in a different order changes
nothing: optical extraction groups the (sorted, deduplicated) pages into
contiguous ranges whose expansion attributes to each requested page
exactly its own fragments, and hybrid extraction re-sorts its per-page
results by page number, so the returned page lists — and hence the
records parse_document emits from them — are identical for any
permutation of the request. -/
theorem C9_order_invariance (docT : Nat → Option (Frac × Frac × List Frag))
    (ocrD : Nat → Frac × Frac × List Frag) (pages pages2 : List Nat) (minw : Nat)
    (ds : String) (hnd : pages.Nodup) (hperm : pages.Perm pages2) :
    extract_words_via_ocr ocrD pages = extract_words_via_ocr ocrD pages2 ∧
    (∀ q, q ∈ extract_words_via_ocr ocrD pages ↔ ∃ p ∈ pages, q = mkPageOf p (ocrD p)) ∧
    hybrid_extract_words docT ocrD pages minw =
      hybrid_extract_words docT ocrD pages2 minw ∧
    parse_document (hybrid_extract_words docT ocrD pages minw) ds =
      parse_document (hybrid_extract_words docT ocrD pages2 minw) ds := by
  have h1 := via_ocr_perm ocrD pages pages2 hperm
  have h3 := hybrid_perm docT ocrD pages pages2 minw hnd hperm
  refine ⟨h1, ?_, h3, by rw [h3]⟩
  intro q
  rw [via_ocr_eq, List.mem_map]
  constructor
  · rintro ⟨p, hp, rfl⟩
    exact ⟨p, List.mem_dedup.1 ((List.perm_insertionSort _ _).mem_iff.1 hp), rfl⟩
  · rintro ⟨p, hp, rfl⟩
    exact ⟨p, (List.perm_insertionSort _ _).mem_iff.2 (List.mem_dedup.2 hp), rfl⟩

/-- Witness for C9 at a concrete two-page request in both orders. -/
theorem C9_order_invariance_witness :
    extract_words_via_ocr
        (fun _ => (⟨600, 1⟩, ⟨800, 1⟩, [⟨"w", ⟨0, 1⟩, ⟨0, 1⟩, ⟨1, 1⟩, ⟨1, 1⟩⟩])) [2, 1] =
      extract_words_via_ocr
        (fun _ => (⟨600, 1⟩, ⟨800, 1⟩, [⟨"w", ⟨0, 1⟩, ⟨0, 1⟩, ⟨1, 1⟩, ⟨1, 1⟩⟩])) [1, 2] ∧
    hybrid_extract_words (fun _ => none)
        (fun _ => (⟨600, 1⟩, ⟨800, 1⟩, [⟨"w", ⟨0, 1⟩, ⟨0, 1⟩, ⟨1, 1⟩, ⟨1, 1⟩⟩])) [2, 1] 2 =
      hybrid_extract_words (fun _ => none)
        (fun _ => (⟨600, 1⟩, ⟨800, 1⟩, [⟨"w", ⟨0, 1⟩, ⟨0, 1⟩, ⟨1, 1⟩, ⟨1, 1⟩⟩])) [1, 2] 2 :=
  ⟨(C9_order_invariance (fun _ => none)
      (fun _ => (⟨600, 1⟩, ⟨800, 1⟩, [⟨"w", ⟨0, 1⟩, ⟨0, 1⟩, ⟨1, 1⟩, ⟨1, 1⟩⟩]))
      [2, 1] [1, 2] 2 "" (by decide) (by decide)).1,
   (C9_order_invariance (fun _ => none)
      (fun _ => (⟨600, 1⟩, ⟨800, 1⟩, [⟨"w", ⟨0, 1⟩, ⟨0, 1⟩, ⟨1, 1⟩, ⟨1, 1⟩⟩]))
      [2, 1] [1, 2] 2 "" (by decide) (by decide)).2.2.1⟩

theorem Frac.val_ofInt (n : Int) : (Frac.ofInt n).val = (n : ℚ) := by
  unfold Frac.ofInt Frac.val
  norm_num

theorem Frac.val_add {a b : Frac} (ha : a.den ≠ 0) (hb : b.den ≠ 0) :
    (a.add b).val = a.val + b.val := by
  have ha2 : (a.den : ℚ) ≠ 0 := Int.cast_ne_zero.mpr ha
  have hb2 : (b.den : ℚ) ≠ 0 := Int.cast_ne_zero.mpr hb
  unfold Frac.add Frac.val
  push_cast
  field_simp

theorem Frac.val_sub {a b : Frac} (ha : a.den ≠ 0) (hb : b.den ≠ 0) :
    (a.sub b).val = a.val - b.val := by
  have ha2 : (a.den : ℚ) ≠ 0 := Int.cast_ne_zero.mpr ha
  have hb2 : (b.den : ℚ) ≠ 0 := Int.cast_ne_zero.mpr hb
  unfold Frac.sub Frac.val
  push_cast
  field_simp
  ring

theorem Frac.val_div {a b : Frac} (ha : a.den ≠ 0) (hbn : b.num ≠ 0) (hbd : b.den ≠ 0) :
    (a.div b).val = a.val / b.val := by
  have ha2 : (a.den : ℚ) ≠ 0 := Int.cast_ne_zero.mpr ha
  have hbn2 : (b.num : ℚ) ≠ 0 := Int.cast_ne_zero.mpr hbn
  have hbd2 : (b.den : ℚ) ≠ 0 := Int.cast_ne_zero.mpr hbd
  unfold Frac.div Frac.val
  by_cases hd : a.den * b.num < 0
  · rw [if_pos hd]
    push_cast
    rw [neg_div_neg_eq]
    field_simp
  · rw [if_neg hd]
    push_cast
    field_simp

theorem Frac.val_absF {a : Frac} (ha : 0 < a.den) : a.absF.val = |a.val| := by
  have ha2 : (0:ℚ) < (a.den : ℚ) := by exact_mod_cast ha
  unfold Frac.absF Frac.val
  rw [abs_div, abs_of_pos ha2]
  congr 1
  rw [Int.cast_natAbs]
  norm_num

theorem Frac.ble_iff {a b : Frac} (ha : 0 < a.den) (hb : 0 < b.den) :
    Frac.ble a b = true ↔ a.val ≤ b.val := by
  have ha2 : (0:ℚ) < (a.den : ℚ) := by exact_mod_cast ha
  have hb2 : (0:ℚ) < (b.den : ℚ) := by exact_mod_cast hb
  unfold Frac.ble Frac.val
  rw [decide_eq_true_eq, div_le_div_iff ha2 hb2]
  constructor
  · intro h; exact_mod_cast h
  · intro h; exact_mod_cast h

theorem Frac.blt_iff {a b : Frac} (ha : 0 < a.den) (hb : 0 < b.den) :
    Frac.blt a b = true ↔ a.val < b.val := by
  have ha2 : (0:ℚ) < (a.den : ℚ) := by exact_mod_cast ha
  have hb2 : (0:ℚ) < (b.den : ℚ) := by exact_mod_cast hb
  unfold Frac.blt Frac.val
  rw [decide_eq_true_eq, div_lt_div_iff ha2 hb2]
  constructor
  · intro h; exact_mod_cast h
  · intro h; exact_mod_cast h

theorem Frac.cross_eq_iff {a b : Frac} (ha : 0 < a.den) (hb : 0 < b.den) :
    a.num * b.den = b.num * a.den ↔ a.val = b.val := by
  have ha2 : (0:ℚ) < (a.den : ℚ) := by exact_mod_cast ha
  have hb2 : (0:ℚ) < (b.den : ℚ) := by exact_mod_cast hb
  unfold Frac.val
  rw [div_eq_div_iff (ne_of_gt ha2) (ne_of_gt hb2)]
  constructor
  · intro h; exact_mod_cast h
  · intro h; exact_mod_cast h

theorem foldl_add_val (l : List Frac) : ∀ acc : Frac, 0 < acc.den →
    (∀ x ∈ l, 0 < x.den) →
    0 < (l.foldl Frac.add acc).den ∧
    (l.foldl Frac.add acc).val = acc.val + ((l.map Frac.val).sum) := by
  induction l with
  | nil => intro acc ha _; exact ⟨ha, by simp⟩
  | cons x t ih =>
    intro acc ha hl
    have hx : 0 < x.den := hl x (List.mem_cons_self x t)
    have hstep : 0 < (acc.add x).den := mul_pos ha hx
    rcases ih (acc.add x) hstep (fun y hy => hl y (List.mem_cons_of_mem x hy)) with ⟨h1, h2⟩
    refine ⟨h1, ?_⟩
    rw [List.foldl_cons] at *
    rw [h2, Frac.val_add (ne_of_gt ha) (ne_of_gt hx)]
    simp [add_assoc]

theorem sumF_val (l : List Frac) (hl : ∀ x ∈ l, 0 < x.den) :
    0 < (sumF l).den ∧ (sumF l).val = (l.map Frac.val).sum := by
  rcases foldl_add_val l (Frac.ofInt 0) (by decide) hl with ⟨h1, h2⟩
  refine ⟨h1, ?_⟩
  rw [sumF, h2, Frac.val_ofInt]
  simp

theorem meanF_den_pos (l : List Frac) (hne : l ≠ []) (hl : ∀ x ∈ l, 0 < x.den) :
    0 < (meanF l).den := by
  have hlen : 0 < (l.length : Int) := by
    rcases l with _ | ⟨a, t⟩
    · exact absurd rfl hne
    · simp only [List.length_cons]
      omega
  have hs := (sumF_val l hl).1
  unfold meanF Frac.div
  have hd : ¬((sumF l).den * (Frac.ofInt (l.length : Int)).num < 0) := by
    show ¬((sumF l).den * (l.length : Int) < 0)
    have := mul_pos hs hlen
    omega
  rw [if_neg hd]
  show 0 < (sumF l).den * (Frac.ofInt (l.length : Int)).num
  exact mul_pos hs hlen

theorem meanF_val (l : List Frac) (hne : l ≠ []) (hl : ∀ x ∈ l, 0 < x.den) :
    (meanF l).val = (l.map Frac.val).sum / (l.length : ℚ) := by
  have hlen : (0:Int) < (l.length : Int) := by
    rcases l with _ | ⟨a, t⟩
    · exact absurd rfl hne
    · simp only [List.length_cons]; omega
  rcases sumF_val l hl with ⟨h1, h2⟩
  unfold meanF
  rw [Frac.val_div (ne_of_gt h1) (ne_of_gt hlen) (by norm_num [Frac.ofInt]), h2,
    Frac.val_ofInt]
  norm_num

theorem meanF_const (l : List Frac) (c : ℚ) (hne : l ≠ [])
    (hl : ∀ x ∈ l, 0 < x.den) (hc : ∀ x ∈ l, x.val = c) :
    (meanF l).val = c := by
  rw [meanF_val l hne hl]
  have hsum : ∀ m : List Frac, (∀ x ∈ m, x.val = c) →
      (m.map Frac.val).sum = (m.length : ℚ) * c := by
    intro m
    induction m with
    | nil => intro _; simp
    | cons a t ih =>
      intro hm
      rw [List.map_cons, List.sum_cons, hm a (List.mem_cons_self a t),
        ih (fun x hx => hm x (List.mem_cons_of_mem a hx))]
      simp only [List.length_cons]
      push_cast
      ring
  rw [hsum l hc]
  have hlen : ((l.length : ℚ)) ≠ 0 := by
    rcases l with _ | ⟨a, t⟩
    · exact absurd rfl hne
    · exact Nat.cast_ne_zero.mpr (Nat.succ_ne_zero _)
  rw [mul_comm, mul_div_assoc, div_self hlen, mul_one]

theorem zip_self_map {α β : Type} (l : List α) (f : α → β) :
    l.zip (l.map f) = l.map (fun a => (a, f a)) := by
  induction l with
  | nil => rfl
  | cons a t ih => simp [ih]

theorem labelOf_two (c1 c2 x : Frac) :
    labelOf [c1, c2] x =
      if Frac.blt ((x.sub c2).absF) ((x.sub c1).absF) then 1 else 0 := by
  show argminAux ((x.sub c1).absF) 0 1 [(x.sub c2).absF] = _
  unfold argminAux
  split
  · rfl
  · rfl

theorem labelOf_left (c1 c2 x : Frac) (hd1 : 0 < c1.den) (hd2 : 0 < c2.den)
    (hdx : 0 < x.den) (hxc : x.val ≤ c1.val) (hcc : c1.val < c2.val) :
    labelOf [c1, c2] x = 0 := by
  have hs1 : 0 < (x.sub c1).den := by
    show 0 < x.den * c1.den
    exact mul_pos hdx hd1
  have hs2 : 0 < (x.sub c2).den := by
    show 0 < x.den * c2.den
    exact mul_pos hdx hd2
  have ha1 : 0 < ((x.sub c1).absF).den := hs1
  have ha2 : 0 < ((x.sub c2).absF).den := hs2
  rw [labelOf_two, if_neg]
  intro hblt
  rw [Frac.blt_iff ha2 ha1, Frac.val_absF hs2, Frac.val_absF hs1,
    Frac.val_sub (ne_of_gt hdx) (ne_of_gt hd2),
    Frac.val_sub (ne_of_gt hdx) (ne_of_gt hd1)] at hblt
  rw [abs_of_nonpos (by linarith), abs_of_nonpos (by linarith)] at hblt
  linarith

theorem labelOf_right (c1 c2 x : Frac) (hd1 : 0 < c1.den) (hd2 : 0 < c2.den)
    (hdx : 0 < x.den) (hxc : c2.val ≤ x.val) (hcc : c1.val < c2.val) :
    labelOf [c1, c2] x = 1 := by
  have hs1 : 0 < (x.sub c1).den := by
    show 0 < x.den * c1.den
    exact mul_pos hdx hd1
  have hs2 : 0 < (x.sub c2).den := by
    show 0 < x.den * c2.den
    exact mul_pos hdx hd2
  have ha1 : 0 < ((x.sub c1).absF).den := hs1
  have ha2 : 0 < ((x.sub c2).absF).den := hs2
  rw [labelOf_two, if_pos]
  rw [Frac.blt_iff ha2 ha1, Frac.val_absF hs2, Frac.val_absF hs1,
    Frac.val_sub (ne_of_gt hdx) (ne_of_gt hd2),
    Frac.val_sub (ne_of_gt hdx) (ne_of_gt hd1)]
  rw [abs_of_nonneg (by linarith), abs_of_nonneg (by linarith)]
  linarith

theorem newCentersF_two (X cs : List Frac) (L : List Nat)
    (h0 : (clusterVals X L 0).isEmpty = false)
    (h1 : (clusterVals X L 1).isEmpty = false) :
    newCentersF 2 X cs L =
      some [meanF (clusterVals X L 0), meanF (clusterVals X L 1)] := by
  unfold newCentersF
  rw [show List.range 2 = [0, 1] from rfl]
  simp only [List.any_cons, List.any_nil, h0, h1, Bool.or_false, Bool.false_or,
    Bool.and_false, Bool.false_and, Bool.false_eq_true, if_false,
    List.map_cons, List.map_nil]

theorem kmLoop_two_valued (X : List Frac) (ca cb : Frac)
    (hden : ∀ x ∈ X, 0 < x.den)
    (hx : ∀ x ∈ X, x = ca ∨ x = cb)
    (hea : ca ∈ X) (heb : cb ∈ X)
    (hab : ca.val < cb.val) :
    ∀ fuel g1 g2, 0 < g1.den → 0 < g2.den →
      ca.val ≤ g1.val → g1.val < g2.val → g2.val ≤ cb.val →
      ∃ cs2, kmLoop X 2 (fuel + 1) [g1, g2] =
        some (cs2, X.map (fun x => if x == ca then 0 else 1)) := by
  have hcane : ca ≠ cb := fun h => absurd (h ▸ hab) (lt_irrefl _)
  have hlabels : ∀ g1 g2, 0 < g1.den → 0 < g2.den →
      ca.val ≤ g1.val → g1.val < g2.val → g2.val ≤ cb.val →
      labelsOf X [g1, g2] = X.map (fun x => if x == ca then 0 else 1) := by
    intro g1 g2 h1 h2 h3 h4 h5
    unfold labelsOf
    refine List.map_congr_left ?_
    intro x hxm
    rcases hx x hxm with rfl | rfl
    · rw [labelOf_left g1 g2 x h1 h2 (hden x hxm) h3 h4]
      simp
    · rw [labelOf_right g1 g2 x h1 h2 (hden x hxm) h5 h4]
      have hbne : (x == ca) = false := beq_eq_false_iff_ne.mpr (Ne.symm hcane)
      simp [hbne]
  have hFa : ca ∈ X.filter (fun x => x == ca) :=
    List.mem_filter.2 ⟨hea, by simp⟩
  have hFb : cb ∈ X.filter (fun x => !(x == ca)) :=
    List.mem_filter.2 ⟨heb, by simp [beq_eq_false_iff_ne.mpr (Ne.symm hcane)]⟩
  have hFane : X.filter (fun x => x == ca) ≠ [] := List.ne_nil_of_mem hFa
  have hFbne : X.filter (fun x => !(x == ca)) ≠ [] := List.ne_nil_of_mem hFb
  have hclv : ∀ i : Nat, clusterVals X (X.map (fun x => if x == ca then 0 else 1)) i =
      X.filter (fun x => (if x == ca then (0 : Nat) else 1) == i) := by
    intro i
    unfold clusterVals
    rw [zip_self_map, List.map_filter]
    have hcomp : ((fun p : Frac × Nat => p.2 == i) ∘
        (fun a => (a, if a == ca then (0 : Nat) else 1))) =
        (fun x => (if x == ca then (0 : Nat) else 1) == i) := rfl
    rw [hcomp, List.map_map]
    have hid : ((fun p : Frac × Nat => p.1) ∘
        (fun a => (a, if a == ca then (0 : Nat) else 1))) = id := rfl
    rw [hid, List.map_id]
  have hclv0 : clusterVals X (X.map (fun x => if x == ca then 0 else 1)) 0 =
      X.filter (fun x => x == ca) := by
    rw [hclv 0]
    refine List.filter_congr ?_
    intro x _
    cases hxa : x == ca <;> simp [hxa]
  have hclv1 : clusterVals X (X.map (fun x => if x == ca then 0 else 1)) 1 =
      X.filter (fun x => !(x == ca)) := by
    rw [hclv 1]
    refine List.filter_congr ?_
    intro x _
    cases hxa : x == ca <;> simp [hxa]
  have hFaden : ∀ y ∈ X.filter (fun x => x == ca), 0 < y.den :=
    fun y hy => hden y (List.mem_of_mem_filter hy)
  have hFbden : ∀ y ∈ X.filter (fun x => !(x == ca)), 0 < y.den :=
    fun y hy => hden y (List.mem_of_mem_filter hy)
  have hFaval : ∀ y ∈ X.filter (fun x => x == ca), y.val = ca.val := by
    intro y hy
    rw [eq_of_beq (List.mem_filter.1 hy).2]
  have hFbval : ∀ y ∈ X.filter (fun x => !(x == ca)), y.val = cb.val := by
    intro y hy
    rcases hx y (List.mem_of_mem_filter hy) with rfl | rfl
    · have := (List.mem_filter.1 hy).2
      simp at this
    · rfl
  have hm1val : (meanF (X.filter (fun x => x == ca))).val = ca.val :=
    meanF_const _ _ hFane hFaden hFaval
  have hm2val : (meanF (X.filter (fun x => !(x == ca)))).val = cb.val :=
    meanF_const _ _ hFbne hFbden hFbval
  have hm1den : 0 < (meanF (X.filter (fun x => x == ca))).den :=
    meanF_den_pos _ hFane hFaden
  have hm2den : 0 < (meanF (X.filter (fun x => !(x == ca)))).den :=
    meanF_den_pos _ hFbne hFbden
  have hE0 : (clusterVals X (X.map (fun x => if x == ca then 0 else 1)) 0).isEmpty = false := by
    rw [Bool.eq_false_iff]
    intro h
    exact hFane (hclv0 ▸ List.isEmpty_iff.1 h)
  have hE1 : (clusterVals X (X.map (fun x => if x == ca then 0 else 1)) 1).isEmpty = false := by
    rw [Bool.eq_false_iff]
    intro h
    exact hFbne (hclv1 ▸ List.isEmpty_iff.1 h)
  have hnews : ∀ g1 g2, 0 < g1.den → 0 < g2.den →
      ca.val ≤ g1.val → g1.val < g2.val → g2.val ≤ cb.val →
      newCentersF 2 X [g1, g2] (labelsOf X [g1, g2]) =
        some [meanF (X.filter (fun x => x == ca)),
              meanF (X.filter (fun x => !(x == ca)))] := by
    intro g1 g2 h1 h2 h3 h4 h5
    rw [hlabels g1 g2 h1 h2 h3 h4 h5]
    rw [newCentersF_two X [g1, g2] _ hE0 hE1, hclv0, hclv1]
  have hstep : ∀ (fuel : Nat) (g1 g2 : Frac), 0 < g1.den → 0 < g2.den →
      ca.val ≤ g1.val → g1.val < g2.val → g2.val ≤ cb.val →
      kmLoop X 2 (fuel + 1) [g1, g2] =
        if allcloseF [meanF (X.filter (fun x => x == ca)),
            meanF (X.filter (fun x => !(x == ca)))] [g1, g2] then
          some ([g1, g2], X.map (fun x => if x == ca then 0 else 1))
        else match fuel with
          | 0 => some ([meanF (X.filter (fun x => x == ca)),
              meanF (X.filter (fun x => !(x == ca)))],
              X.map (fun x => if x == ca then 0 else 1))
          | _ + 1 => kmLoop X 2 fuel [meanF (X.filter (fun x => x == ca)),
              meanF (X.filter (fun x => !(x == ca)))] := by
    intro fuel g1 g2 h1 h2 h3 h4 h5
    show (match newCentersF 2 X [g1, g2] (labelsOf X [g1, g2]) with
      | none => none
      | some news =>
        if allcloseF news [g1, g2] then some ([g1, g2], labelsOf X [g1, g2])
        else match fuel with
          | 0 => some (news, labelsOf X [g1, g2])
          | _ + 1 => kmLoop X 2 fuel news) = _
    rw [hnews g1 g2 h1 h2 h3 h4 h5, hlabels g1 g2 h1 h2 h3 h4 h5]
  intro fuel
  induction fuel with
  | zero =>
    intro g1 g2 h1 h2 h3 h4 h5
    rw [hstep 0 g1 g2 h1 h2 h3 h4 h5]
    by_cases hac : allcloseF [meanF (X.filter (fun x => x == ca)),
        meanF (X.filter (fun x => !(x == ca)))] [g1, g2]
    · exact ⟨[g1, g2], by rw [if_pos hac]⟩
    · exact ⟨[meanF (X.filter (fun x => x == ca)),
        meanF (X.filter (fun x => !(x == ca)))], by rw [if_neg hac]⟩
  | succ m ih =>
    intro g1 g2 h1 h2 h3 h4 h5
    rw [hstep (m + 1) g1 g2 h1 h2 h3 h4 h5]
    by_cases hac : allcloseF [meanF (X.filter (fun x => x == ca)),
        meanF (X.filter (fun x => !(x == ca)))] [g1, g2]
    · exact ⟨[g1, g2], by rw [if_pos hac]⟩
    · rcases ih (meanF (X.filter (fun x => x == ca)))
        (meanF (X.filter (fun x => !(x == ca)))) hm1den hm2den
        (le_of_eq hm1val.symm) (by rw [hm1val, hm2val]; exact hab)
        (le_of_eq hm2val) with ⟨cs2, hcs⟩
      refine ⟨cs2, ?_⟩
      rw [if_neg hac]
      exact hcs
theorem attemptK_two_valued (words : List Frag) (ca cb c1 c2 : Frac)
    (hcden : ∀ w ∈ words, 0 < (centerF w).den)
    (hx : ∀ w ∈ words, centerF w = ca ∨ centerF w = cb)
    (hea : ∃ w ∈ words, centerF w = ca)
    (heb : ∃ w ∈ words, centerF w = cb)
    (hseed : initCenters (words.map centerF) 2 = [c1, c2])
    (hd1 : 0 < c1.den) (hd2 : 0 < c2.den)
    (hble1 : Frac.ble ca c1 = true)
    (hblt12 : Frac.blt c1 c2 = true)
    (hble2 : Frac.ble c2 cb = true) :
    attemptK words (words.map centerF) 2 =
      some [List.insertionSort yxLe (words.filter (fun w => centerF w == ca)),
            List.insertionSort yxLe (words.filter (fun w => !(centerF w == ca)))] := by
  rcases hea with ⟨wa, hwa, hwca⟩
  rcases heb with ⟨wb, hwb, hwcb⟩
  have hcaden : 0 < ca.den := hwca ▸ hcden wa hwa
  have hcbden : 0 < cb.den := hwcb ▸ hcden wb hwb
  have hv1 : ca.val ≤ c1.val := (Frac.ble_iff hcaden hd1).1 hble1
  have hv12 : c1.val < c2.val := (Frac.blt_iff hd1 hd2).1 hblt12
  have hv2 : c2.val ≤ cb.val := (Frac.ble_iff hd2 hcbden).1 hble2
  have hab : ca.val < cb.val := lt_of_le_of_lt hv1 (lt_of_lt_of_le hv12 hv2)
  have hcane : ca ≠ cb := fun h => absurd (h ▸ hab) (lt_irrefl _)
  have hXden : ∀ x ∈ words.map centerF, 0 < x.den := by
    intro x hxm
    rcases List.mem_map.1 hxm with ⟨w, hw, rfl⟩
    exact hcden w hw
  have hXx : ∀ x ∈ words.map centerF, x = ca ∨ x = cb := by
    intro x hxm
    rcases List.mem_map.1 hxm with ⟨w, hw, rfl⟩
    exact hx w hw
  have hXa : ca ∈ words.map centerF := hwca ▸ List.mem_map_of_mem centerF hwa
  have hXb : cb ∈ words.map centerF := hwcb ▸ List.mem_map_of_mem centerF hwb
  rcases kmLoop_two_valued (words.map centerF) ca cb hXden hXx hXa hXb hab 49 c1 c2
      hd1 hd2 hv1 hv12 hv2 with ⟨cs2, hcs⟩
  have hlab2 : kmeans_1d (words.map centerF) 2 =
      some (cs2, words.map (fun w => if centerF w == ca then 0 else 1)) := by
    unfold kmeans_1d
    rw [hseed]
    have hmm : (words.map centerF).map (fun x => if x == ca then 0 else 1) =
        words.map (fun w => if centerF w == ca then 0 else 1) := by
      rw [List.map_map]
      rfl
    rw [← hmm]
    exact hcs
  have hband : ∀ i : Nat,
      ((words.zip (words.map (fun w => if centerF w == ca then 0 else 1))).filter
        (fun p => p.2 == i)).map (·.1) =
      words.filter (fun w => (if centerF w == ca then (0 : Nat) else 1) == i) := by
    intro i
    rw [zip_self_map, List.map_filter]
    have hcomp : ((fun p : Frag × Nat => p.2 == i) ∘
        (fun a => (a, if centerF a == ca then (0 : Nat) else 1))) =
        (fun w => (if centerF w == ca then (0 : Nat) else 1) == i) := rfl
    rw [hcomp, List.map_map]
    have hid : ((fun p : Frag × Nat => p.1) ∘
        (fun a => (a, if centerF a == ca then (0 : Nat) else 1))) = id := rfl
    rw [hid, List.map_id]
  have hband0 : ((words.zip (words.map (fun w => if centerF w == ca then 0 else 1))).filter
        (fun p => p.2 == 0)).map (·.1) = words.filter (fun w => centerF w == ca) := by
    rw [hband 0]
    refine List.filter_congr ?_
    intro w _
    cases hxa : centerF w == ca <;> simp [hxa]
  have hband1 : ((words.zip (words.map (fun w => if centerF w == ca then 0 else 1))).filter
        (fun p => p.2 == 1)).map (·.1) = words.filter (fun w => !(centerF w == ca)) := by
    rw [hband 1]
    refine List.filter_congr ?_
    intro w _
    cases hxa : centerF w == ca <;> simp [hxa]
  have hwamem : wa ∈ words.filter (fun w => centerF w == ca) :=
    List.mem_filter.2 ⟨hwa, by rw [hwca]; simp⟩
  have hwbmem : wb ∈ words.filter (fun w => !(centerF w == ca)) :=
    List.mem_filter.2 ⟨hwb, by rw [hwcb]; simp [beq_eq_false_iff_ne.mpr (Ne.symm hcane)]⟩
  have hsAne : List.insertionSort yxLe (words.filter (fun w => centerF w == ca)) ≠ [] := by
    intro h
    have := (List.perm_insertionSort yxLe (words.filter (fun w => centerF w == ca))).symm.mem_iff.1 hwamem
    rw [h] at this
    cases this
  have hsBne : List.insertionSort yxLe (words.filter (fun w => !(centerF w == ca))) ≠ [] := by
    intro h
    have := (List.perm_insertionSort yxLe (words.filter (fun w => !(centerF w == ca)))).symm.mem_iff.1 hwbmem
    rw [h] at this
    cases this
  have hsAmem : ∀ w ∈ List.insertionSort yxLe (words.filter (fun w => centerF w == ca)),
      w ∈ words ∧ centerF w = ca := by
    intro w hw
    have h2 := (List.perm_insertionSort yxLe _).mem_iff.1 hw
    exact ⟨List.mem_of_mem_filter h2, eq_of_beq (List.mem_filter.1 h2).2⟩
  have hsBmem : ∀ w ∈ List.insertionSort yxLe (words.filter (fun w => !(centerF w == ca))),
      w ∈ words ∧ centerF w = cb := by
    intro w hw
    have h2 := (List.perm_insertionSort yxLe _).mem_iff.1 hw
    refine ⟨List.mem_of_mem_filter h2, ?_⟩
    rcases hx w (List.mem_of_mem_filter h2) with he | he
    · have := (List.mem_filter.1 h2).2
      rw [he] at this
      simp at this
    · exact he
  have hkAval : (meanF ((List.insertionSort yxLe
      (words.filter (fun w => centerF w == ca))).map centerF)).val = ca.val := by
    refine meanF_const _ _ ?_ ?_ ?_
    · intro h
      rcases hsA : List.insertionSort yxLe (words.filter (fun w => centerF w == ca)) with _ | ⟨z, t⟩
      · exact hsAne hsA
      · rw [hsA] at h
        cases h
    · intro y hy
      rcases List.mem_map.1 hy with ⟨w, hw, rfl⟩
      exact hcden w (hsAmem w hw).1
    · intro y hy
      rcases List.mem_map.1 hy with ⟨w, hw, rfl⟩
      rw [(hsAmem w hw).2]
  have hkBval : (meanF ((List.insertionSort yxLe
      (words.filter (fun w => !(centerF w == ca)))).map centerF)).val = cb.val := by
    refine meanF_const _ _ ?_ ?_ ?_
    · intro h
      rcases hsB : List.insertionSort yxLe (words.filter (fun w => !(centerF w == ca))) with _ | ⟨z, t⟩
      · exact hsBne hsB
      · rw [hsB] at h
        cases h
    · intro y hy
      rcases List.mem_map.1 hy with ⟨w, hw, rfl⟩
      exact hcden w (hsBmem w hw).1
    · intro y hy
      rcases List.mem_map.1 hy with ⟨w, hw, rfl⟩
      rw [(hsBmem w hw).2]
  have hkAden : 0 < (meanF ((List.insertionSort yxLe
      (words.filter (fun w => centerF w == ca))).map centerF)).den := by
    refine meanF_den_pos _ ?_ ?_
    · intro h
      exact hsAne (by simpa using List.map_eq_nil_iff.1 h)
    · intro y hy
      rcases List.mem_map.1 hy with ⟨w, hw, rfl⟩
      exact hcden w (hsAmem w hw).1
  have hkBden : 0 < (meanF ((List.insertionSort yxLe
      (words.filter (fun w => !(centerF w == ca)))).map centerF)).den := by
    refine meanF_den_pos _ ?_ ?_
    · intro h
      exact hsBne (by simpa using List.map_eq_nil_iff.1 h)
    · intro y hy
      rcases List.mem_map.1 hy with ⟨w, hw, rfl⟩
      exact hcden w (hsBmem w hw).1
  have hEA : (List.insertionSort yxLe (words.filter (fun w => centerF w == ca))).isEmpty
      = false := by
    rw [Bool.eq_false_iff]
    intro h
    exact hsAne (List.isEmpty_iff.1 h)
  have hEB : (List.insertionSort yxLe (words.filter (fun w => !(centerF w == ca)))).isEmpty
      = false := by
    rw [Bool.eq_false_iff]
    intro h
    exact hsBne (List.isEmpty_iff.1 h)
  have hkey0 : colKey [List.insertionSort yxLe (words.filter (fun w => centerF w == ca)),
      List.insertionSort yxLe (words.filter (fun w => !(centerF w == ca)))] 0 =
      meanF ((List.insertionSort yxLe (words.filter (fun w => centerF w == ca))).map centerF) := by
    unfold colKey
    simp only [List.getD_cons_zero, hEA, Bool.false_eq_true, if_false]
  have hkey1 : colKey [List.insertionSort yxLe (words.filter (fun w => centerF w == ca)),
      List.insertionSort yxLe (words.filter (fun w => !(centerF w == ca)))] 1 =
      meanF ((List.insertionSort yxLe (words.filter (fun w => !(centerF w == ca)))).map centerF) := by
    unfold colKey
    simp only [List.getD_cons_succ, List.getD_cons_zero, hEB, Bool.false_eq_true, if_false]
  have hrel01 : Frac.ble
      (colKey [List.insertionSort yxLe (words.filter (fun w => centerF w == ca)),
        List.insertionSort yxLe (words.filter (fun w => !(centerF w == ca)))] 0)
      (colKey [List.insertionSort yxLe (words.filter (fun w => centerF w == ca)),
        List.insertionSort yxLe (words.filter (fun w => !(centerF w == ca)))] 1) = true := by
    rw [hkey0, hkey1]
    rw [Frac.ble_iff hkAden hkBden, hkAval, hkBval]
    exact le_of_lt hab
  unfold attemptK
  rw [if_neg (by decide)]
  simp only [hlab2]
  rw [show List.range 2 = [0, 1] from rfl]
  simp only [List.map_cons, List.map_nil]
  simp only [hband0, hband1]
  simp only [List.insertionSort, List.orderedInsert]
  rw [if_pos hrel01]
  rfl

theorem orderedInsert_sorted_of {α : Type} (r : α → α → Prop) [DecidableRel r] (P : α → Prop)
    (htot : ∀ a b, P a → P b → r a b ∨ r b a)
    (htr : ∀ a b c, P a → P b → P c → r a b → r b c → r a c) :
    ∀ (l : List α) (a : α), P a → (∀ x ∈ l, P x) → l.Sorted r →
      (l.orderedInsert r a).Sorted r := by
  intro l
  induction l with
  | nil =>
    intro a _ _ _
    simp [List.orderedInsert]
  | cons b t ih =>
    intro a hPa hPl hs
    unfold List.orderedInsert
    by_cases hr : r a b
    · rw [if_pos hr]
      refine List.sorted_cons.2 ⟨?_, hs⟩
      intro c hc
      rcases List.mem_cons.1 hc with rfl | hc2
      · exact hr
      · exact htr a b c hPa (hPl b (List.mem_cons_self b t))
          (hPl c (List.mem_cons_of_mem b hc2)) hr ((List.sorted_cons.1 hs).1 c hc2)
    · rw [if_neg hr]
      have hba : r b a :=
        (htot a b hPa (hPl b (List.mem_cons_self b t))).resolve_left hr
      refine List.sorted_cons.2 ⟨?_, ih a hPa
        (fun x hx => hPl x (List.mem_cons_of_mem b hx)) (List.sorted_cons.1 hs).2⟩
      intro c hc
      have hc2 := (List.perm_orderedInsert r a t).mem_iff.1 hc
      rcases List.mem_cons.1 hc2 with rfl | hc3
      · exact hba
      · exact (List.sorted_cons.1 hs).1 c hc3

theorem insertionSort_sorted_of {α : Type} (r : α → α → Prop) [DecidableRel r] (P : α → Prop)
    (htot : ∀ a b, P a → P b → r a b ∨ r b a)
    (htr : ∀ a b c, P a → P b → P c → r a b → r b c → r a c) :
    ∀ l : List α, (∀ x ∈ l, P x) → (List.insertionSort r l).Sorted r := by
  intro l
  induction l with
  | nil => intro _; simp
  | cons a t ih =>
    intro hl
    show (List.orderedInsert r a (List.insertionSort r t)).Sorted r
    refine orderedInsert_sorted_of r P htot htr _ a (hl a (List.mem_cons_self a t)) ?_
      (ih (fun x hx => hl x (List.mem_cons_of_mem a hx)))
    intro x hx
    exact hl x (List.mem_cons_of_mem a ((List.perm_insertionSort r t).mem_iff.1 hx))

theorem yxLe_total (a b : Frag) : yxLe a b ∨ yxLe b a := by
  unfold yxLe
  by_cases h1 : Frac.blt a.y0 b.y0 = true
  · exact Or.inl (Or.inl h1)
  · by_cases h2 : Frac.blt b.y0 a.y0 = true
    · exact Or.inr (Or.inl h2)
    · unfold Frac.blt at h1 h2
      simp only [decide_eq_true_eq, not_lt] at h1 h2
      have heq : a.y0.num * b.y0.den = b.y0.num * a.y0.den := le_antisymm h2 h1
      rcases Int.le_total (a.x0.num * b.x0.den) (b.x0.num * a.x0.den) with h | h
      · exact Or.inl (Or.inr ⟨heq, decide_eq_true h⟩)
      · exact Or.inr (Or.inr ⟨heq.symm, decide_eq_true h⟩)

theorem yxLe_trans (a b c : Frag)
    (hPa : 0 < a.y0.den ∧ 0 < a.x0.den) (hPb : 0 < b.y0.den ∧ 0 < b.x0.den)
    (hPc : 0 < c.y0.den ∧ 0 < c.x0.den)
    (hab : yxLe a b) (hbc : yxLe b c) : yxLe a c := by
  unfold yxLe at *
  rcases hab with hab | ⟨habe, habx⟩ <;> rcases hbc with hbc | ⟨hbce, hbcx⟩
  · exact Or.inl ((Frac.blt_iff hPa.1 hPc.1).2
      (lt_trans ((Frac.blt_iff hPa.1 hPb.1).1 hab) ((Frac.blt_iff hPb.1 hPc.1).1 hbc)))
  · exact Or.inl ((Frac.blt_iff hPa.1 hPc.1).2
      (lt_of_lt_of_le ((Frac.blt_iff hPa.1 hPb.1).1 hab)
        (le_of_eq ((Frac.cross_eq_iff hPb.1 hPc.1).1 hbce))))
  · exact Or.inl ((Frac.blt_iff hPa.1 hPc.1).2
      (lt_of_le_of_lt (le_of_eq ((Frac.cross_eq_iff hPa.1 hPb.1).1 habe))
        ((Frac.blt_iff hPb.1 hPc.1).1 hbc)))
  · refine Or.inr ⟨?_, ?_⟩
    · exact (Frac.cross_eq_iff hPa.1 hPc.1).2
        (((Frac.cross_eq_iff hPa.1 hPb.1).1 habe).trans
          ((Frac.cross_eq_iff hPb.1 hPc.1).1 hbce))
    · exact (Frac.ble_iff hPa.2 hPc.2).2
        (le_trans ((Frac.ble_iff hPa.2 hPb.2).1 habx) ((Frac.ble_iff hPb.2 hPc.2).1 hbcx))

theorem mem_getD_sorted_cols (cols : List (List Frag)) (i : Nat) (x : Frag)
    (hx : x ∈ (cols.map (List.insertionSort yxLe)).getD i []) :
    ∃ c ∈ cols, x ∈ c := by
  by_cases hi : i < (cols.map (List.insertionSort yxLe)).length
  · rw [List.getD_eq_getElem _ _ hi] at hx
    rw [List.getElem_map] at hx
    have hlen : i < cols.length := by simpa using hi
    exact ⟨cols[i], List.getElem_mem hlen,
      (List.perm_insertionSort yxLe _).mem_iff.1 hx⟩
  · rw [List.getD_eq_default _ _ (Nat.le_of_not_lt hi)] at hx
    cases hx

theorem mem_cols_words (words : List Frag) (labels : List Nat) (k : Nat)
    (c : List Frag)
    (hc : c ∈ (List.range k).map (fun i =>
      ((words.zip labels).filter (fun p => p.2 == i)).map (·.1))) :
    ∀ x ∈ c, x ∈ words := by
  rcases List.mem_map.1 hc with ⟨i, _, rfl⟩
  intro x hx
  rcases List.mem_map.1 hx with ⟨p, hp, rfl⟩
  rcases p with ⟨x1, x2⟩
  exact (List.of_mem_zip (List.mem_of_mem_filter hp)).1

theorem attemptK_bands_sorted (words : List Frag) (centers : List Frac) (k : Nat)
    (r : List (List Frag))
    (hden2 : ∀ w ∈ words, 0 < w.y0.den ∧ 0 < w.x0.den)
    (h : attemptK words centers k = some r) :
    ∀ b ∈ r, b.Sorted yxLe := by
  unfold attemptK at h
  by_cases hk : k = 0
  · rw [if_pos hk] at h
    exact absurd h (by simp)
  · rw [if_neg hk] at h
    split at h
    next => exact absurd h (by simp)
    next km hkm =>
      have hr := (Option.some.inj h).symm
      subst hr
      intro b hb
      rcases List.mem_map.1 hb with ⟨i, _, rfl⟩
      by_cases hi : i < ((List.range k).map (fun i =>
          ((words.zip km.2).filter (fun p => p.2 == i)).map (·.1))
          |>.map (List.insertionSort yxLe)).length
      · rw [List.getD_eq_getElem _ _ hi, List.getElem_map]
        refine insertionSort_sorted_of yxLe
          (fun w => 0 < w.y0.den ∧ 0 < w.x0.den) (fun a b _ _ => yxLe_total a b)
          yxLe_trans _ ?_
        intro x hx
        refine hden2 x ?_
        have hlen : i < ((List.range k).map (fun i =>
            ((words.zip km.2).filter (fun p => p.2 == i)).map (·.1))).length := by
          simpa using hi
        exact mem_cols_words words km.2 k _ (List.getElem_mem hlen) x hx
      · rw [List.getD_eq_default _ _ (Nat.le_of_not_lt hi)]
        exact List.sorted_nil

theorem attemptK_bands_pairwise (words : List Frag) (centers : List Frac) (k : Nat)
    (r : List (List Frag))
    (hcden : ∀ w ∈ words, 0 < (centerF w).den)
    (h : attemptK words centers k = some r) :
    List.Pairwise (fun b1 b2 : List Frag =>
      Frac.ble (if b1.isEmpty then bigKeyF else meanF (b1.map centerF))
               (if b2.isEmpty then bigKeyF else meanF (b2.map centerF)) = true) r := by
  unfold attemptK at h
  by_cases hk : k = 0
  · rw [if_pos hk] at h
    exact absurd h (by simp)
  · rw [if_neg hk] at h
    split at h
    next => exact absurd h (by simp)
    next km hkm =>
      have hr := (Option.some.inj h).symm
      subst hr
      rw [List.pairwise_map]
      set C2 : List (List Frag) := ((List.range k).map (fun i =>
          ((words.zip km.2).filter (fun p => p.2 == i)).map (·.1))).map
          (List.insertionSort yxLe) with hC2
      have hkden : ∀ b : List Frag, (∀ x ∈ b, x ∈ words) →
          0 < (if b.isEmpty then bigKeyF else meanF (b.map centerF)).den := by
        intro b hbw
        by_cases he : b.isEmpty
        · rw [if_pos he]
          show (0 : Int) < 1
          decide
        · rw [if_neg he]
          refine meanF_den_pos _ ?_ ?_
          · intro hnil
            exact he (by rw [List.map_eq_nil_iff.1 hnil]; rfl)
          · intro y hy
            rcases List.mem_map.1 hy with ⟨w, hw, rfl⟩
            exact hcden w (hbw w hw)
      have hbmem : ∀ i : Nat, ∀ x ∈ C2.getD i [], x ∈ words := by
        intro i x hx
        rw [hC2] at hx
        rcases mem_getD_sorted_cols _ i x hx with ⟨c, hc, hxc⟩
        exact mem_cols_words words _ k c hc x hxc
      have hkd : ∀ i : Nat, 0 < (colKey C2 i).den := fun i => hkden _ (hbmem i)
      have hs := insertionSort_sorted_of
        (fun i j => Frac.ble (colKey C2 i) (colKey C2 j) = true)
        (fun _ => True)
        (fun i j _ _ => by
          show Frac.ble (colKey C2 i) (colKey C2 j) = true ∨
            Frac.ble (colKey C2 j) (colKey C2 i) = true
          unfold Frac.ble
          rcases Int.le_total ((colKey C2 i).num * (colKey C2 j).den)
            ((colKey C2 j).num * (colKey C2 i).den) with hle | hle
          · exact Or.inl (decide_eq_true hle)
          · exact Or.inr (decide_eq_true hle))
        (fun i j l _ _ _ hij hjl => by
          have hij2 : Frac.ble (colKey C2 i) (colKey C2 j) = true := hij
          have hjl2 : Frac.ble (colKey C2 j) (colKey C2 l) = true := hjl
          show Frac.ble (colKey C2 i) (colKey C2 l) = true
          rw [Frac.ble_iff (hkd i) (hkd j)] at hij2
          rw [Frac.ble_iff (hkd j) (hkd l)] at hjl2
          rw [Frac.ble_iff (hkd i) (hkd l)]
          exact le_trans hij2 hjl2)
        (List.range k) (fun _ _ => trivial)
      exact hs.imp (fun hab => hab)
theorem argminAux_lt (rest : List Frac) :
    ∀ (bestV : Frac) (bestI i n : Nat), bestI < n → i + rest.length ≤ n →
      argminAux bestV bestI i rest < n := by
  induction rest with
  | nil => intro bestV bestI i n hb _; exact hb
  | cons d t ih =>
    intro bestV bestI i n hb hi
    simp only [List.length_cons] at hi
    unfold argminAux
    by_cases hlt : Frac.blt d bestV
    · rw [if_pos hlt]
      exact ih d i (i + 1) n (by omega) (by omega)
    · rw [if_neg hlt]
      exact ih bestV bestI (i + 1) n hb (by omega)

theorem argminIdx_lt (l : List Frac) (hne : l ≠ []) : argminIdx l < l.length := by
  rcases l with _ | ⟨d, rest⟩
  · exact absurd rfl hne
  · simp only [List.length_cons]
    unfold argminIdx
    exact argminAux_lt rest d 0 1 (rest.length + 1) (by omega) (by omega)

theorem labelOf_lt (cs : List Frac) (x : Frac) (hne : cs ≠ []) :
    labelOf cs x < cs.length := by
  unfold labelOf
  have h := argminIdx_lt (cs.map (fun c => (x.sub c).absF))
    (fun h => hne (List.map_eq_nil_iff.1 h))
  simpa using h

theorem labelOf_one (c x : Frac) : labelOf [c] x = 0 := rfl

theorem labelsOf_one (X : List Frac) (c : Frac) :
    labelsOf X [c] = X.map (fun _ => 0) :=
  List.map_congr_left (fun x _ => labelOf_one c x)

theorem clusterVals_zero_const (X : List Frac) :
    clusterVals X (X.map (fun _ => 0)) 0 = X := by
  unfold clusterVals
  rw [zip_self_map, List.map_filter]
  have hcomp : ((fun p : Frac × Nat => p.2 == 0) ∘ (fun a => (a, (0 : Nat)))) =
      (fun _ => true) := rfl
  rw [hcomp, List.filter_true, List.map_map]
  have hid : ((fun p : Frac × Nat => p.1) ∘ (fun a => (a, (0 : Nat)))) = id := rfl
  rw [hid, List.map_id]

theorem newCentersF_one (X cs : List Frac) (hne : X ≠ []) :
    newCentersF 1 X cs (X.map (fun _ => 0)) = some [meanF X] := by
  have hXe : X.isEmpty = false := by
    rcases X with _ | ⟨a, t⟩
    · exact absurd rfl hne
    · rfl
  unfold newCentersF
  rw [show List.range 1 = [0] from rfl]
  simp only [List.any_cons, List.any_nil, clusterVals_zero_const, hXe,
    Bool.or_false, Bool.false_and, Bool.false_eq_true, if_false,
    List.map_cons, List.map_nil]

theorem kmLoop_one (X : List Frac) (hne : X ≠ []) :
    ∀ fuel c, ∃ cs2, kmLoop X 1 (fuel + 1) [c] =
      some (cs2, X.map (fun _ => 0)) := by
  have hstep : ∀ (fuel : Nat) (c : Frac),
      kmLoop X 1 (fuel + 1) [c] =
        if allcloseF [meanF X] [c] then some ([c], X.map (fun _ => 0))
        else match fuel with
          | 0 => some ([meanF X], X.map (fun _ => 0))
          | _ + 1 => kmLoop X 1 fuel [meanF X] := by
    intro fuel c
    show (match newCentersF 1 X [c] (labelsOf X [c]) with
      | none => none
      | some news =>
        if allcloseF news [c] then some ([c], labelsOf X [c])
        else match fuel with
          | 0 => some (news, labelsOf X [c])
          | _ + 1 => kmLoop X 1 fuel news) = _
    rw [labelsOf_one, newCentersF_one X [c] hne]
  intro fuel
  induction fuel with
  | zero =>
    intro c
    rw [hstep 0 c]
    by_cases hac : allcloseF [meanF X] [c]
    · exact ⟨[c], by rw [if_pos hac]⟩
    · exact ⟨[meanF X], by rw [if_neg hac]⟩
  | succ m ih =>
    intro c
    rw [hstep (m + 1) c]
    by_cases hac : allcloseF [meanF X] [c]
    · exact ⟨[c], by rw [if_pos hac]⟩
    · rcases ih (meanF X) with ⟨cs2, hcs⟩
      refine ⟨cs2, ?_⟩
      rw [if_neg hac]
      exact hcs

theorem attemptK_one (words : List Frag) (hne : words ≠ []) :
    attemptK words (words.map centerF) 1 =
      some [List.insertionSort yxLe words] := by
  have hXne : words.map centerF ≠ [] := fun h => hne (List.map_eq_nil_iff.1 h)
  obtain ⟨c, hc⟩ : ∃ c, initCenters (words.map centerF) 1 = [c] := ⟨_, rfl⟩
  rcases kmLoop_one (words.map centerF) hXne 49 c with ⟨cs2, hcs⟩
  have hkm : kmeans_1d (words.map centerF) 1 =
      some (cs2, words.map (fun _ => 0)) := by
    unfold kmeans_1d
    rw [hc]
    have hmm : (words.map centerF).map (fun _ : Frac => (0 : Nat)) =
        words.map (fun _ : Frag => (0 : Nat)) := by
      rw [List.map_map]
      rfl
    rw [← hmm]
    exact hcs
  have hband : ((words.zip (words.map (fun _ : Frag => (0 : Nat)))).filter
      (fun p => p.2 == 0)).map (·.1) = words := by
    rw [zip_self_map, List.map_filter]
    have hcomp : ((fun p : Frag × Nat => p.2 == 0) ∘ (fun a => (a, (0 : Nat)))) =
        (fun _ => true) := rfl
    rw [hcomp, List.filter_true, List.map_map]
    have hid : ((fun p : Frag × Nat => p.1) ∘ (fun a => (a, (0 : Nat)))) = id := rfl
    rw [hid, List.map_id]
  unfold attemptK
  rw [if_neg (by decide)]
  simp only [hkm]
  rw [show List.range 1 = [0] from rfl]
  simp only [List.map_cons, List.map_nil]
  simp only [hband]
  simp only [List.insertionSort, List.orderedInsert]
  rfl

theorem attemptK_length (words : List Frag) (centers : List Frac) (k : Nat)
    (r : List (List Frag)) (h : attemptK words centers k = some r) :
    r.length = k := by
  unfold attemptK at h
  by_cases hk : k = 0
  · rw [if_pos hk] at h
    exact absurd h (by simp)
  · rw [if_neg hk] at h
    split at h
    next => exact absurd h (by simp)
    next km hkm =>
      rw [← Option.some.inj h]
      rw [List.length_map, List.length_insertionSort, List.length_range]

theorem firstAttempt_cases (words : List Frag) (centers : List Frac) :
    ∀ (ks : List Nat) (r : List (List Frag)),
      firstAttempt words centers ks = some r →
      ∃ k ∈ ks, attemptK words centers k = some r := by
  intro ks
  induction ks with
  | nil =>
    intro r h
    exact absurd h (by simp [firstAttempt])
  | cons k rest ih =>
    intro r h
    unfold firstAttempt at h
    rcases hk : attemptK words centers k with _ | rk
    · rw [hk] at h
      rcases ih r h with ⟨k2, hk2, hk3⟩
      exact ⟨k2, List.mem_cons_of_mem k hk2, hk3⟩
    · rw [hk] at h
      have h2 : some rk = some r := h
      exact ⟨k, List.mem_cons_self k rest, by rw [hk, Option.some.inj h2]⟩

theorem firstAttempt_isSome (words : List Frag) (centers : List Frac) :
    ∀ ks : List Nat, (∃ k ∈ ks, ∃ rk, attemptK words centers k = some rk) →
      ∃ r, firstAttempt words centers ks = some r := by
  intro ks
  induction ks with
  | nil =>
    rintro ⟨k, hk, _⟩
    cases hk
  | cons k rest ih =>
    rintro ⟨k2, hk2, rk, hrk⟩
    unfold firstAttempt
    rcases hk : attemptK words centers k with _ | rh
    · refine ih ⟨k2, ?_, rk, hrk⟩
      rcases List.mem_cons.1 hk2 with rfl | h2
      · rw [hk] at hrk
        cases hrk
      · exact h2
    · exact ⟨rh, rfl⟩

theorem detect_columns_none_eq (words : List Frag) (pw : Frac) (hne : words ≠ [])
    (r : List (List Frag))
    (hfa : firstAttempt words (words.map centerF) [3, 2, 1] = some r) :
    detect_columns words pw none = r := by
  have hie : words.isEmpty = false := by
    cases words with
    | nil => exact absurd rfl hne
    | cons a t => rfl
  simp only [detect_columns, hie, Bool.false_eq_true, if_false, List.nil_append, hfa]

theorem detect_columns_some2_fa (words : List Frag) (pw : Frac) (hne : words ≠ [])
    (r : List (List Frag))
    (hfa : firstAttempt words (words.map centerF) [2, 3, 2, 1] = some r) :
    detect_columns words pw (some 2) = r := by
  have hie : words.isEmpty = false := by
    cases words with
    | nil => exact absurd rfl hne
    | cons a t => rfl
  have hks : ((if (2 : Nat) = 0 then ([] : List Nat) else [2]) ++ [3, 2, 1]) =
      [2, 3, 2, 1] := by
    rw [if_neg (by decide)]
    rfl
  simp only [detect_columns, hie, Bool.false_eq_true, if_false, hks, hfa]

theorem detect_columns_none_ex (words : List Frag) (pw : Frac) (hne : words ≠ []) :
    ∃ r, firstAttempt words (words.map centerF) [3, 2, 1] = some r ∧
      detect_columns words pw none = r := by
  rcases firstAttempt_isSome words (words.map centerF) [3, 2, 1]
    ⟨1, by simp, [List.insertionSort yxLe words], attemptK_one words hne⟩ with ⟨r, hr⟩
  exact ⟨r, hr, detect_columns_none_eq words pw hne r hr⟩

theorem detect_columns_some2_ex (words : List Frag) (pw : Frac) (hne : words ≠ []) :
    ∃ r, firstAttempt words (words.map centerF) [2, 3, 2, 1] = some r ∧
      detect_columns words pw (some 2) = r := by
  rcases firstAttempt_isSome words (words.map centerF) [2, 3, 2, 1]
    ⟨1, by simp, [List.insertionSort yxLe words], attemptK_one words hne⟩ with ⟨r, hr⟩
  exact ⟨r, hr, detect_columns_some2_fa words pw hne r hr⟩

theorem clusters_nonempty_of_newCentersF (X : List Frac) (k : Nat)
    (cs news : List Frac) (hne : X ≠ []) (hlen : cs.length = k)
    (hnc : newCentersF k X cs (labelsOf X cs) = some news) :
    ∀ i, i < k → clusterVals X (labelsOf X cs) i ≠ [] := by
  intro i hik hnil
  obtain ⟨x0, hx0⟩ : ∃ x, x ∈ X := by
    rcases X with _ | ⟨a, t⟩
    · exact absurd rfl hne
    · exact ⟨a, List.mem_cons_self a t⟩
  have hcs_ne : cs ≠ [] := by
    intro h
    rw [h] at hlen
    simp at hlen
    omega
  have hjlt : labelOf cs x0 < k := by
    have h := labelOf_lt cs x0 hcs_ne
    omega
  have hjne : clusterVals X (labelsOf X cs) (labelOf cs x0) ≠ [] := by
    intro hnil2
    have hmem : x0 ∈ clusterVals X (labelsOf X cs) (labelOf cs x0) := by
      unfold clusterVals labelsOf
      rw [zip_self_map]
      refine List.mem_map.2 ⟨(x0, labelOf cs x0), ?_, rfl⟩
      exact List.mem_filter.2 ⟨List.mem_map.2 ⟨x0, hx0, rfl⟩, by simp⟩
    rw [hnil2] at hmem
    cases hmem
  have hB : ((List.range k).any
      (fun j => !(clusterVals X (labelsOf X cs) j).isEmpty)) = true := by
    rw [List.any_eq_true]
    refine ⟨labelOf cs x0, List.mem_range.2 hjlt, ?_⟩
    simp only [Bool.not_eq_eq_eq_not, Bool.not_true]
    rw [Bool.eq_false_iff]
    intro hE
    exact hjne (List.isEmpty_iff.1 hE)
  have hA : ((List.range k).any
      (fun j => (clusterVals X (labelsOf X cs) j).isEmpty)) = true := by
    rw [List.any_eq_true]
    exact ⟨i, List.mem_range.2 hik, by rw [hnil]; rfl⟩
  unfold newCentersF at hnc
  rw [if_pos (by rw [hA, hB]; rfl)] at hnc
  cases hnc

theorem kmLoop_clusters_nonempty (X : List Frac) (k : Nat) (hne : X ≠ []) :
    ∀ fuel cs cs2 L, cs.length = k → kmLoop X k (fuel + 1) cs = some (cs2, L) →
      ∀ i, i < k → clusterVals X L i ≠ [] := by
  intro fuel
  induction fuel with
  | zero =>
    intro cs cs2 L hlen h i hik
    have h2 : (match newCentersF k X cs (labelsOf X cs) with
      | none => none
      | some news =>
        if allcloseF news cs then some (cs, labelsOf X cs)
        else some (news, labelsOf X cs)) = some (cs2, L) := h
    rcases hnc : newCentersF k X cs (labelsOf X cs) with _ | news
    · rw [hnc] at h2
      exact absurd h2 (by simp)
    · rw [hnc] at h2
      have h3 : (if allcloseF news cs then some (cs, labelsOf X cs)
          else some (news, labelsOf X cs)) = some (cs2, L) := h2
      have hLeq : L = labelsOf X cs := by
        by_cases hac : allcloseF news cs
        · rw [if_pos hac] at h3
          exact (congrArg Prod.snd (Option.some.inj h3)).symm
        · rw [if_neg hac] at h3
          exact (congrArg Prod.snd (Option.some.inj h3)).symm
      subst hLeq
      exact clusters_nonempty_of_newCentersF X k cs news hne hlen hnc i hik
  | succ m ih =>
    intro cs cs2 L hlen h i hik
    have h2 : (match newCentersF k X cs (labelsOf X cs) with
      | none => none
      | some news =>
        if allcloseF news cs then some (cs, labelsOf X cs)
        else kmLoop X k (m + 1) news) = some (cs2, L) := h
    rcases hnc : newCentersF k X cs (labelsOf X cs) with _ | news
    · rw [hnc] at h2
      exact absurd h2 (by simp)
    · rw [hnc] at h2
      have h3 : (if allcloseF news cs then some (cs, labelsOf X cs)
          else kmLoop X k (m + 1) news) = some (cs2, L) := h2
      by_cases hac : allcloseF news cs
      · rw [if_pos hac] at h3
        have hLeq : L = labelsOf X cs :=
          (congrArg Prod.snd (Option.some.inj h3)).symm
        subst hLeq
        exact clusters_nonempty_of_newCentersF X k cs news hne hlen hnc i hik
      · rw [if_neg hac] at h3
        have hnlen : news.length = k := by
          unfold newCentersF at hnc
          split at hnc
          · exact absurd hnc (by simp)
          · rw [← Option.some.inj hnc, List.length_map, List.length_range]
        exact ih news cs2 L hnlen h3 i hik

theorem attemptK_bands_nonempty (words : List Frag) (k : Nat)
    (r : List (List Frag)) (hne : words ≠ [])
    (h : attemptK words (words.map centerF) k = some r) :
    ∀ b ∈ r, b ≠ [] := by
  unfold attemptK at h
  by_cases hk : k = 0
  · rw [if_pos hk] at h
    exact absurd h (by simp)
  · rw [if_neg hk] at h
    split at h
    next => exact absurd h (by simp)
    next km hkm =>
      have hr := (Option.some.inj h).symm
      subst hr
      intro b hb
      rcases List.mem_map.1 hb with ⟨i, hi, rfl⟩
      have hik : i < k :=
        List.mem_range.1 ((List.perm_insertionSort _ _).mem_iff.1 hi)
      have hXne : words.map centerF ≠ [] := fun hX => hne (List.map_eq_nil_iff.1 hX)
      rcases km with ⟨csf, L⟩
      have hclne : clusterVals (words.map centerF) L i ≠ [] := by
        refine kmLoop_clusters_nonempty (words.map centerF) k hXne 49
          (initCenters (words.map centerF) k) csf L ?_ hkm i hik
        simp [initCenters, List.length_flatMap, Function.comp_def]
      have hband_ne : (((words.zip L).filter (fun p => p.2 == i)).map (·.1)) ≠ [] := by
        obtain ⟨y, hy⟩ : ∃ y, y ∈ clusterVals (words.map centerF) L i := by
          rcases hcv : clusterVals (words.map centerF) L i with _ | ⟨a, t⟩
          · exact absurd hcv hclne
          · exact ⟨a, List.mem_cons_self a t⟩
        unfold clusterVals at hy
        rcases List.mem_map.1 hy with ⟨p, hp, _⟩
        have hp2 := List.mem_filter.1 hp
        rw [List.zip_map_left] at hp2
        rcases List.mem_map.1 hp2.1 with ⟨q, hq, hqp⟩
        refine List.ne_nil_of_mem (a := q.1) ?_
        refine List.mem_map.2 ⟨q, ?_, rfl⟩
        refine List.mem_filter.2 ⟨hq, ?_⟩
        rw [← hqp] at hp2
        exact hp2.2
      by_cases hilen : i < (((List.range k).map (fun i =>
          ((words.zip L).filter (fun p => p.2 == i)).map (·.1))).map
          (List.insertionSort yxLe)).length
      · rw [List.getD_eq_getElem _ _ hilen, List.getElem_map, List.getElem_map,
          List.getElem_range]
        intro hnil
        have hperm := List.perm_insertionSort yxLe
          (((words.zip L).filter (fun p => p.2 == i)).map (·.1))
        rw [hnil] at hperm
        exact hband_ne (List.Perm.nil_eq hperm).symm
      · exfalso
        refine hilen ?_
        rw [List.length_map, List.length_map, List.length_range]
        exact hik

/-- C10 counterexample: on a single fragment, the k=3 and k=2 attempts
both raise inside `kmeans_1d` — clusters beyond the first are empty, so
`new_centers` mixes a scalar mean with a shape-(1,) old center and
`np.array`/`np.allclose` raises — and `detect_columns` falls through to
k=1, returning ONE band, not three. -/
theorem C10_three_bands_counterexample :
    attemptK [⟨"a", ⟨0, 1⟩, ⟨0, 1⟩, ⟨1, 1⟩, ⟨1, 1⟩⟩]
      (([⟨"a", ⟨0, 1⟩, ⟨0, 1⟩, ⟨1, 1⟩, ⟨1, 1⟩⟩] : List Frag).map centerF) 3 = none ∧
    attemptK [⟨"a", ⟨0, 1⟩, ⟨0, 1⟩, ⟨1, 1⟩, ⟨1, 1⟩⟩]
      (([⟨"a", ⟨0, 1⟩, ⟨0, 1⟩, ⟨1, 1⟩, ⟨1, 1⟩⟩] : List Frag).map centerF) 2 = none ∧
    detect_columns [⟨"a", ⟨0, 1⟩, ⟨0, 1⟩, ⟨1, 1⟩, ⟨1, 1⟩⟩] ⟨600, 1⟩ none =
      [[⟨"a", ⟨0, 1⟩, ⟨0, 1⟩, ⟨1, 1⟩, ⟨1, 1⟩⟩]] ∧
    (detect_columns [⟨"a", ⟨0, 1⟩, ⟨0, 1⟩, ⟨1, 1⟩, ⟨1, 1⟩⟩] ⟨600, 1⟩ none).length ≠ 3 := by
  refine ⟨by decide, by decide, by decide, by decide⟩

/-- C10 (amended): with no caller-supplied expected column count,
`detect_columns` short-circuits empty input to three empty bands; on
nonempty input it returns the bands of the first k among 3, 2, 1 whose
clustering never leaves a cluster empty (an empty cluster makes
`kmeans_1d` raise and the attempt fall through).  The k=1 attempt can
never raise, so the equal-thirds fallback is unreachable and the result
has between 1 and 3 bands — and every returned band is nonempty. -/
theorem C10_first_success_bands (words : List Frag) (pw : Frac) :
    detect_columns ([] : List Frag) pw none = [[], [], []] ∧
    (words ≠ [] →
      attemptK words (words.map centerF) 1 = some [List.insertionSort yxLe words] ∧
      ∃ r, firstAttempt words (words.map centerF) [3, 2, 1] = some r ∧
        detect_columns words pw none = r ∧
        1 ≤ r.length ∧ r.length ≤ 3 ∧ ∀ b ∈ r, b ≠ []) := by
  refine ⟨rfl, ?_⟩
  intro hne
  refine ⟨attemptK_one words hne, ?_⟩
  rcases detect_columns_none_ex words pw hne with ⟨r, hfa, heq⟩
  rcases firstAttempt_cases words (words.map centerF) [3, 2, 1] r hfa with ⟨k, hk, hak⟩
  have hlen := attemptK_length words (words.map centerF) k r hak
  have hk2 : k = 3 ∨ k = 2 ∨ k = 1 := by simpa using hk
  refine ⟨r, hfa, heq, ?_, ?_, attemptK_bands_nonempty words k r hne hak⟩
  · rw [hlen]
    rcases hk2 with rfl | rfl | rfl <;> omega
  · rw [hlen]
    rcases hk2 with rfl | rfl | rfl <;> omega

/-- Witness for the amended C10 on the one-fragment input (where the
first success is k=1 and the single returned band is nonempty). -/
theorem C10_first_success_bands_witness :
    attemptK [⟨"a", ⟨0, 1⟩, ⟨0, 1⟩, ⟨1, 1⟩, ⟨1, 1⟩⟩]
      (([⟨"a", ⟨0, 1⟩, ⟨0, 1⟩, ⟨1, 1⟩, ⟨1, 1⟩⟩] : List Frag).map centerF) 1 =
      some [List.insertionSort yxLe [⟨"a", ⟨0, 1⟩, ⟨0, 1⟩, ⟨1, 1⟩, ⟨1, 1⟩⟩]] ∧
    ∃ r, firstAttempt [⟨"a", ⟨0, 1⟩, ⟨0, 1⟩, ⟨1, 1⟩, ⟨1, 1⟩⟩]
        (([⟨"a", ⟨0, 1⟩, ⟨0, 1⟩, ⟨1, 1⟩, ⟨1, 1⟩⟩] : List Frag).map centerF)
        [3, 2, 1] = some r ∧
      detect_columns [⟨"a", ⟨0, 1⟩, ⟨0, 1⟩, ⟨1, 1⟩, ⟨1, 1⟩⟩] ⟨600, 1⟩ none = r ∧
      1 ≤ r.length ∧ r.length ≤ 3 ∧ ∀ b ∈ r, b ≠ [] :=
  (C10_first_success_bands [⟨"a", ⟨0, 1⟩, ⟨0, 1⟩, ⟨1, 1⟩, ⟨1, 1⟩⟩] ⟨600, 1⟩).2
    (by decide)

/-- C8 counterexample: four fragments whose centers form two groups
(three at 10000000, one at 10000050): the two k=2 quantile seeds
coincide at 10000000, the first iteration labels every point into
cluster 0, and the empty cluster 1 makes `kmeans_1d` raise (scalar mean
mixed with a shape-(1,) old center); the k=3 attempt raises the same
way, so `detect_columns` with `expected_cols = 2` falls through to k=1
and returns ONE band holding all four fragments — not two non-empty
bands. -/
theorem C8_two_columns_counterexample :
    attemptK
      [⟨"a", ⟨10000000, 1⟩, ⟨0, 1⟩, ⟨10000000, 1⟩, ⟨1, 1⟩⟩,
       ⟨"b", ⟨10000000, 1⟩, ⟨2, 1⟩, ⟨10000000, 1⟩, ⟨3, 1⟩⟩,
       ⟨"c", ⟨10000000, 1⟩, ⟨4, 1⟩, ⟨10000000, 1⟩, ⟨5, 1⟩⟩,
       ⟨"d", ⟨10000050, 1⟩, ⟨6, 1⟩, ⟨10000050, 1⟩, ⟨7, 1⟩⟩]
      (([⟨"a", ⟨10000000, 1⟩, ⟨0, 1⟩, ⟨10000000, 1⟩, ⟨1, 1⟩⟩,
         ⟨"b", ⟨10000000, 1⟩, ⟨2, 1⟩, ⟨10000000, 1⟩, ⟨3, 1⟩⟩,
         ⟨"c", ⟨10000000, 1⟩, ⟨4, 1⟩, ⟨10000000, 1⟩, ⟨5, 1⟩⟩,
         ⟨"d", ⟨10000050, 1⟩, ⟨6, 1⟩, ⟨10000050, 1⟩, ⟨7, 1⟩⟩] : List Frag).map
        centerF) 2 = none ∧
    detect_columns
        [⟨"a", ⟨10000000, 1⟩, ⟨0, 1⟩, ⟨10000000, 1⟩, ⟨1, 1⟩⟩,
         ⟨"b", ⟨10000000, 1⟩, ⟨2, 1⟩, ⟨10000000, 1⟩, ⟨3, 1⟩⟩,
         ⟨"c", ⟨10000000, 1⟩, ⟨4, 1⟩, ⟨10000000, 1⟩, ⟨5, 1⟩⟩,
         ⟨"d", ⟨10000050, 1⟩, ⟨6, 1⟩, ⟨10000050, 1⟩, ⟨7, 1⟩⟩]
        ⟨600, 1⟩ (some 2) =
      [[⟨"a", ⟨10000000, 1⟩, ⟨0, 1⟩, ⟨10000000, 1⟩, ⟨1, 1⟩⟩,
        ⟨"b", ⟨10000000, 1⟩, ⟨2, 1⟩, ⟨10000000, 1⟩, ⟨3, 1⟩⟩,
        ⟨"c", ⟨10000000, 1⟩, ⟨4, 1⟩, ⟨10000000, 1⟩, ⟨5, 1⟩⟩,
        ⟨"d", ⟨10000050, 1⟩, ⟨6, 1⟩, ⟨10000050, 1⟩, ⟨7, 1⟩⟩]] := by
  refine ⟨by decide, by decide⟩

/-- C8 (amended): with `expected_cols = 2`, whichever attempt finally
succeeds returns bands ordered by the empty-aware mean-center key (an
empty band keys as 1e9, so nonempty bands come leftmost-first by mean
horizontal center), and within each band fragments are sorted by
(vertical, horizontal) position.  The claimed "exactly 2 non-empty
bands" needs a real separation premise, which the counterexample shows:
when the two k=2 quantile seeds coincide — as for three fragments at
one center and one at another — the first iteration leaves cluster 1
empty, `kmeans_1d` raises, and the call falls back to a single k=1
band.  When the centers take exactly two values and the two quantile
seeds are distinct (strictly ordered between the group values), no
cluster is ever empty, the k=2 attempt succeeds, and the output is
exactly the two groups, the left group first, each sorted by (y, x)
and nonempty.  (Fraction denominators are assumed positive, as they
are for every fraction arising from the program's floats.) -/
theorem C8_two_columns_amended (words : List Frag) (pw : Frac) (ca cb c1 c2 : Frac) :
    ((∀ w ∈ words, 0 < (centerF w).den) →
      List.Pairwise (fun b1 b2 : List Frag =>
        Frac.ble (if b1.isEmpty then bigKeyF else meanF (b1.map centerF))
                 (if b2.isEmpty then bigKeyF else meanF (b2.map centerF)) = true)
        (detect_columns words pw (some 2))) ∧
    ((∀ w ∈ words, 0 < w.y0.den ∧ 0 < w.x0.den) →
      ∀ b ∈ detect_columns words pw (some 2), b.Sorted yxLe) ∧
    ((∀ w ∈ words, 0 < (centerF w).den) →
     (∀ w ∈ words, centerF w = ca ∨ centerF w = cb) →
     (∃ w ∈ words, centerF w = ca) →
     (∃ w ∈ words, centerF w = cb) →
     initCenters (words.map centerF) 2 = [c1, c2] →
     0 < c1.den → 0 < c2.den →
     Frac.ble ca c1 = true → Frac.blt c1 c2 = true → Frac.ble c2 cb = true →
     detect_columns words pw (some 2) =
        [List.insertionSort yxLe (words.filter (fun w => centerF w == ca)),
         List.insertionSort yxLe (words.filter (fun w => !(centerF w == ca)))] ∧
     words.filter (fun w => centerF w == ca) ≠ [] ∧
     words.filter (fun w => !(centerF w == ca)) ≠ []) := by
  refine ⟨?_, ?_, ?_⟩
  · intro hcden
    by_cases hne : words = []
    · subst hne
      show List.Pairwise _ [[], [], []]
      decide
    · rcases detect_columns_some2_ex words pw hne with ⟨r, hfa, heq⟩
      rcases firstAttempt_cases words (words.map centerF) [2, 3, 2, 1] r hfa
        with ⟨k, _, hak⟩
      rw [heq]
      exact attemptK_bands_pairwise words (words.map centerF) k r hcden hak
  · intro hden2
    by_cases hne : words = []
    · subst hne
      intro b hb
      have hdc : detect_columns ([] : List Frag) pw (some 2) = [[], [], []] := rfl
      rw [hdc] at hb
      have hb2 : b = [] ∨ b = [] ∨ b = [] := by simpa using hb
      rcases hb2 with rfl | rfl | rfl <;> exact List.sorted_nil
    · rcases detect_columns_some2_ex words pw hne with ⟨r, hfa, heq⟩
      rcases firstAttempt_cases words (words.map centerF) [2, 3, 2, 1] r hfa
        with ⟨k, _, hak⟩
      rw [heq]
      exact attemptK_bands_sorted words (words.map centerF) k r hden2 hak
  · intro hcden hx hea heb hseed hd1 hd2 hble1 hblt12 hble2
    have hne : words ≠ [] := by
      rcases hea with ⟨w, hw, _⟩
      exact List.ne_nil_of_mem hw
    have hA := attemptK_two_valued words ca cb c1 c2 hcden hx hea heb hseed hd1 hd2
      hble1 hblt12 hble2
    have hfa : firstAttempt words (words.map centerF) [2, 3, 2, 1] =
        some [List.insertionSort yxLe (words.filter (fun w => centerF w == ca)),
              List.insertionSort yxLe (words.filter (fun w => !(centerF w == ca)))] := by
      show (match attemptK words (words.map centerF) 2 with
        | some r => some r
        | none => firstAttempt words (words.map centerF) [3, 2, 1]) = _
      rw [hA]
    have heq := detect_columns_some2_fa words pw hne _ hfa
    rcases hea with ⟨wa, hwa, hwca⟩
    rcases heb with ⟨wb, hwb, hwcb⟩
    have hcaden : 0 < ca.den := hwca ▸ hcden wa hwa
    have hcbden : 0 < cb.den := hwcb ▸ hcden wb hwb
    have hv1 : ca.val ≤ c1.val := (Frac.ble_iff hcaden hd1).1 hble1
    have hv12 : c1.val < c2.val := (Frac.blt_iff hd1 hd2).1 hblt12
    have hv2 : c2.val ≤ cb.val := (Frac.ble_iff hd2 hcbden).1 hble2
    have hab : ca.val < cb.val := lt_of_le_of_lt hv1 (lt_of_lt_of_le hv12 hv2)
    have hcane : ca ≠ cb := fun h2 => absurd (h2 ▸ hab) (lt_irrefl _)
    refine ⟨heq, ?_, ?_⟩
    · exact List.ne_nil_of_mem (List.mem_filter.2 ⟨hwa, by rw [hwca]; simp⟩)
    · exact List.ne_nil_of_mem (List.mem_filter.2 ⟨hwb,
        by rw [hwcb]; simp [beq_eq_false_iff_ne.mpr (Ne.symm hcane)]⟩)

/-- Witness for the amended C8 on two fragments with centers 0 and 12:
the quantile seeds are 4 and 8, distinct, and the output is the two
singleton bands, left first. -/
theorem C8_two_columns_amended_witness :
    detect_columns
        [⟨"l", ⟨0, 1⟩, ⟨0, 1⟩, ⟨0, 1⟩, ⟨1, 1⟩⟩, ⟨"r", ⟨12, 1⟩, ⟨0, 1⟩, ⟨12, 1⟩, ⟨1, 1⟩⟩]
        ⟨600, 1⟩ (some 2) =
      [List.insertionSort yxLe
        ([⟨"l", ⟨0, 1⟩, ⟨0, 1⟩, ⟨0, 1⟩, ⟨1, 1⟩⟩,
          ⟨"r", ⟨12, 1⟩, ⟨0, 1⟩, ⟨12, 1⟩, ⟨1, 1⟩⟩].filter
          (fun w => centerF w == ⟨0, 2⟩)),
       List.insertionSort yxLe
        ([⟨"l", ⟨0, 1⟩, ⟨0, 1⟩, ⟨0, 1⟩, ⟨1, 1⟩⟩,
          ⟨"r", ⟨12, 1⟩, ⟨0, 1⟩, ⟨12, 1⟩, ⟨1, 1⟩⟩].filter
          (fun w => !(centerF w == ⟨0, 2⟩)))] ∧
    ([⟨"l", ⟨0, 1⟩, ⟨0, 1⟩, ⟨0, 1⟩, ⟨1, 1⟩⟩,
      ⟨"r", ⟨12, 1⟩, ⟨0, 1⟩, ⟨12, 1⟩, ⟨1, 1⟩⟩] : List Frag).filter
      (fun w => centerF w == ⟨0, 2⟩) ≠ [] ∧
    ([⟨"l", ⟨0, 1⟩, ⟨0, 1⟩, ⟨0, 1⟩, ⟨1, 1⟩⟩,
      ⟨"r", ⟨12, 1⟩, ⟨0, 1⟩, ⟨12, 1⟩, ⟨1, 1⟩⟩] : List Frag).filter
      (fun w => !(centerF w == ⟨0, 2⟩)) ≠ [] :=
  (C8_two_columns_amended
      [⟨"l", ⟨0, 1⟩, ⟨0, 1⟩, ⟨0, 1⟩, ⟨1, 1⟩⟩, ⟨"r", ⟨12, 1⟩, ⟨0, 1⟩, ⟨12, 1⟩, ⟨1, 1⟩⟩]
      ⟨600, 1⟩ ⟨0, 2⟩ ⟨24, 2⟩ ⟨96, 24⟩ ⟨192, 24⟩).2.2
    (by decide) (by decide) (by decide) (by decide) (by decide) (by decide) (by decide)
    (by decide) (by decide) (by decide)
